import Mathlib

/-!
The files `utils/encoding.cpp` and `xmpp/adhoc_session.cpp` of biboumi.

A shallow embedding of the UTF-8 scanner, validator and XML filter, of the
iconv based charset conversion, of the XEP-0106 escaping functions, and of
the step counter of an ad-hoc command session, together with the properties
proved about them.

Conventions of the embedding

* a byte (`unsigned char`) is a `Nat` below 256;
* a pointer into a buffer is the list of bytes that starts at the pointer
  and runs to the end of the buffer: `str[k]` is `rd str k`, and
  `str += n` is `str.drop n`; a read outside the buffer ends the run with
  `Fault.out_of_bounds`;
* loops are run with fuel; the entry points supply enough of it, and this
  is proved.
-/

namespace utils

/-- Ways a run can end without a value. -/
inductive Fault
  /-- A read or a write outside the buffer (undefined behaviour in C++). -/
  | out_of_bounds
  /-- A `std::runtime_error` is thrown. -/
  | runtime_error
  /-- An `assert` fails. -/
  | assertion_failed
  /-- The scripted answer is not one the external primitive can give. -/
  | not_an_answer
  /-- The loop ran out of fuel, or the scripted primitive out of answers. -/
  | out_of_fuel
  deriving DecidableEq, Repr

deriving instance DecidableEq for Except

/-- The read `str[k]`. -/
def rd (str : List Nat) (k : Nat) : Except Fault Nat :=
  match str[k]? with
  | some b => .ok b
  | none => .error .out_of_bounds

/-- Source: `get_next_codepoint_size`, encoding.cpp lines 27-36. -/
def get_next_codepoint_size (c : Nat) : Nat :=
  if c &&& 0b11111000 = 0b11110000 then 4
  else if c &&& 0b11110000 = 0b11100000 then 3
  else if c &&& 0b11100000 = 0b11000000 then 2
  else 1

/-- The loop `while (*str)` of `is_valid_utf8`, encoding.cpp lines 45-73.
The `||` chains are evaluated left to right and stop at the first true
disjunct, so are the reads here. -/
def is_valid_utf8_loop : Nat → List Nat → Except Fault Bool
  | 0, _ => .error .out_of_fuel
  | fuel + 1, str => do
    let c0 ← rd str 0
    if c0 = 0 then pure true
    else
      let codepoint_size := get_next_codepoint_size c0
      if codepoint_size = 4 then do
        let b1 ← rd str 1
        if b1 = 0 then pure false
        else do
          let b2 ← rd str 2
          if b2 = 0 then pure false
          else do
            let b3 ← rd str 3
            if b3 = 0 then pure false
            else if b1 &&& 0b11000000 ≠ 0b10000000 then pure false
            else if b2 &&& 0b11000000 ≠ 0b10000000 then pure false
            else if b3 &&& 0b11000000 ≠ 0b10000000 then pure false
            else is_valid_utf8_loop fuel (str.drop codepoint_size)
      else if codepoint_size = 3 then do
        let b1 ← rd str 1
        if b1 = 0 then pure false
        else do
          let b2 ← rd str 2
          if b2 = 0 then pure false
          else if b1 &&& 0b11000000 ≠ 0b10000000 then pure false
          else if b2 &&& 0b11000000 ≠ 0b10000000 then pure false
          else is_valid_utf8_loop fuel (str.drop codepoint_size)
      else if codepoint_size = 2 then do
        let b1 ← rd str 1
        if b1 = 0 then pure false
        else if b1 &&& 0b11000000 ≠ 0b10000000 then pure false
        else is_valid_utf8_loop fuel (str.drop codepoint_size)
      else if c0 &&& 0b10000000 ≠ 0 then pure false
      else is_valid_utf8_loop fuel (str.drop codepoint_size)

/-- Source: `is_valid_utf8`, encoding.cpp lines 38-74. The argument is
`none` for a null pointer, and otherwise the buffer the pointer points
to. -/
def is_valid_utf8 (s : Option (List Nat)) : Except Fault Bool :=
  match s with
  | none => pure false
  | some mem => is_valid_utf8_loop (mem.length + 1) mem

/-- The value a `std::bitset<20>` holds after it is assigned `v`: the low
20 bits of `v`. -/
def bitset20 (v : Nat) : Nat := v % 2 ^ 20

/-- The call `memcpy(r, str, n)` followed by `r += n`: `res` holds the bytes
written so far (so `r - res.data()` is `res.length`), `size` is the size of
the vector. -/
def memcpy_r (size : Nat) (res bytes : List Nat) : Except Fault (List Nat) :=
  if res.length + bytes.length ≤ size then .ok (res ++ bytes)
  else .error .out_of_bounds

/-- The loop `while (*str)` of `remove_invalid_xml_chars`, encoding.cpp
lines 87-142. -/
def remove_invalid_xml_chars_loop (size : Nat) :
    Nat → List Nat → List Nat → Except Fault (List Nat)
  | 0, _, _ => .error .out_of_fuel
  | fuel + 1, str, res => do
    let c0 ← rd str 0
    if c0 = 0 then pure res
    else if c0 &&& 0b11111000 = 0b11110000 then do
      let b1 ← rd str 1
      let b2 ← rd str 2
      let b3 ← rd str 3
      let codepoint := bitset20 ((c0 &&& 0b00000111) <<< 18)
        ||| bitset20 ((b1 &&& 0b00111111) <<< 12)
        ||| bitset20 ((b2 &&& 0b00111111) <<< 6)
        ||| bitset20 ((b3 &&& 0b00111111) <<< 0)
      if codepoint ≤ 0x10FFFF then do
        let res1 ← memcpy_r size res [c0, b1, b2, b3]
        remove_invalid_xml_chars_loop size fuel (str.drop 4) res1
      else remove_invalid_xml_chars_loop size fuel (str.drop 4) res
    else if c0 &&& 0b11110000 = 0b11100000 then do
      let b1 ← rd str 1
      let b2 ← rd str 2
      let codepoint := bitset20 ((c0 &&& 0b00001111) <<< 12)
        ||| bitset20 ((b1 &&& 0b00111111) <<< 6)
        ||| bitset20 ((b2 &&& 0b00111111) <<< 0)
      if codepoint ≤ 0xD7FF ∨ (codepoint ≥ 0xE000 ∧ codepoint ≤ 0xFFFD) then do
        let res1 ← memcpy_r size res [c0, b1, b2]
        remove_invalid_xml_chars_loop size fuel (str.drop 3) res1
      else remove_invalid_xml_chars_loop size fuel (str.drop 3) res
    else if c0 &&& 0b11100000 = 0b11000000 then do
      let b1 ← rd str 1
      let res1 ← memcpy_r size res [c0, b1]
      remove_invalid_xml_chars_loop size fuel (str.drop 2) res1
    else if c0 &&& 0b10000000 = 0 then
      let codepoint := bitset20 (c0 &&& 0b01111111)
      if codepoint = 0x09 ∨ codepoint = 0x0A ∨ codepoint = 0x0D ∨ codepoint ≥ 0x20 then do
        let res1 ← memcpy_r size res [c0]
        remove_invalid_xml_chars_loop size fuel (str.drop 1) res1
      else remove_invalid_xml_chars_loop size fuel (str.drop 1) res
    else .error .runtime_error

/-- Source: `remove_invalid_xml_chars`, encoding.cpp lines 76-144. The
scanned buffer is `original.c_str()`, the bytes of the string followed by a
terminating zero; the result vector has `original.size()` bytes. -/
def remove_invalid_xml_chars (original : List Nat) : Except Fault (List Nat) :=
  remove_invalid_xml_chars_loop original.length (original.length + 1) (original ++ [0]) []

/-- The bytes of a zero-terminated buffer that come before the first zero:
the C string the buffer holds. -/
def cstr : List Nat → List Nat
  | [] => []
  | b :: t => if b = 0 then [] else b :: cstr t

/-- A continuation byte, `10xxxxxx`: a byte of 0x80..0xBF. -/
def isCont (b : Nat) : Bool := 0x80 ≤ b && b ≤ 0xBF

/-- A codepoint unit, in the words of the specification: one byte below
0x80, or a byte of 0xC0..0xDF and one continuation byte, or a byte of
0xE0..0xEF and two continuation bytes, or a byte of 0xF0..0xF7 and three
continuation bytes. -/
def isUtf8Unit : List Nat → Bool
  | [b0] => b0 < 0x80
  | [b0, b1] => 0xC0 ≤ b0 && b0 ≤ 0xDF && isCont b1
  | [b0, b1, b2] => 0xE0 ≤ b0 && b0 ≤ 0xEF && isCont b1 && isCont b2
  | [b0, b1, b2, b3] => 0xF0 ≤ b0 && b0 ≤ 0xF7 && isCont b1 && isCont b2 && isCont b3
  | _ => false

/-- A byte sequence is a concatenation of codepoint units. -/
def IsUnitConcat (s : List Nat) : Prop :=
  ∃ us : List (List Nat), (∀ u ∈ us, isUtf8Unit u = true) ∧ us.flatten = s

/-- A recogniser of the concatenations of codepoint units, reading one byte
at a time; the first argument is the number of continuation bytes that the
unit being read still needs (an auxiliary of the proofs). -/
def unitsAux : Nat → List Nat → Bool
  | 0, [] => true
  | _ + 1, [] => false
  | 0, b :: t =>
    if b < 0x80 then unitsAux 0 t
    else if 0xC0 ≤ b ∧ b ≤ 0xDF then unitsAux 1 t
    else if 0xE0 ≤ b ∧ b ≤ 0xEF then unitsAux 2 t
    else if 0xF0 ≤ b ∧ b ≤ 0xF7 then unitsAux 3 t
    else false
  | k + 1, b :: t => isCont b && unitsAux k t

/-- The decision of `remove_invalid_xml_chars` on one codepoint unit, as the
loop body computes it (the tests of encoding.cpp lines 96, 109-110 and
130-133, on the `std::bitset<20>` value): `true` when the unit is copied. -/
def keptByCode : List Nat → Bool
  | [b0] =>
    let codepoint := bitset20 (b0 &&& 0b01111111)
    decide (codepoint = 0x09 ∨ codepoint = 0x0A ∨ codepoint = 0x0D ∨ codepoint ≥ 0x20)
  | [_, _] => true
  | [b0, b1, b2] =>
    let codepoint := bitset20 ((b0 &&& 0b00001111) <<< 12)
      ||| bitset20 ((b1 &&& 0b00111111) <<< 6)
      ||| bitset20 ((b2 &&& 0b00111111) <<< 0)
    decide (codepoint ≤ 0xD7FF ∨ (codepoint ≥ 0xE000 ∧ codepoint ≤ 0xFFFD))
  | [b0, b1, b2, b3] =>
    let codepoint := bitset20 ((b0 &&& 0b00000111) <<< 18)
      ||| bitset20 ((b1 &&& 0b00111111) <<< 12)
      ||| bitset20 ((b2 &&& 0b00111111) <<< 6)
      ||| bitset20 ((b3 &&& 0b00111111) <<< 0)
    decide (codepoint ≤ 0x10FFFF)
  | _ => false

/-- The value decoded from a 3-byte sequence, in the words of the
specification. -/
def decode3 (b0 b1 b2 : Nat) : Nat :=
  ((b0 &&& 0x0F) <<< 12) ||| ((b1 &&& 0x3F) <<< 6) ||| (b2 &&& 0x3F)

/-- The value decoded from a 4-byte sequence, in the words of the
specification. -/
def decode4 (b0 b1 b2 b3 : Nat) : Nat :=
  ((b0 &&& 0x07) <<< 18) ||| ((b1 &&& 0x3F) <<< 12) ||| ((b2 &&& 0x3F) <<< 6) ||| (b3 &&& 0x3F)

/-- The policy of the specification on one codepoint unit: a 1-byte unit is
kept iff its byte is 0x09, 0x0A, 0x0D or at least 0x20, a 2-byte unit is
always kept, a 3-byte unit is kept iff its decoded value is at most 0xD7FF
or lies in 0xE000..0xFFFD, a 4-byte unit is kept iff its decoded value is
at most 0x10FFFF. -/
def keptByPolicy : List Nat → Bool
  | [b0] => decide (b0 = 0x09 ∨ b0 = 0x0A ∨ b0 = 0x0D ∨ b0 ≥ 0x20)
  | [_, _] => true
  | [b0, b1, b2] =>
    decide (decode3 b0 b1 b2 ≤ 0xD7FF ∨ (0xE000 ≤ decode3 b0 b1 b2 ∧ decode3 b0 b1 b2 ≤ 0xFFFD))
  | [b0, b1, b2, b3] => decide (decode4 b0 b1 b2 b3 ≤ 0x10FFFF)
  | _ => false

/-- A Unicode scalar value: at most 0x10FFFF and not a surrogate. -/
def IsScalar (v : Nat) : Prop := v ≤ 0x10FFFF ∧ ¬ (0xD800 ≤ v ∧ v ≤ 0xDFFF)

/-- The standard UTF-8 encoding of one scalar value (RFC 3629); `v / 64` is
the shift `v >> 6` and `v % 64` the mask `v & 0x3F`. -/
def utf8_encode_scalar (v : Nat) : List Nat :=
  if v < 0x80 then [v]
  else if v < 0x800 then [0xC0 + v / 64, 0x80 + v % 64]
  else if v < 0x10000 then [0xE0 + v / 4096, 0x80 + v / 64 % 64, 0x80 + v % 64]
  else [0xF0 + v / 262144, 0x80 + v / 4096 % 64, 0x80 + v / 64 % 64, 0x80 + v % 64]

/-- The standard UTF-8 encoding of a list of scalar values. -/
def utf8_encode (vs : List Nat) : List Nat := (vs.map utf8_encode_scalar).flatten

/-- The placeholder `invalid_char` of encoding.cpp line 19, U+FFFD in UTF-8. -/
def invalid_char : List Nat := [0xEF, 0xBF, 0xBD]

/-- Source: `invalid_char_len`, encoding.cpp line 20. -/
def invalid_char_len : Nat := 3

/-- What a call of `iconv` reports: a return value other than `(size_t)-1`,
or `(size_t)-1` with `errno` set. -/
inductive IconvSignal
  | success
  | EILSEQ
  | EINVAL
  | E2BIG
  | other_errno
  deriving DecidableEq, Repr

/-- One call of the external primitive `iconv`, as its caller sees it: the
number of input bytes it consumed (it advances `inbuf_ptr` and decreases
`inbytesleft` by that much), the bytes it wrote at `outbuf_ptr` (it advances
`outbuf_ptr` and decreases `outbytesleft` by their number), and what it
reported. A run of `convert_to_utf8` is driven by the list of the answers of
the successive calls. -/
structure IconvCall where
  consumed : Nat
  emitted : List Nat
  signal : IconvSignal
  deriving DecidableEq, Repr

/-- The variables of `convert_to_utf8`; the two pointers are offsets, into
`str.c_str()` and into `outbuf`. -/
structure ConvState where
  inbuf_ptr : Nat
  inbytesleft : Nat
  outbuf : List Nat
  outbuf_ptr : Nat
  outbytesleft : Nat
  deriving DecidableEq, Repr

/-- A write of `bytes` into the buffer `buf` at offset `off`; outside the
buffer it is undefined behaviour. -/
def write_at (buf : List Nat) (off : Nat) (bytes : List Nat) : Except Fault (List Nat) :=
  if off + bytes.length ≤ buf.length then
    .ok (buf.take off ++ bytes ++ buf.drop (off + bytes.length))
  else .error .out_of_bounds

/-- The effect of one call `iconv(cd, &inbuf_ptr, &inbytesleft, &outbuf_ptr,
&outbytesleft)` with the answer `r`. The primitive consumes at most
`inbytesleft` bytes and writes at most `outbytesleft` bytes: an answer that
does not is not one the primitive can give. -/
def iconv_call (r : IconvCall) (st : ConvState) : Except Fault ConvState :=
  if r.consumed ≤ st.inbytesleft ∧ r.emitted.length ≤ st.outbytesleft then do
    let buf ← write_at st.outbuf st.outbuf_ptr r.emitted
    pure { inbuf_ptr := st.inbuf_ptr + r.consumed
           inbytesleft := st.inbytesleft - r.consumed
           outbuf := buf
           outbuf_ptr := st.outbuf_ptr + r.emitted.length
           outbytesleft := st.outbytesleft - r.emitted.length }
  else .error .not_an_answer

/-- The loop `while (done == false)` of `convert_to_utf8`, encoding.cpp
lines 175-211; `inbytesleft--` is on a `size_t`. -/
def convert_loop : List IconvCall → ConvState → Except Fault ConvState
  | [], _ => .error .out_of_fuel
  | r :: script, st => do
    let st1 ← iconv_call r st
    match r.signal with
    | .success => pure st1
    | .EILSEQ => do
      let buf ← write_at st1.outbuf st1.outbuf_ptr invalid_char
      convert_loop script
        { st1 with
          outbuf := buf
          outbuf_ptr := st1.outbuf_ptr + invalid_char_len
          inbytesleft := (st1.inbytesleft + 2 ^ 64 - 1) % 2 ^ 64
          inbuf_ptr := st1.inbuf_ptr + 1 }
    | .EINVAL => do
      let buf ← write_at st1.outbuf st1.outbuf_ptr invalid_char
      pure { st1 with outbuf := buf, outbuf_ptr := st1.outbuf_ptr + invalid_char_len + 1 }
    | .E2BIG => pure st1
    | .other_errno => pure st1

/-- The variables of `convert_to_utf8` when the loop is entered, encoding.cpp
lines 157-169: `new char[outbytesleft]` gives a buffer of `str.size() * 4`
bytes (a product of `size_t`) whose contents are whatever the memory held,
`fill i` at offset `i`. -/
def convert_init (str : List Nat) (fill : Nat → Nat) : ConvState :=
  { inbuf_ptr := 0
    inbytesleft := str.length
    outbuf := (List.range (str.length * 4 % 2 ^ 64)).map fill
    outbuf_ptr := 0
    outbytesleft := str.length * 4 % 2 ^ 64 }

/-- The assignment `res = outbuf` of a `char*` to a `std::string`: the bytes
of the buffer before its first zero byte. -/
def string_of_buffer (buf : List Nat) : Except Fault (List Nat) :=
  if 0 ∈ buf then .ok (cstr buf) else .error .out_of_bounds

/-- Source: `convert_to_utf8`, encoding.cpp lines 146-217. `open_ok` tells
whether `iconv_open` gave a conversion descriptor for the charset, `fill` is
the prior contents of the memory of the output buffer, `script` the answers
of the successive calls of `iconv`. -/
def convert_to_utf8 (str : List Nat) (open_ok : Bool) (fill : Nat → Nat)
    (script : List IconvCall) : Except Fault (List Nat) :=
  if open_ok = false then .error .runtime_error
  else do
    let st ← convert_loop script (convert_init str fill)
    let buf ← write_at st.outbuf st.outbuf_ptr [0]
    string_of_buffer buf

/-- The accumulated output of a run in which the primitive signals an
invalid byte at each call of `es` and then answers `fin`: the bytes of each
call, in order, with the placeholder after those of each call of `es`. -/
def accumulated (es : List IconvCall) (fin : IconvCall) : List Nat :=
  es.flatMap (fun e => e.emitted ++ invalid_char) ++ fin.emitted

end utils

namespace xep0106

/-- Source: `encode_map`, encoding.cpp lines 223-233, as the list of its
entries in the order a `std::map` iterates them (increasing key). The keys
are the characters space, `"`, `&`, apostrophe, `/`, `:`, `<`, `>`, `@`; a
token is a backslash (0x5C) and two lowercase hexadecimal digits. -/
def encode_map : List (Nat × List Nat) :=
  [(0x20, [0x5C, 0x32, 0x30]),   -- ' '  ↦ \20
   (0x22, [0x5C, 0x32, 0x32]),   -- '"'  ↦ \22
   (0x26, [0x5C, 0x32, 0x36]),   -- '&'  ↦ \26
   (0x27, [0x5C, 0x32, 0x37]),   -- '\'' ↦ \27
   (0x2F, [0x5C, 0x32, 0x66]),   -- '/'  ↦ \2f
   (0x3A, [0x5C, 0x33, 0x61]),   -- ':'  ↦ \3a
   (0x3C, [0x5C, 0x33, 0x63]),   -- '<'  ↦ \3c
   (0x3E, [0x5C, 0x33, 0x65]),   -- '>'  ↦ \3e
   (0x40, [0x5C, 0x34, 0x30])]   -- '@'  ↦ \40

/-- The argument of `find_first_of` at encoding.cpp line 247: the characters
space, `"`, `&`, apostrophe, `/`, `:`, `<`, `>`, `@`. -/
def reserved_chars : List Nat := [0x20, 0x22, 0x26, 0x27, 0x2F, 0x3A, 0x3C, 0x3E, 0x40]

/-- Whether `pat` occurs in `s` at position 0. -/
def starts_with (pat s : List Nat) : Bool := s.take pat.length == pat

/-- The call `s.find(pat)` of `std::string`: the lowest position at which
`pat` occurs in `s`, `none` for `npos`. -/
def find : List Nat → List Nat → Option Nat
  | [], pat => if pat = [] then some 0 else none
  | c :: s, pat => if starts_with pat (c :: s) then some 0 else (find s pat).map (· + 1)

/-- The call `s.find_first_of(chars)` of `std::string`: the lowest position
of `s` that holds one of the characters of `chars`, `none` for `npos`. -/
def find_first_of : List Nat → List Nat → Option Nat
  | [], _ => none
  | c :: s, chars => if c ∈ chars then some 0 else (find_first_of s chars).map (· + 1)

/-- The call `s.replace(pos, len, str)` of `std::string`, for `pos` within
the string. -/
def replace (s : List Nat) (pos len : Nat) (str : List Nat) : List Nat :=
  s.take pos ++ str ++ s.drop (pos + len)

/-- The loop of one table entry in `decode`, encoding.cpp lines 239-241:
`s.replace(pos, pair.second.size(), 1, pair.first)` puts one copy of the
key in the place of the token. -/
def decode_entry : Nat → List Nat → Nat → List Nat → Except utils.Fault (List Nat)
  | _, _, 0, _ => .error .out_of_fuel
  | first, second, fuel + 1, s =>
    match find s second with
    | none => .ok s
    | some pos =>
      decode_entry first second fuel (replace s pos second.length (List.replicate 1 first))

/-- The loop `for (const auto& pair: encode_map)` of `decode`. -/
def decode_entries : List (Nat × List Nat) → List Nat → Except utils.Fault (List Nat)
  | [], s => .ok s
  | pair :: rest, s =>
    decode_entry pair.1 pair.2 (s.length + 1) s >>= fun s1 => decode_entries rest s1

/-- Source: `xep0106::decode`, encoding.cpp lines 235-242; the result is
the value the string holds when the function returns. -/
def decode (s : List Nat) : Except utils.Fault (List Nat) := decode_entries encode_map s

/-- The loop of `encode`, encoding.cpp lines 247-252. -/
def encode_loop : Nat → List Nat → Except utils.Fault (List Nat)
  | 0, _ => .error .out_of_fuel
  | fuel + 1, s =>
    match find_first_of s reserved_chars with
    | none => .ok s
    | some pos =>
      match s[pos]? with
      | none => .error .out_of_bounds
      | some c =>
        match encode_map.lookup c with
        | none => .error .assertion_failed
        | some second => encode_loop fuel (replace s pos 1 second)

/-- Source: `xep0106::encode`, encoding.cpp lines 244-253; the result is
the value the string holds when the function returns. -/
def encode (s : List Nat) : Except utils.Fault (List Nat) := encode_loop (s.length + 1) s

/-- The substitution of every character that is a key of `table` by its
token, character by character. -/
def escape (table : List (Nat × List Nat)) (s : List Nat) : List Nat :=
  s.flatMap (fun c => (table.lookup c).getD [c])

/-- A token of the expected shape: a backslash and two characters that are
not a backslash. -/
def tokenOK : List Nat → Bool
  | [a, b, c] => a == 0x5C && b != 0x5C && c != 0x5C
  | _ => false

/-- The facts about a table that the proofs use: every token is a backslash
and two other characters, no token holds its own key, no key and no token
occurs twice. -/
def tableOK : List (Nat × List Nat) → Bool
  | [] => true
  | (k, tok) :: rest =>
    tokenOK tok && !tok.contains k
      && rest.all (fun e => e.1 != k && e.2 != tok && tokenOK e.2) && tableOK rest

end xep0106

namespace utils

/-- The scan of the specification of the failure of `remove_invalid_xml_chars`,
as a function: it starts at the first byte and advances by 4, 3, 2 or 1
bytes according to the class of the lead byte; it tells whether it reaches,
before a zero byte and within the buffer, a byte of 0x80..0xBF or 0xF8..0xFF
at a codepoint start (an auxiliary of the proofs; `StrayReached` states the
same without fuel). -/
def scan_reaches_stray : Nat → List Nat → Bool
  | 0, _ => false
  | _ + 1, [] => false
  | fuel + 1, c :: t =>
    if c = 0 then false
    else if (0x80 ≤ c ∧ c ≤ 0xBF) ∨ 0xF8 ≤ c then true
    else scan_reaches_stray fuel ((c :: t).drop (get_next_codepoint_size c))

/-- A byte that is neither a lead byte nor a plain character: a byte of
0x80..0xBF or of 0xF8..0xFF. -/
def isStray (b : Nat) : Prop := (0x80 ≤ b ∧ b ≤ 0xBF) ∨ 0xF8 ≤ b

/-- The scan of the buffer `mem`, started at the first byte and advanced by
4, 3, 2 or 1 bytes according to the class of the lead byte, reaches a stray
byte at a codepoint start before it reaches a zero byte at a codepoint
start: the bytes before the stray byte `b` are the chunks the scan stepped
over, each of them a non-zero byte that is not stray and as many bytes in
all as its class tells. -/
def StrayReached (mem : List Nat) : Prop :=
  ∃ (chunks : List (List Nat)) (b : Nat) (tail : List Nat),
    mem = chunks.flatten ++ b :: tail ∧ isStray b ∧
    ∀ ch ∈ chunks, ∃ c r, ch = c :: r ∧ c ≠ 0 ∧ ¬ isStray c ∧
      ch.length = get_next_codepoint_size c

/-- The value decoded from a 2-byte sequence, in the words of the
specification. -/
def decode2 (b0 b1 : Nat) : Nat := ((b0 &&& 0x1F) <<< 6) ||| (b1 &&& 0x3F)

/-- The values that the specification gives as legal in XML 1.0, among
those a 2-byte sequence can decode to: 0x09, 0x0A, 0x0D and 0x20..0xD7FF. -/
def xmlLegal (v : Nat) : Prop := v = 0x09 ∨ v = 0x0A ∨ v = 0x0D ∨ (0x20 ≤ v ∧ v ≤ 0xD7FF)

end utils

namespace xep0106

/-- The lowercase hexadecimal digit of a value below 16, as a character. -/
def hex_digit (d : Nat) : Nat := if d < 10 then 0x30 + d else 0x61 + (d - 10)

/-- The token of a character, in the words of the specification: a
backslash followed by the two lowercase hexadecimal digits of its code. -/
def token_of (c : Nat) : List Nat := [0x5C, hex_digit (c / 16), hex_digit (c % 16)]

/-- The substitution of the specification, character by character: each of
the nine reserved characters is replaced by its token, every other
character is left as it is. -/
def substitute (s : List Nat) : List Nat :=
  s.flatMap (fun c => if c ∈ reserved_chars then token_of c else [c])

end xep0106

/-- Modelled from the spec: the command of a session. Its declaration is in
`xmpp/adhoc_command.hpp`, which is not among the sources; the session uses
its member `callbacks`, the sequence of the steps of the command, through
`size()` and `operator[]`. A step is a value of the type `Step`. -/
structure AdhocCommand (Step : Type) where
  callbacks : List Step

/-- The members of `AdhocSession` that the constructor of adhoc_session.cpp
initialises (lines 6-14). The class is declared in `xmpp/adhoc_session.hpp`,
which is not among the sources; `current_step` is taken to be a `size_t`, as
`callbacks.size()` is. -/
structure AdhocSession (Step : Type) where
  command : AdhocCommand Step
  owner_jid : List Nat
  to_jid : List Nat
  current_step : Nat
  terminated : Bool

namespace AdhocSession

/-- Source: the constructor `AdhocSession::AdhocSession`, adhoc_session.cpp
lines 6-14. -/
def new {Step : Type} (command : AdhocCommand Step) (owner_jid to_jid : List Nat) :
    AdhocSession Step :=
  { command := command
    owner_jid := owner_jid
    to_jid := to_jid
    current_step := 0
    terminated := false }

/-- Source: `AdhocSession::get_next_step`, adhoc_session.cpp lines 16-20: the
step returned and the session after the call, or the failure of the
`assert`. -/
def get_next_step {Step : Type} (s : AdhocSession Step) :
    Except utils.Fault (Step × AdhocSession Step) :=
  if h : s.current_step < s.command.callbacks.length then
    .ok (s.command.callbacks.get ⟨s.current_step, h⟩,
      { s with current_step := (s.current_step + 1) % 2 ^ 64 })
  else .error .assertion_failed

/-- Source: `AdhocSession::remaining_steps`, adhoc_session.cpp lines 22-25: a
difference of two `size_t`. -/
def remaining_steps {Step : Type} (s : AdhocSession Step) : Nat :=
  (s.command.callbacks.length + 2 ^ 64 - s.current_step) % 2 ^ 64

/-- Source: `AdhocSession::is_terminated`, adhoc_session.cpp lines 27-30. -/
def is_terminated {Step : Type} (s : AdhocSession Step) : Bool := s.terminated

/-- Source: `AdhocSession::terminate`, adhoc_session.cpp lines 32-35. -/
def terminate {Step : Type} (s : AdhocSession Step) : AdhocSession Step :=
  { s with terminated := true }

/-- The session after `n` calls of `get_next_step` that all return. -/
def after_calls {Step : Type} : Nat → AdhocSession Step → Except utils.Fault (AdhocSession Step)
  | 0, s => .ok s
  | n + 1, s => get_next_step s >>= fun r => after_calls n r.2

end AdhocSession

namespace xep0106

/-- The entry of `table` whose token stands at the head of `l`, if there is
one. -/
def token_at (table : List (Nat × List Nat)) (l : List Nat) : Option (Nat × List Nat) :=
  table.find? (fun e => starts_with e.2 l)

/-- A single pass over the string from left to right, which replaces every
occurrence of a token of `table` by the key of its entry; `skip` is the
number of characters of the token just replaced that are still to be
stepped over. -/
def single_pass (table : List (Nat × List Nat)) : Nat → List Nat → List Nat
  | _, [] => []
  | skip + 1, _ :: s => single_pass table skip s
  | 0, c :: s =>
    match token_at table (c :: s) with
    | some e => e.1 :: single_pass table (e.2.length - 1) s
    | none => c :: single_pass table 0 s

/-- The facts about a table that the comparison with the single pass uses:
every token is a backslash and two other characters, no key occurs in a
token, and two entries with the same token are the same entry. -/
def GoodTable (table : List (Nat × List Nat)) : Prop :=
  (∀ e ∈ table, tokenOK e.2 = true) ∧ (∀ e ∈ table, ∀ e1 ∈ table, e.1 ∉ e1.2) ∧
    (∀ e ∈ table, ∀ e1 ∈ table, e.2 = e1.2 → e = e1)

end xep0106

namespace utils

/-- A chunk the scan of `remove_invalid_xml_chars` steps over in one turn of
its loop: a lead byte that is neither zero nor stray, and as many bytes in
all as `get_next_codepoint_size` tells for the lead byte. -/
def ScanChunk (ch : List Nat) : Prop :=
  ∃ c r, ch = c :: r ∧ c ≠ 0 ∧ ¬ isStray c ∧ ch.length = get_next_codepoint_size c

/-- The scan of the buffer `mem` steps over its end: after whole chunks it
stands at a lead byte `c`, neither zero nor stray, and the bytes `c :: r`
left in the buffer are no more than the class of `c` tells, so that the step
from `c` takes the scan past the last byte of the buffer, which is the
terminator when the buffer is the `c_str()` of a string. -/
def ScanLeavesBuffer (mem : List Nat) : Prop :=
  ∃ (chunks : List (List Nat)) (c : Nat) (r : List Nat),
    mem = chunks.flatten ++ c :: r ∧ c ≠ 0 ∧ ¬ isStray c ∧
    (c :: r).length ≤ get_next_codepoint_size c ∧ ∀ ch ∈ chunks, ScanChunk ch

end utils

namespace utils

set_option maxRecDepth 100000 in
/-- The bit masks of the source, as ranges of the byte. -/
theorem mask_table : ∀ c, c < 256 →
    (c &&& 0b11111000 = 0b11110000 ↔ 0xF0 ≤ c ∧ c ≤ 0xF7) ∧
    (c &&& 0b11110000 = 0b11100000 ↔ 0xE0 ≤ c ∧ c ≤ 0xEF) ∧
    (c &&& 0b11100000 = 0b11000000 ↔ 0xC0 ≤ c ∧ c ≤ 0xDF) ∧
    (c &&& 0b11000000 = 0b10000000 ↔ 0x80 ≤ c ∧ c ≤ 0xBF) ∧
    (c &&& 0b10000000 = 0 ↔ c < 0x80) := by
  decide

set_option maxRecDepth 100000 in
/-- The classification of `get_next_codepoint_size`, byte by byte. -/
theorem size_table : ∀ c, c < 256 →
    (get_next_codepoint_size c = 4 ↔ 0xF0 ≤ c ∧ c ≤ 0xF7) ∧
    (get_next_codepoint_size c = 3 ↔ 0xE0 ≤ c ∧ c ≤ 0xEF) ∧
    (get_next_codepoint_size c = 2 ↔ 0xC0 ≤ c ∧ c ≤ 0xDF) ∧
    (get_next_codepoint_size c = 1 ↔ c ≤ 0xBF ∨ 0xF8 ≤ c) := by
  decide

theorem rd_zero (a : Nat) (l : List Nat) : rd (a :: l) 0 = .ok a := by simp [rd]

theorem rd_succ (a : Nat) (l : List Nat) (k : Nat) : rd (a :: l) (k + 1) = rd l k := by
  simp [rd]

theorem rd_nil (k : Nat) : rd [] k = .error .out_of_bounds := by simp [rd]

theorem ok_bind {α β : Type} (a : α) (f : α → Except Fault β) :
    (Except.ok a >>= f) = f a := rfl

theorem error_bind {α β : Type} (e : Fault) (f : α → Except Fault β) :
    (Except.error e >>= f) = Except.error e := rfl

theorem pure_eq_ok {α : Type} (a : α) : (pure a : Except Fault α) = Except.ok a := rfl

theorem cont_iff (b : Nat) (hb : b < 256) : b &&& 0b11000000 = 0b10000000 ↔ isCont b = true := by
  have h := (mask_table b hb).2.2.2.1
  simp only [isCont, Bool.and_eq_true, decide_eq_true_eq]
  exact h

theorem is_valid_utf8_loop_nul (fuel : Nat) (rest : List Nat) :
    is_valid_utf8_loop (fuel + 1) (0 :: rest) = .ok true := by
  rw [is_valid_utf8_loop]
  simp [rd_zero, ok_bind, pure_eq_ok]

theorem is_valid_utf8_loop_size1 (fuel c : Nat) (t : List Nat) (hc0 : c ≠ 0)
    (hs : get_next_codepoint_size c = 1) :
    is_valid_utf8_loop (fuel + 1) (c :: t) =
      if c &&& 0b10000000 ≠ 0 then .ok false else is_valid_utf8_loop fuel t := by
  rw [is_valid_utf8_loop]
  simp [rd_zero, ok_bind, pure_eq_ok, hc0, hs]

theorem is_valid_utf8_loop_size2 (fuel c : Nat) (t : List Nat) (hc0 : c ≠ 0)
    (hs : get_next_codepoint_size c = 2) :
    is_valid_utf8_loop (fuel + 1) (c :: t) =
      (rd t 0 >>= fun b1 =>
        if b1 = 0 then .ok false
        else if b1 &&& 0b11000000 ≠ 0b10000000 then .ok false
        else is_valid_utf8_loop fuel (t.drop 1)) := by
  rw [is_valid_utf8_loop]
  simp [rd_zero, rd_succ, ok_bind, pure_eq_ok, hc0, hs]

theorem is_valid_utf8_loop_size3 (fuel c : Nat) (t : List Nat) (hc0 : c ≠ 0)
    (hs : get_next_codepoint_size c = 3) :
    is_valid_utf8_loop (fuel + 1) (c :: t) =
      (rd t 0 >>= fun b1 =>
        if b1 = 0 then .ok false
        else rd t 1 >>= fun b2 =>
          if b2 = 0 then .ok false
          else if b1 &&& 0b11000000 ≠ 0b10000000 then .ok false
          else if b2 &&& 0b11000000 ≠ 0b10000000 then .ok false
          else is_valid_utf8_loop fuel (t.drop 2)) := by
  rw [is_valid_utf8_loop]
  simp [rd_zero, rd_succ, ok_bind, pure_eq_ok, hc0, hs]

theorem is_valid_utf8_loop_size4 (fuel c : Nat) (t : List Nat) (hc0 : c ≠ 0)
    (hs : get_next_codepoint_size c = 4) :
    is_valid_utf8_loop (fuel + 1) (c :: t) =
      (rd t 0 >>= fun b1 =>
        if b1 = 0 then .ok false
        else rd t 1 >>= fun b2 =>
          if b2 = 0 then .ok false
          else rd t 2 >>= fun b3 =>
            if b3 = 0 then .ok false
            else if b1 &&& 0b11000000 ≠ 0b10000000 then .ok false
            else if b2 &&& 0b11000000 ≠ 0b10000000 then .ok false
            else if b3 &&& 0b11000000 ≠ 0b10000000 then .ok false
            else is_valid_utf8_loop fuel (t.drop 3)) := by
  rw [is_valid_utf8_loop]
  simp [rd_zero, rd_succ, ok_bind, pure_eq_ok, hc0, hs]

theorem unitsAux_unit (u rest : List Nat) (hu : isUtf8Unit u = true) :
    unitsAux 0 (u ++ rest) = unitsAux 0 rest := by
  rcases u with _ | ⟨b0, _ | ⟨b1, _ | ⟨b2, _ | ⟨b3, _ | ⟨b4, r⟩⟩⟩⟩⟩ <;>
    simp [isUtf8Unit] at hu
  · simp [unitsAux, hu]
  · obtain ⟨⟨h1, h2⟩, h3⟩ := hu
    have : ¬ b0 < 128 := by omega
    simp [unitsAux, *]
  · obtain ⟨⟨⟨h1, h2⟩, h3⟩, h4⟩ := hu
    have : ¬ b0 < 128 := by omega
    have : ¬ (192 ≤ b0 ∧ b0 ≤ 223) := by omega
    simp [unitsAux, *]
  · obtain ⟨⟨⟨⟨h1, h2⟩, h3⟩, h4⟩, h5⟩ := hu
    have : ¬ b0 < 128 := by omega
    have : ¬ (192 ≤ b0 ∧ b0 ≤ 223) := by omega
    have : ¬ (224 ≤ b0 ∧ b0 ≤ 239) := by omega
    simp [unitsAux, *]

theorem unitsAux_of_concat (s : List Nat) (h : IsUnitConcat s) : unitsAux 0 s = true := by
  obtain ⟨us, hus, rfl⟩ := h
  induction us with
  | nil => simp [unitsAux]
  | cons u us ih =>
    rw [List.flatten_cons, unitsAux_unit u _ (hus u (by simp))]
    exact ih (fun v hv => hus v (List.mem_cons_of_mem _ hv))

theorem concat_of_unitsAux (n : Nat) : ∀ s : List Nat, s.length ≤ n → unitsAux 0 s = true →
    IsUnitConcat s := by
  induction n with
  | zero =>
    intro s hl _
    have : s = [] := List.length_eq_zero.mp (by omega)
    subst this
    exact ⟨[], by simp, rfl⟩
  | succ n ih =>
    intro s hl h
    rcases s with _ | ⟨b0, t⟩
    · exact ⟨[], by simp, rfl⟩
    · simp only [List.length_cons] at hl
      have cons_unit : ∀ (u r : List Nat), isUtf8Unit u = true → IsUnitConcat r →
          IsUnitConcat (u ++ r) := by
        intro u r hu ⟨us, hus, hr⟩
        refine ⟨u :: us, ?_, by simp [hr]⟩
        intro v hv
        rcases List.mem_cons.mp hv with rfl | hv
        · exact hu
        · exact hus v hv
      by_cases h1 : b0 < 0x80
      · simp [unitsAux, h1] at h
        exact cons_unit [b0] t (by simp [isUtf8Unit, h1]) (ih t (by omega) h)
      by_cases h2 : 0xC0 ≤ b0 ∧ b0 ≤ 0xDF
      · rcases t with _ | ⟨b1, r⟩ <;> simp [unitsAux, h1, h2] at h
        exact cons_unit [b0, b1] r (by simp [isUtf8Unit, h2, h.1])
          (ih r (by simp at hl; omega) h.2)
      by_cases h3 : 0xE0 ≤ b0 ∧ b0 ≤ 0xEF
      · rcases t with _ | ⟨b1, _ | ⟨b2, r⟩⟩ <;> simp [unitsAux, h1, h2, h3] at h
        exact cons_unit [b0, b1, b2] r (by simp [isUtf8Unit, h3, h.1, h.2.1])
          (ih r (by simp at hl; omega) h.2.2)
      by_cases h4 : 0xF0 ≤ b0 ∧ b0 ≤ 0xF7
      · rcases t with _ | ⟨b1, _ | ⟨b2, _ | ⟨b3, r⟩⟩⟩ <;> simp [unitsAux, h1, h2, h3, h4] at h
        exact cons_unit [b0, b1, b2, b3] r (by simp [isUtf8Unit, h4, h.1, h.2.1, h.2.2.1])
          (ih r (by simp at hl; omega) h.2.2.2)
      · simp [unitsAux, h1, h2, h3, h4] at h

theorem unitsAux_lead (c : Nat) (t : List Nat) :
    (c < 0x80 → unitsAux 0 (c :: t) = unitsAux 0 t) ∧
    (0xC0 ≤ c ∧ c ≤ 0xDF → unitsAux 0 (c :: t) = unitsAux 1 t) ∧
    (0xE0 ≤ c ∧ c ≤ 0xEF → unitsAux 0 (c :: t) = unitsAux 2 t) ∧
    (0xF0 ≤ c ∧ c ≤ 0xF7 → unitsAux 0 (c :: t) = unitsAux 3 t) ∧
    ((0x80 ≤ c ∧ c ≤ 0xBF) ∨ 0xF8 ≤ c → unitsAux 0 (c :: t) = false) := by
  refine ⟨fun h => ?_, fun h => ?_, fun h => ?_, fun h => ?_, fun h => ?_⟩
  · simp [unitsAux, h]
  · have : ¬ c < 128 := by omega
    simp [unitsAux, *]
  · have : ¬ c < 128 := by omega
    have : ¬ (192 ≤ c ∧ c ≤ 223) := by omega
    simp [unitsAux, *]
  · have : ¬ c < 128 := by omega
    have : ¬ (192 ≤ c ∧ c ≤ 223) := by omega
    have : ¬ (224 ≤ c ∧ c ≤ 239) := by omega
    simp [unitsAux, *]
  · have : ¬ c < 128 := by omega
    have : ¬ (192 ≤ c ∧ c ≤ 223) := by omega
    have : ¬ (224 ≤ c ∧ c ≤ 239) := by omega
    have : ¬ (240 ≤ c ∧ c ≤ 247) := by omega
    simp [unitsAux, *]

theorem is_valid_utf8_loop_eq_unitsAux (fuel : Nat) : ∀ (s rest : List Nat),
    0 ∉ s → (∀ b ∈ s, b < 256) → s.length < fuel →
    is_valid_utf8_loop fuel (s ++ 0 :: rest) = .ok (unitsAux 0 s) := by
  induction fuel with
  | zero => intro s rest _ _ h; omega
  | succ fuel ih =>
    intro s rest h0 hb hlen
    rcases s with _ | ⟨c, t⟩
    · simp [is_valid_utf8_loop_nul, unitsAux]
    · have hc0 : c ≠ 0 := by
        intro h; apply h0; simp [h]
      have hc : c < 256 := hb c (by simp)
      obtain ⟨hs4, hs3, hs2, hs1⟩ := size_table c hc
      obtain ⟨hl1, hl2, hl3, hl4, hl0⟩ := unitsAux_lead c t
      have hm := (mask_table c hc).2.2.2.2
      simp only [List.length_cons] at hlen
      by_cases h4 : get_next_codepoint_size c = 4
      · rw [hl4 (hs4.1 h4), List.cons_append, is_valid_utf8_loop_size4 _ _ _ hc0 h4]
        rcases t with _ | ⟨b1, _ | ⟨b2, _ | ⟨b3, r⟩⟩⟩
        · simp [rd_zero, ok_bind, unitsAux]
        · simp at h0 hb
          have := cont_iff b1 hb.2
          simp [rd_zero, rd_succ, ok_bind, unitsAux, Ne.symm h0.2]
        · simp at h0 hb
          simp [rd_zero, rd_succ, ok_bind, unitsAux, Ne.symm h0.2.1, Ne.symm h0.2.2]
        · simp at h0 hb hlen
          obtain ⟨_, n1, n2, n3, h0r⟩ := h0
          obtain ⟨_, c1, c2, c3, hbr⟩ := hb
          have ihr := ih r rest h0r hbr (by omega)
          simp only [List.cons_append, rd_zero, rd_succ, ok_bind, Ne.symm n1, Ne.symm n2,
            Ne.symm n3, if_false, cont_iff b1 c1, cont_iff b2 c2, cont_iff b3 c3, unitsAux,
            List.drop_succ_cons, List.drop_zero, ihr, ne_eq]
          cases isCont b1 <;> cases isCont b2 <;> cases isCont b3 <;> simp
      by_cases h3 : get_next_codepoint_size c = 3
      · rw [hl3 (hs3.1 h3), List.cons_append, is_valid_utf8_loop_size3 _ _ _ hc0 h3]
        rcases t with _ | ⟨b1, _ | ⟨b2, r⟩⟩
        · simp [rd_zero, ok_bind, unitsAux]
        · simp at h0 hb
          simp [rd_zero, rd_succ, ok_bind, unitsAux, Ne.symm h0.2]
        · simp at h0 hb hlen
          obtain ⟨_, n1, n2, h0r⟩ := h0
          obtain ⟨_, c1, c2, hbr⟩ := hb
          have ihr := ih r rest h0r hbr (by omega)
          simp only [List.cons_append, rd_zero, rd_succ, ok_bind, Ne.symm n1, Ne.symm n2,
            if_false, cont_iff b1 c1, cont_iff b2 c2, unitsAux,
            List.drop_succ_cons, List.drop_zero, ihr, ne_eq]
          cases isCont b1 <;> cases isCont b2 <;> simp
      by_cases h2 : get_next_codepoint_size c = 2
      · rw [hl2 (hs2.1 h2), List.cons_append, is_valid_utf8_loop_size2 _ _ _ hc0 h2]
        rcases t with _ | ⟨b1, r⟩
        · simp [rd_zero, ok_bind, unitsAux]
        · simp at h0 hb hlen
          obtain ⟨_, n1, h0r⟩ := h0
          obtain ⟨_, c1, hbr⟩ := hb
          have ihr := ih r rest h0r hbr (by omega)
          simp only [List.cons_append, rd_zero, rd_succ, ok_bind, Ne.symm n1,
            if_false, cont_iff b1 c1, unitsAux,
            List.drop_succ_cons, List.drop_zero, ihr, ne_eq]
          cases isCont b1 <;> simp
      · have h1 : get_next_codepoint_size c = 1 := by
          have := (size_table c hc)
          simp only [get_next_codepoint_size] at h4 h3 h2 ⊢
          split_ifs at h4 h3 h2 ⊢ <;> simp_all
        have hr := hs1.1 h1
        have h0t : 0 ∉ t := fun h => h0 (List.mem_cons_of_mem _ h)
        have hbt : ∀ b ∈ t, b < 256 := fun b h => hb b (List.mem_cons_of_mem _ h)
        rw [List.cons_append, is_valid_utf8_loop_size1 _ _ _ hc0 h1]
        by_cases hlow : c < 0x80
        · rw [hl1 hlow, if_neg (by simpa using hm.2 hlow), ih t rest h0t hbt (by omega)]
        · have hne : c &&& 0b10000000 ≠ 0 := fun h => hlow (hm.1 h)
          rw [if_pos hne, hl0 (by omega)]

theorem cstr_append_nul (s rest : List Nat) (h0 : 0 ∉ s) : cstr (s ++ 0 :: rest) = s := by
  induction s with
  | nil => simp [cstr]
  | cons a t ih =>
    have ha : a ≠ 0 := fun h => h0 (by simp [h])
    have ht : 0 ∉ t := fun h => h0 (List.mem_cons_of_mem _ h)
    simp [cstr, ha, ih ht]

theorem cstr_subset (mem : List Nat) : ∀ b ∈ cstr mem, b ∈ mem ∧ b ≠ 0 := by
  induction mem with
  | nil => simp [cstr]
  | cons a t ih =>
    intro b hb
    by_cases ha : a = 0
    · simp [cstr, ha] at hb
    · simp only [cstr, ha, if_false, List.mem_cons] at hb
      rcases hb with rfl | hb
      · exact ⟨by simp, ha⟩
      · exact ⟨List.mem_cons_of_mem _ (ih b hb).1, (ih b hb).2⟩

theorem nul_not_mem_cstr (mem : List Nat) : 0 ∉ cstr mem :=
  fun h => (cstr_subset mem 0 h).2 rfl

theorem mem_eq_cstr_append (mem : List Nat) (h : 0 ∈ mem) :
    ∃ rest, mem = cstr mem ++ 0 :: rest := by
  induction mem with
  | nil => simp at h
  | cons a t ih =>
    by_cases ha : a = 0
    · subst ha
      exact ⟨t, by simp [cstr]⟩
    · have ht : 0 ∈ t := by
        rcases List.mem_cons.mp h with h | h
        · exact absurd h.symm ha
        · exact h
      obtain ⟨rest, hr⟩ := ih ht
      refine ⟨rest, ?_⟩
      simp only [cstr, ha, if_false, List.cons_append]
      rw [← hr]

theorem cstr_length_le (mem : List Nat) : (cstr mem).length ≤ mem.length := by
  induction mem with
  | nil => simp [cstr]
  | cons a t ih =>
    by_cases ha : a = 0
    · simp [cstr, ha]
    · simp only [cstr, ha, if_false, List.length_cons]
      omega

theorem is_valid_utf8_eq_unitsAux (mem : List Nat) (hnul : 0 ∈ mem)
    (hbytes : ∀ b ∈ mem, b < 256) :
    is_valid_utf8 (some mem) = .ok (unitsAux 0 (cstr mem)) := by
  obtain ⟨rest, hr⟩ := mem_eq_cstr_append mem hnul
  have h := is_valid_utf8_loop_eq_unitsAux (mem.length + 1) (cstr mem) rest
    (nul_not_mem_cstr mem) (fun b hb => hbytes b (cstr_subset mem b hb).1)
    (by have := cstr_length_le mem; omega)
  rw [← hr] at h
  exact h

theorem unitsAux_units_append (us : List (List Nat)) (rest : List Nat)
    (hus : ∀ u ∈ us, isUtf8Unit u = true) :
    unitsAux 0 (us.flatten ++ rest) = unitsAux 0 rest := by
  induction us with
  | nil => simp
  | cons u us ih =>
    rw [List.flatten_cons, List.append_assoc, unitsAux_unit u _ (hus u (by simp))]
    exact ih (fun v hv => hus v (List.mem_cons_of_mem _ hv))

theorem utf8_encode_scalar_unit (v : Nat) (hv : IsScalar v) :
    isUtf8Unit (utf8_encode_scalar v) = true ∧ (∀ b ∈ utf8_encode_scalar v, b < 256) ∧
    (v ≠ 0 → 0 ∉ utf8_encode_scalar v) := by
  obtain ⟨h1, h2⟩ := hv
  unfold utf8_encode_scalar
  split_ifs with a b c
  · refine ⟨by simp [isUtf8Unit, a], by simp; omega, fun h => by simp; omega⟩
  · refine ⟨?_, ?_, fun _ => ?_⟩
    · simp only [isUtf8Unit, isCont, Bool.and_eq_true, decide_eq_true_eq]
      omega
    · simp only [List.mem_cons, List.mem_singleton, List.not_mem_nil, or_false]
      rintro x (rfl | rfl) <;> omega
    · simp only [List.mem_cons, List.mem_singleton, List.not_mem_nil, or_false]
      omega
  · refine ⟨?_, ?_, fun _ => ?_⟩
    · simp only [isUtf8Unit, isCont, Bool.and_eq_true, decide_eq_true_eq]
      omega
    · simp only [List.mem_cons, List.mem_singleton, List.not_mem_nil, or_false]
      rintro x (rfl | rfl | rfl) <;> omega
    · simp only [List.mem_cons, List.mem_singleton, List.not_mem_nil, or_false]
      omega
  · refine ⟨?_, ?_, fun _ => ?_⟩
    · simp only [isUtf8Unit, isCont, Bool.and_eq_true, decide_eq_true_eq]
      omega
    · simp only [List.mem_cons, List.mem_singleton, List.not_mem_nil, or_false]
      rintro x (rfl | rfl | rfl | rfl) <;> omega
    · simp only [List.mem_cons, List.mem_singleton, List.not_mem_nil, or_false]
      omega

theorem cstr_append_of_nul_not_mem (u rest : List Nat) (h0 : 0 ∉ u) :
    cstr (u ++ rest) = u ++ cstr rest := by
  induction u with
  | nil => simp
  | cons a t ih =>
    have ha : a ≠ 0 := fun h => h0 (by simp [h])
    have ht : 0 ∉ t := fun h => h0 (List.mem_cons_of_mem _ h)
    simp [cstr, ha, ih ht]

theorem cstr_utf8_encode (vs : List Nat) (hvs : ∀ v ∈ vs, IsScalar v) (rest : List Nat) :
    IsUnitConcat (cstr (utf8_encode vs ++ 0 :: rest)) := by
  induction vs with
  | nil => exact ⟨[], by simp, by simp [utf8_encode, cstr]⟩
  | cons v vs ih =>
    by_cases hv : v = 0
    · subst hv
      exact ⟨[], by simp, by simp [utf8_encode, utf8_encode_scalar, cstr]⟩
    · obtain ⟨hu, _, h0⟩ := utf8_encode_scalar_unit v (hvs v (by simp))
      obtain ⟨us, hus, hflat⟩ := ih (fun w hw => hvs w (List.mem_cons_of_mem _ hw))
      refine ⟨utf8_encode_scalar v :: us, ?_, ?_⟩
      · intro u hu'
        rcases List.mem_cons.mp hu' with rfl | hu'
        · exact hu
        · exact hus u hu'
      · have : utf8_encode (v :: vs) = utf8_encode_scalar v ++ utf8_encode vs := by
          simp [utf8_encode]
        rw [this, List.append_assoc, cstr_append_of_nul_not_mem _ _ (h0 hv), List.flatten_cons,
          hflat]

theorem utf8_encode_bytes (vs : List Nat) (hvs : ∀ v ∈ vs, IsScalar v) :
    ∀ b ∈ utf8_encode vs, b < 256 := by
  intro b hb
  simp only [utf8_encode, List.mem_flatten, List.mem_map] at hb
  obtain ⟨u, ⟨v, hv, rfl⟩, hbu⟩ := hb
  exact (utf8_encode_scalar_unit v (hvs v hv)).2.1 b hbu

theorem remove_invalid_xml_chars_loop_nul (size fuel : Nat) (rest res : List Nat) :
    remove_invalid_xml_chars_loop size (fuel + 1) (0 :: rest) res = .ok res := by
  rw [remove_invalid_xml_chars_loop]
  simp [rd_zero, ok_bind, pure_eq_ok]

theorem remove_invalid_xml_chars_loop_unit (size fuel : Nat) (u rest res : List Nat)
    (hu : isUtf8Unit u = true) (h0 : 0 ∉ u) (hb : ∀ b ∈ u, b < 256) :
    remove_invalid_xml_chars_loop size (fuel + 1) (u ++ rest) res =
      if keptByCode u = true then
        memcpy_r size res u >>= fun res1 => remove_invalid_xml_chars_loop size fuel rest res1
      else remove_invalid_xml_chars_loop size fuel rest res := by
  rcases u with _ | ⟨b0, _ | ⟨b1, _ | ⟨b2, _ | ⟨b3, _ | ⟨b4, r⟩⟩⟩⟩⟩ <;>
    simp [isUtf8Unit] at hu
  · have hc : b0 < 256 := hb b0 (by simp)
    have hc0 : b0 ≠ 0 := fun h => h0 (by simp [h])
    obtain ⟨m4, m3, m2, _, m1⟩ := mask_table b0 hc
    have n4 : ¬ b0 &&& 248 = 240 := fun h => by have := m4.1 h; omega
    have n3 : ¬ b0 &&& 240 = 224 := fun h => by have := m3.1 h; omega
    have n2 : ¬ b0 &&& 224 = 192 := fun h => by have := m2.1 h; omega
    have n1 : b0 &&& 128 = 0 := m1.2 hu
    rw [remove_invalid_xml_chars_loop]
    simp [rd_zero, ok_bind, pure_eq_ok, hc0, n4, n3, n2, n1, keptByCode]
  · obtain ⟨⟨h1, h2⟩, h3⟩ := hu
    have hc : b0 < 256 := hb b0 (by simp)
    have hc0 : b0 ≠ 0 := fun h => h0 (by simp [h])
    obtain ⟨m4, m3, m2, _, m1⟩ := mask_table b0 hc
    have n4 : ¬ b0 &&& 248 = 240 := fun h => by have := m4.1 h; omega
    have n3 : ¬ b0 &&& 240 = 224 := fun h => by have := m3.1 h; omega
    have n2 : b0 &&& 224 = 192 := m2.2 ⟨h1, h2⟩
    rw [remove_invalid_xml_chars_loop]
    simp [rd_zero, rd_succ, ok_bind, pure_eq_ok, hc0, n4, n3, n2, keptByCode]
  · obtain ⟨⟨⟨h1, h2⟩, h3⟩, h4⟩ := hu
    have hc : b0 < 256 := hb b0 (by simp)
    have hc0 : b0 ≠ 0 := fun h => h0 (by simp [h])
    obtain ⟨m4, m3, m2, _, m1⟩ := mask_table b0 hc
    have n4 : ¬ b0 &&& 248 = 240 := fun h => by have := m4.1 h; omega
    have n3 : b0 &&& 240 = 224 := m3.2 ⟨h1, h2⟩
    rw [remove_invalid_xml_chars_loop]
    simp [rd_zero, rd_succ, ok_bind, pure_eq_ok, hc0, n4, n3, keptByCode]
  · obtain ⟨⟨⟨⟨h1, h2⟩, h3⟩, h4⟩, h5⟩ := hu
    have hc : b0 < 256 := hb b0 (by simp)
    have hc0 : b0 ≠ 0 := fun h => h0 (by simp [h])
    obtain ⟨m4, m3, m2, _, m1⟩ := mask_table b0 hc
    have n4 : b0 &&& 248 = 240 := m4.2 ⟨h1, h2⟩
    rw [remove_invalid_xml_chars_loop]
    simp [rd_zero, rd_succ, ok_bind, pure_eq_ok, hc0, n4, keptByCode]

theorem memcpy_r_ok (size : Nat) (res bytes : List Nat) (h : res.length + bytes.length ≤ size) :
    memcpy_r size res bytes = .ok (res ++ bytes) := by
  simp [memcpy_r, h]

theorem remove_invalid_xml_chars_loop_units (size : Nat) :
    ∀ (us : List (List Nat)) (fuel : Nat) (rest res : List Nat),
    (∀ u ∈ us, isUtf8Unit u = true) → 0 ∉ us.flatten → (∀ b ∈ us.flatten, b < 256) →
    us.length < fuel → res.length + us.flatten.length ≤ size →
    remove_invalid_xml_chars_loop size fuel (us.flatten ++ 0 :: rest) res =
      .ok (res ++ (us.filter keptByCode).flatten) := by
  intro us
  induction us with
  | nil =>
    intro fuel rest res _ _ _ hf _
    obtain ⟨f, rfl⟩ : ∃ f, fuel = f + 1 := ⟨fuel - 1, by simp at hf; omega⟩
    simp [remove_invalid_xml_chars_loop_nul]
  | cons u us ih =>
    intro fuel rest res hus h0 hb hf hsz
    obtain ⟨f, rfl⟩ : ∃ f, fuel = f + 1 := ⟨fuel - 1, by simp at hf; omega⟩
    simp only [List.flatten_cons, List.mem_append, not_or, List.length_append,
      List.length_cons] at h0 hb hf hsz
    have hus1 : ∀ v ∈ us, isUtf8Unit v = true := fun v hv => hus v (List.mem_cons_of_mem _ hv)
    have hb1 : ∀ b ∈ us.flatten, b < 256 := fun b h => hb b (Or.inr h)
    rw [List.flatten_cons, List.append_assoc,
      remove_invalid_xml_chars_loop_unit size f u _ res (hus u (by simp)) h0.1
        (fun b h => hb b (Or.inl h))]
    by_cases hk : keptByCode u = true
    · rw [if_pos hk, memcpy_r_ok size res u (by omega), ok_bind,
        ih f rest (res ++ u) hus1 h0.2 hb1 (by omega) (by rw [List.length_append]; omega)]
      simp [List.filter_cons, hk]
    · rw [if_neg hk, ih f rest res hus1 h0.2 hb1 (by omega) (by omega)]
      simp [List.filter_cons, hk]

theorem isUtf8Unit_length_pos (u : List Nat) (hu : isUtf8Unit u = true) : 0 < u.length := by
  rcases u with _ | ⟨b0, t⟩
  · simp [isUtf8Unit] at hu
  · simp

theorem units_length_le (us : List (List Nat)) (hus : ∀ u ∈ us, isUtf8Unit u = true) :
    us.length ≤ us.flatten.length := by
  induction us with
  | nil => simp
  | cons u us ih =>
    have h1 := isUtf8Unit_length_pos u (hus u (by simp))
    have h2 := ih (fun v hv => hus v (List.mem_cons_of_mem _ hv))
    simp only [List.length_cons, List.flatten_cons, List.length_append]
    omega

theorem cstr_append_singleton_nul (l : List Nat) : cstr (l ++ [0]) = cstr l := by
  induction l with
  | nil => simp [cstr]
  | cons a t ih => simp [cstr, ih]

theorem remove_invalid_xml_chars_of_units (original : List Nat) (us : List (List Nat))
    (hbytes : ∀ b ∈ original, b < 256) (hus : ∀ u ∈ us, isUtf8Unit u = true)
    (hflat : us.flatten = cstr original) :
    remove_invalid_xml_chars original = .ok ((us.filter keptByCode).flatten) := by
  obtain ⟨rest, hr⟩ := mem_eq_cstr_append (original ++ [0]) (by simp)
  rw [cstr_append_singleton_nul, ← hflat] at hr
  have hlen : us.flatten.length ≤ original.length := by
    rw [hflat]; exact cstr_length_le original
  have hul := units_length_le us hus
  have h := remove_invalid_xml_chars_loop_units original.length us (original.length + 1) rest []
    hus (by rw [hflat]; exact nul_not_mem_cstr original)
    (fun b hb => hbytes b (cstr_subset original b (hflat ▸ hb)).1) (by omega)
    (by simpa using hlen)
  rw [← hr] at h
  simpa [remove_invalid_xml_chars] using h

theorem cstr_of_nul_not_mem (l : List Nat) (h0 : 0 ∉ l) : cstr l = l := by
  have := cstr_append_of_nul_not_mem l [] h0
  simpa [cstr] using this

theorem mem_filter_flatten (p : List Nat → Bool) (us : List (List Nat)) (b : Nat)
    (hb : b ∈ (us.filter p).flatten) : b ∈ us.flatten := by
  simp only [List.mem_flatten, List.mem_filter] at hb ⊢
  obtain ⟨u, ⟨hu, _⟩, hbu⟩ := hb
  exact ⟨u, hu, hbu⟩

theorem bitset20_of_lt (v : Nat) (h : v < 2 ^ 20) : bitset20 v = v := Nat.mod_eq_of_lt h

theorem bitset20_lt (v : Nat) : bitset20 v < 2 ^ 20 := Nat.mod_lt _ (by decide)

theorem and_shiftLeft_lt (b m k n : Nat) (h : (m + 1) * 2 ^ k ≤ 2 ^ n) :
    (b &&& m) <<< k < 2 ^ n := by
  have h1 : b &&& m ≤ m := Nat.and_le_right
  rw [Nat.shiftLeft_eq]
  calc (b &&& m) * 2 ^ k < (m + 1) * 2 ^ k :=
        Nat.mul_lt_mul_of_lt_of_le (by omega) (Nat.le_refl _) (Nat.two_pow_pos k)
    _ ≤ 2 ^ n := h

set_option maxRecDepth 100000 in
theorem and_127_of_lt : ∀ b, b < 128 → b &&& 0b01111111 = b := by decide

theorem keptByCode_eq_keptByPolicy (u : List Nat) (hu : isUtf8Unit u = true)
    (h4 : u.length ≠ 4) : keptByCode u = keptByPolicy u := by
  rcases u with _ | ⟨b0, _ | ⟨b1, _ | ⟨b2, _ | ⟨b3, _ | ⟨b4, r⟩⟩⟩⟩⟩ <;>
    simp [isUtf8Unit] at hu h4
  · have h1 := and_127_of_lt b0 hu
    simp only [keptByCode, keptByPolicy, h1]
    rw [bitset20_of_lt b0 (by omega)]
  · simp [keptByCode, keptByPolicy]
  · have e0 := bitset20_of_lt _ (and_shiftLeft_lt b0 0b00001111 12 20 (by decide))
    have e1 := bitset20_of_lt _ (and_shiftLeft_lt b1 0b00111111 6 20 (by decide))
    have e2 := bitset20_of_lt _ (and_shiftLeft_lt b2 0b00111111 0 20 (by decide))
    simp only [Nat.shiftLeft_zero] at e2
    simp only [keptByCode, keptByPolicy, decode3, e0, e1, e2, Nat.shiftLeft_zero, ge_iff_le]

theorem keptByCode_four (b0 b1 b2 b3 : Nat) : keptByCode [b0, b1, b2, b3] = true := by
  have h := Nat.or_lt_two_pow (Nat.or_lt_two_pow (Nat.or_lt_two_pow
    (bitset20_lt ((b0 &&& 0b00000111) <<< 18)) (bitset20_lt ((b1 &&& 0b00111111) <<< 12)))
    (bitset20_lt ((b2 &&& 0b00111111) <<< 6))) (bitset20_lt ((b3 &&& 0b00111111) <<< 0))
  simp only [keptByCode, decide_eq_true_eq]
  omega

/-- C9: on every byte value `c` of 0x00..0xFF, `get_next_codepoint_size c`
is 4 exactly when `c` is in 0xF0..0xF7, 3 exactly when `c` is in 0xE0..0xEF,
2 exactly when `c` is in 0xC0..0xDF, and 1 exactly on the other bytes
(0x00..0xBF and 0xF8..0xFF); the function is total and its result is always
one of 1, 2, 3, 4. -/
theorem get_next_codepoint_size_classes (c : Nat) (hc : c < 256) :
    (get_next_codepoint_size c = 4 ↔ 0xF0 ≤ c ∧ c ≤ 0xF7) ∧
    (get_next_codepoint_size c = 3 ↔ 0xE0 ≤ c ∧ c ≤ 0xEF) ∧
    (get_next_codepoint_size c = 2 ↔ 0xC0 ≤ c ∧ c ≤ 0xDF) ∧
    (get_next_codepoint_size c = 1 ↔ c ≤ 0xBF ∨ 0xF8 ≤ c) ∧
    (get_next_codepoint_size c = 1 ∨ get_next_codepoint_size c = 2 ∨
      get_next_codepoint_size c = 3 ∨ get_next_codepoint_size c = 4) := by
  obtain ⟨h4, h3, h2, h1⟩ := size_table c hc
  refine ⟨h4, h3, h2, h1, ?_⟩
  unfold get_next_codepoint_size
  split_ifs <;> simp

/-- Witness of C9 at the byte 0xE2. -/
theorem get_next_codepoint_size_classes_witness :
    (0xE2 < 256) ∧ get_next_codepoint_size 0xE2 = 3 :=
  ⟨by decide, (get_next_codepoint_size_classes 0xE2 (by decide)).2.1.2 (by decide)⟩

/-- C1: on a non-null buffer `mem` that holds a zero byte, `is_valid_utf8`
returns a boolean, and it returns true if and only if the bytes before the
first zero are a concatenation of codepoint units (one byte below 0x80, or
a lead byte of 0xC0..0xDF, 0xE0..0xEF, 0xF0..0xF7 followed by one, two,
three continuation bytes). In particular the empty sequence is accepted,
and a continuation byte or a byte of 0xF8 and above at the start of a unit
is rejected. -/
theorem is_valid_utf8_iff_unit_concat (mem : List Nat) (hnul : 0 ∈ mem)
    (hbytes : ∀ b ∈ mem, b < 256) :
    (∃ r, is_valid_utf8 (some mem) = .ok r) ∧
    (is_valid_utf8 (some mem) = .ok true ↔ IsUnitConcat (cstr mem)) ∧
    (cstr mem = [] → is_valid_utf8 (some mem) = .ok true) ∧
    (∀ (us : List (List Nat)) (b : Nat) (t : List Nat), (∀ u ∈ us, isUtf8Unit u = true) →
      cstr mem = us.flatten ++ b :: t → (0x80 ≤ b ∧ b ≤ 0xBF) ∨ 0xF8 ≤ b →
      is_valid_utf8 (some mem) = .ok false) := by
  have h := is_valid_utf8_eq_unitsAux mem hnul hbytes
  refine ⟨⟨_, h⟩, ?_, ?_, ?_⟩
  · rw [h]
    constructor
    · intro hu
      exact concat_of_unitsAux _ _ (Nat.le_refl _) (by simpa using hu)
    · intro hu
      rw [unitsAux_of_concat _ hu]
  · intro he
    rw [h, he]
    simp [unitsAux]
  · intro us b t hus he hb
    rw [h, he, unitsAux_units_append us _ hus, (unitsAux_lead b t).2.2.2.2 hb]

/-- Witness of C1 on the buffer of the zero-terminated string "caf\xc3\xa9". -/
theorem is_valid_utf8_iff_unit_concat_witness :
    (0 ∈ [0x63, 0x61, 0x66, 0xC3, 0xA9, 0]) ∧
    (is_valid_utf8 (some [0x63, 0x61, 0x66, 0xC3, 0xA9, 0]) = .ok true ↔
      IsUnitConcat (cstr [0x63, 0x61, 0x66, 0xC3, 0xA9, 0])) :=
  ⟨by decide, (is_valid_utf8_iff_unit_concat [0x63, 0x61, 0x66, 0xC3, 0xA9, 0]
    (by decide) (by decide)).2.1⟩

/-- C10: on the zero-terminated buffer that holds the standard UTF-8
encoding of a finite list of Unicode scalar values, `is_valid_utf8` returns
true. -/
theorem is_valid_utf8_of_utf8_encode (vs : List Nat) (hvs : ∀ v ∈ vs, IsScalar v) :
    is_valid_utf8 (some (utf8_encode vs ++ [0])) = .ok true := by
  have hb : ∀ b ∈ utf8_encode vs ++ [0], b < 256 := by
    intro b hb
    rcases List.mem_append.mp hb with hb | hb
    · exact utf8_encode_bytes vs hvs b hb
    · simp at hb; omega
  rw [is_valid_utf8_eq_unitsAux _ (by simp) hb]
  rw [unitsAux_of_concat _ (cstr_utf8_encode vs hvs [])]

/-- Witness of C10 on the scalar values U+0041, U+00E9, U+20AC, U+1F600. -/
theorem is_valid_utf8_of_utf8_encode_witness :
    is_valid_utf8 (some (utf8_encode [0x41, 0xE9, 0x20AC, 0x1F600] ++ [0])) = .ok true :=
  is_valid_utf8_of_utf8_encode [0x41, 0xE9, 0x20AC, 0x1F600] (by
    intro v hv
    simp only [List.mem_cons, List.mem_singleton, List.not_mem_nil, or_false] at hv
    rcases hv with rfl | rfl | rfl | rfl <;> simp [IsScalar])

/-- C2: the valid 4-byte sequence F4 90 80 80 decodes to 0x110000, above
0x10FFFF, and `remove_invalid_xml_chars` copies its four bytes all the same;
indeed the test of line 96, made on a 20-bit `std::bitset`, passes on every
4-byte sequence. -/
theorem remove_invalid_xml_chars_keeps_above_10FFFF :
    is_valid_utf8 (some [0xF4, 0x90, 0x80, 0x80, 0]) = .ok true ∧
    decode4 0xF4 0x90 0x80 0x80 = 0x110000 ∧
    keptByPolicy [0xF4, 0x90, 0x80, 0x80] = false ∧
    remove_invalid_xml_chars [0xF4, 0x90, 0x80, 0x80] = .ok [0xF4, 0x90, 0x80, 0x80] ∧
    (∀ b0 b1 b2 b3 : Nat, keptByCode [b0, b1, b2, b3] = true) :=
  ⟨by decide, by decide, by decide, by decide, keptByCode_four⟩

/-- C3: on an input accepted by `is_valid_utf8` whose codepoint units `us`
include no 4-byte unit, `remove_invalid_xml_chars` returns the concatenation,
in input order, of the units that the policy keeps (a 1-byte unit iff its
byte is 0x09, 0x0A, 0x0D or at least 0x20, every 2-byte unit, a 3-byte unit
iff its decoded value is at most 0xD7FF or lies in 0xE000..0xFFFD); the
dropped units leave no byte, and the empty input gives the empty output. -/
theorem remove_invalid_xml_chars_policy (original : List Nat) (us : List (List Nat))
    (hbytes : ∀ b ∈ original, b < 256)
    (hvalid : is_valid_utf8 (some (original ++ [0])) = .ok true)
    (hus : ∀ u ∈ us, isUtf8Unit u = true) (hflat : us.flatten = cstr original)
    (hno4 : ∀ u ∈ us, u.length ≠ 4) :
    remove_invalid_xml_chars original = .ok ((us.filter keptByPolicy).flatten) ∧
    remove_invalid_xml_chars [] = .ok [] := by
  have _ := hvalid
  refine ⟨?_, by decide⟩
  rw [remove_invalid_xml_chars_of_units original us hbytes hus hflat]
  congr 2
  apply List.filter_congr
  intro u hu
  exact keptByCode_eq_keptByPolicy u (hus u hu) (hno4 u hu)

/-- Witness of C3 on the string "a\x01b" and its three 1-byte units. -/
theorem remove_invalid_xml_chars_policy_witness :
    is_valid_utf8 (some ([0x61, 0x01, 0x62] ++ [0])) = .ok true ∧
    remove_invalid_xml_chars [0x61, 0x01, 0x62] =
      .ok (([[0x61], [0x01], [0x62]].filter keptByPolicy).flatten) :=
  ⟨by decide, (remove_invalid_xml_chars_policy [0x61, 0x01, 0x62] [[0x61], [0x01], [0x62]]
    (by decide) (by decide) (by decide) (by decide) (by decide)).1⟩

/-- C4: on an input accepted by `is_valid_utf8`, `remove_invalid_xml_chars`
returns a string on which a second application returns that same string:
the second application does not fail and removes or changes no byte. -/
theorem remove_invalid_xml_chars_idempotent (s : List Nat) (hbytes : ∀ b ∈ s, b < 256)
    (hvalid : is_valid_utf8 (some (s ++ [0])) = .ok true) :
    ∃ out, remove_invalid_xml_chars s = .ok out ∧ remove_invalid_xml_chars out = .ok out := by
  have hb0 : ∀ b ∈ s ++ [0], b < 256 := by
    intro b hb
    rcases List.mem_append.mp hb with hb | hb
    · exact hbytes b hb
    · simp at hb; omega
  rw [is_valid_utf8_eq_unitsAux _ (by simp) hb0, cstr_append_singleton_nul] at hvalid
  obtain ⟨us, hus, hflat⟩ := concat_of_unitsAux _ _ (Nat.le_refl _) (by simpa using hvalid)
  refine ⟨(us.filter keptByCode).flatten,
    remove_invalid_xml_chars_of_units s us hbytes hus hflat, ?_⟩
  have hmem : ∀ b ∈ (us.filter keptByCode).flatten, b ∈ cstr s := fun b hb =>
    hflat ▸ mem_filter_flatten keptByCode us b hb
  have h0 : 0 ∉ (us.filter keptByCode).flatten := fun h => nul_not_mem_cstr s (hmem 0 h)
  have h := remove_invalid_xml_chars_of_units (us.filter keptByCode).flatten
    (us.filter keptByCode) (fun b hb => hbytes b (cstr_subset s b (hmem b hb)).1)
    (fun u hu => hus u (List.mem_filter.mp hu).1) (cstr_of_nul_not_mem _ h0).symm
  rw [h]
  simp [List.filter_filter]

/-- Witness of C4 on the string "a\x01b". -/
theorem remove_invalid_xml_chars_idempotent_witness :
    is_valid_utf8 (some ([0x61, 0x01, 0x62] ++ [0])) = .ok true ∧
    ∃ out, remove_invalid_xml_chars [0x61, 0x01, 0x62] = .ok out ∧
      remove_invalid_xml_chars out = .ok out :=
  ⟨by decide, remove_invalid_xml_chars_idempotent [0x61, 0x01, 0x62] (by decide) (by decide)⟩

end utils

namespace xep0106

theorem starts_with_three (a b c : Nat) (l : List Nat) :
    starts_with [a, b, c] l = true ↔ ∃ r, l = a :: b :: c :: r := by
  rcases l with _ | ⟨x, _ | ⟨y, _ | ⟨z, r⟩⟩⟩ <;> simp [starts_with]

theorem find_cons_of_not_starts_with (pat : List Nat) (x : Nat) (l : List Nat)
    (h : starts_with pat (x :: l) = false) :
    find (x :: l) pat = (find l pat).map (· + 1) := by
  simp [find, h]

theorem find_of_starts_with (pat l : List Nat) (h : starts_with pat l = true) :
    find l pat = some 0 := by
  rcases l with _ | ⟨x, l⟩
  · have : pat = [] := by simpa [starts_with] using h.symm
    simp [find, this]
  · simp [find, h]

/-- Gluing: if no occurrence of `pat` starts inside `X` when `e ++ Y`
follows, and none inside `e` when `Y` follows, then none starts inside
`X ++ e` when `Y` follows. -/
theorem find_append_glue (pat X e Y : List Nat)
    (hX : find (X ++ (e ++ Y)) pat = (find (e ++ Y) pat).map (· + X.length))
    (he : find (e ++ Y) pat = (find Y pat).map (· + e.length)) :
    find ((X ++ e) ++ Y) pat = (find Y pat).map (· + (X ++ e).length) := by
  rw [List.append_assoc, hX, he]
  cases find Y pat
  · simp
  · simp; omega

theorem find_nil_append (pat Y : List Nat) :
    find ([] ++ Y) pat = (find Y pat).map (· + ([] : List Nat).length) := by
  cases h : find Y pat <;> simp [h]

/-- After the token at position `X.length` is replaced by a character `k`
that is not in the token, no occurrence of the token starts inside
`X ++ [k]`. -/
theorem find_after_replace (a b c k : Nat) (hk : k ≠ a ∧ k ≠ b ∧ k ≠ c) (Y : List Nat) :
    ∀ X : List Nat, find (X ++ a :: b :: c :: Y) [a, b, c] = some X.length →
      find ((X ++ [k]) ++ Y) [a, b, c] = (find Y [a, b, c]).map (· + (X ++ [k]).length) := by
  intro X
  induction X with
  | nil =>
    intro _
    have : starts_with [a, b, c] (k :: Y) = false := by
      rw [Bool.eq_false_iff]
      intro h
      obtain ⟨r, hr⟩ := (starts_with_three a b c _).mp h
      simp only [List.cons.injEq] at hr
      exact hk.1 hr.1
    simp only [List.nil_append, List.singleton_append]
    rw [find_cons_of_not_starts_with _ _ _ this]
    simp
  | cons x X ih =>
    intro h
    simp only [List.cons_append] at h
    have hns : starts_with [a, b, c] (x :: (X ++ a :: b :: c :: Y)) = false := by
      rw [Bool.eq_false_iff]
      intro hs
      rw [find_of_starts_with _ _ hs] at h
      simp at h
    have hrec : find (X ++ a :: b :: c :: Y) [a, b, c] = some X.length := by
      rw [find_cons_of_not_starts_with _ _ _ hns] at h
      cases hf : find (X ++ a :: b :: c :: Y) [a, b, c] with
      | none => simp [hf] at h
      | some p => simp [hf] at h; simp [h]
    have hns2 : starts_with [a, b, c] (x :: ((X ++ [k]) ++ Y)) = false := by
      rw [Bool.eq_false_iff]
      intro hs
      obtain ⟨r, hr⟩ := (starts_with_three a b c _).mp hs
      apply Bool.eq_false_iff.mp hns
      rw [starts_with_three]
      rcases X with _ | ⟨y, _ | ⟨z, X⟩⟩
      · simp at hr
        exact absurd hr.2.1 hk.2.1
      · simp at hr
        exact absurd hr.2.2.1 hk.2.2
      · simp at hr
        refine ⟨X ++ a :: b :: c :: Y, ?_⟩
        simp [hr.1, hr.2.1, hr.2.2.1]
    have := ih hrec
    simp only [List.cons_append] at this ⊢
    rw [find_cons_of_not_starts_with _ _ _ hns2, this]
    cases find Y [a, b, c] <;> simp [Nat.add_assoc]

theorem escape_nil (T : List (Nat × List Nat)) : escape T [] = [] := rfl

theorem escape_cons (T : List (Nat × List Nat)) (x : Nat) (s : List Nat) :
    escape T (x :: s) = (T.lookup x).getD [x] ++ escape T s := by
  simp [escape, List.flatMap_cons]

theorem lookup_mem (T : List (Nat × List Nat)) (x : Nat) (t : List Nat)
    (h : T.lookup x = some t) : (x, t) ∈ T := by
  induction T with
  | nil => simp at h
  | cons e T ih =>
    obtain ⟨k, tok⟩ := e
    by_cases hx : x = k
    · subst hx
      simp [List.lookup] at h
      simp [h]
    · have : (x == k) = false := by simpa using hx
      simp only [List.lookup, this] at h
      exact List.mem_cons_of_mem _ (ih h)

theorem tokenOK_iff (t : List Nat) :
    tokenOK t = true ↔ ∃ b c, t = [0x5C, b, c] ∧ b ≠ 0x5C ∧ c ≠ 0x5C := by
  rcases t with _ | ⟨x, _ | ⟨y, _ | ⟨z, _ | ⟨w, r⟩⟩⟩⟩ <;> simp [tokenOK]
  constructor
  · rintro ⟨⟨h1, h2⟩, h3⟩
    exact ⟨y, z, ⟨h1, rfl, rfl⟩, h2, h3⟩
  · rintro ⟨b, c, ⟨h1, rfl, rfl⟩, h2, h3⟩
    exact ⟨⟨h1, h2⟩, h3⟩

theorem tableOK_cons (k : Nat) (tok : List Nat) (T : List (Nat × List Nat))
    (h : tableOK ((k, tok) :: T) = true) :
    tokenOK tok = true ∧ k ∉ tok ∧
      (∀ e ∈ T, e.1 ≠ k ∧ e.2 ≠ tok ∧ tokenOK e.2 = true) ∧ tableOK T = true := by
  simp only [tableOK, Bool.and_eq_true, List.all_eq_true, Bool.not_eq_true', bne_iff_ne,
    ne_eq] at h
  obtain ⟨⟨⟨h1, h2⟩, h3⟩, h4⟩ := h
  simp at h2
  exact ⟨h1, h2, fun e he => ⟨(h3 e he).1.1, (h3 e he).1.2, (h3 e he).2⟩, h4⟩

theorem lookup_none_of_keys_ne (T : List (Nat × List Nat)) (k : Nat)
    (h : ∀ e ∈ T, e.1 ≠ k) : T.lookup k = none := by
  cases hl : T.lookup k with
  | none => rfl
  | some t => exact absurd rfl (h _ (lookup_mem T k t hl))

/-- The head of an escaped string: a whole token, or the plain character. -/
theorem escape_cons_cases (T : List (Nat × List Nat))
    (hT : ∀ e ∈ T, tokenOK e.2 = true) (x : Nat) (s : List Nat) :
    (∃ b c, (x, [0x5C, b, c]) ∈ T ∧ b ≠ 0x5C ∧ c ≠ 0x5C ∧
        escape T (x :: s) = 0x5C :: b :: c :: escape T s) ∨
      (T.lookup x = none ∧ escape T (x :: s) = x :: escape T s) := by
  rw [escape_cons]
  cases hl : T.lookup x with
  | none => right; simp
  | some t =>
    left
    have hm := lookup_mem T x t hl
    obtain ⟨b, c, rfl, hb, hc⟩ := (tokenOK_iff t).mp (hT _ hm)
    exact ⟨b, c, hm, hb, hc, by simp⟩

/-- No occurrence of the token `\bc` starts at a plain character of an
escaped string whose original holds no such occurrence there. -/
theorem starts_with_plain_escape (T : List (Nat × List Nat))
    (hT : ∀ e ∈ T, tokenOK e.2 = true) (b c : Nat) (hb : b ≠ 0x5C) (hc : c ≠ 0x5C)
    (x : Nat) (s : List Nat) (hnot : ∀ r, x :: s ≠ 0x5C :: b :: c :: r) :
    starts_with [0x5C, b, c] (x :: escape T s) = false := by
  rw [Bool.eq_false_iff]
  intro h
  obtain ⟨r, hr⟩ := (starts_with_three _ _ _ _).mp h
  simp only [List.cons.injEq] at hr
  obtain ⟨hx, hE⟩ := hr
  rcases s with _ | ⟨d, s⟩
  · simp [escape_nil] at hE
  rcases escape_cons_cases T hT d s with ⟨b1, c1, _, _, _, he⟩ | ⟨_, he⟩
  · rw [he] at hE
    simp only [List.cons.injEq] at hE
    exact hb hE.1.symm
  rw [he] at hE
  simp only [List.cons.injEq] at hE
  obtain ⟨hd, hE⟩ := hE
  rcases s with _ | ⟨d2, s⟩
  · simp [escape_nil] at hE
  rcases escape_cons_cases T hT d2 s with ⟨b1, c1, _, _, _, he2⟩ | ⟨_, he2⟩
  · rw [he2] at hE
    simp only [List.cons.injEq] at hE
    exact hc hE.1.symm
  rw [he2] at hE
  simp only [List.cons.injEq] at hE
  exact hnot s (by rw [hx, hd, hE.1])

/-- No occurrence of a token starts inside another token of the table. -/
theorem find_token_append (b c b1 c1 : Nat) (hne : [0x5C, b1, c1] ≠ [0x5C, b, c])
    (hb1 : b1 ≠ 0x5C) (hc1 : c1 ≠ 0x5C) (Y : List Nat) :
    find ([0x5C, b1, c1] ++ Y) [0x5C, b, c] =
      (find Y [0x5C, b, c]).map (· + [0x5C, b1, c1].length) := by
  have h0 : starts_with [0x5C, b, c] (0x5C :: b1 :: c1 :: Y) = false := by
    rw [Bool.eq_false_iff]
    intro h
    obtain ⟨r, hr⟩ := (starts_with_three _ _ _ _).mp h
    simp only [List.cons.injEq] at hr
    exact hne (by rw [hr.2.1, hr.2.2.1])
  have h1 : starts_with [0x5C, b, c] (b1 :: c1 :: Y) = false := by
    rw [Bool.eq_false_iff]
    intro h
    obtain ⟨r, hr⟩ := (starts_with_three _ _ _ _).mp h
    simp only [List.cons.injEq] at hr
    exact hb1 hr.1
  have h2 : starts_with [0x5C, b, c] (c1 :: Y) = false := by
    rw [Bool.eq_false_iff]
    intro h
    obtain ⟨r, hr⟩ := (starts_with_three _ _ _ _).mp h
    simp only [List.cons.injEq] at hr
    exact hc1 hr.1
  simp only [List.cons_append, List.nil_append]
  rw [find_cons_of_not_starts_with _ _ _ h0, find_cons_of_not_starts_with _ _ _ h1,
    find_cons_of_not_starts_with _ _ _ h2]
  cases find Y [0x5C, b, c] <;> simp

theorem replace_at_append (X t E r : List Nat) :
    replace (X ++ (t ++ E)) X.length t.length r = X ++ r ++ E := by
  simp [replace, List.take_append_eq_append_take, List.drop_append_eq_append_drop]

theorem not_infix_tail (t : List Nat) (x : Nat) (s : List Nat) (h : ¬ t <:+: x :: s) :
    ¬ t <:+: s :=
  fun hs => h (List.infix_cons hs)

theorem decode_entry_none (first : Nat) (second : List Nat) (fuel : Nat) (s : List Nat)
    (h : find s second = none) : decode_entry first second (fuel + 1) s = .ok s := by
  rw [decode_entry]
  simp [h]

theorem decode_entry_some (first : Nat) (second : List Nat) (fuel : Nat) (s : List Nat)
    (pos : Nat) (h : find s second = some pos) :
    decode_entry first second (fuel + 1) s =
      decode_entry first second fuel (replace s pos second.length (List.replicate 1 first)) := by
  rw [decode_entry]
  simp [h]

theorem lookup_cons_self (k : Nat) (tok : List Nat) (T : List (Nat × List Nat)) :
    ((k, tok) :: T).lookup k = some tok := by
  simp [List.lookup]

theorem lookup_cons_ne (k x : Nat) (tok : List Nat) (T : List (Nat × List Nat)) (hx : x ≠ k) :
    ((k, tok) :: T).lookup x = T.lookup x := by
  have : (x == k) = false := by simpa using hx
  rw [List.lookup, this]

/-- The loop of the entry of key `k` and token backslash, `b`, `c`, on the
string escaped with the table that starts at this entry: it puts back every
`k`, and leaves the tokens of the later entries. -/
theorem decode_entry_escape (k b c : Nat) (T : List (Nat × List Nat))
    (hT : tableOK ((k, [0x5C, b, c]) :: T) = true) :
    ∀ (s X : List Nat) (fuel : Nat), ¬ [0x5C, b, c] <:+: s →
      find (X ++ escape ((k, [0x5C, b, c]) :: T) s) [0x5C, b, c] =
        (find (escape ((k, [0x5C, b, c]) :: T) s) [0x5C, b, c]).map (· + X.length) →
      s.length < fuel →
      decode_entry k [0x5C, b, c] fuel (X ++ escape ((k, [0x5C, b, c]) :: T) s) =
        .ok (X ++ escape T s) := by
  obtain ⟨htok, hk, hrest, _⟩ := tableOK_cons _ _ _ hT
  obtain ⟨b0, c0, hbc, hb, hc⟩ := (tokenOK_iff _).mp htok
  simp only [List.cons.injEq, and_true] at hbc
  obtain ⟨_, rfl, rfl⟩ := hbc
  have hkT : T.lookup k = none := lookup_none_of_keys_ne T k (fun e he => (hrest e he).1)
  have hTok : ∀ e ∈ (k, [0x5C, b, c]) :: T, tokenOK e.2 = true := by
    intro e he
    rcases List.mem_cons.mp he with rfl | he
    · exact htok
    · exact (hrest e he).2.2
  intro s
  induction s with
  | nil =>
    intro X fuel _ hclean hf
    obtain ⟨f, rfl⟩ : ∃ f, fuel = f + 1 := ⟨fuel - 1, by simp at hf; omega⟩
    rw [decode_entry_none]
    · simp [escape_nil]
    · rw [hclean]
      simp [escape_nil, find]
  | cons x s ih =>
    intro X fuel hinf hclean hf
    have hinf1 := not_infix_tail _ _ _ hinf
    simp only [List.length_cons] at hf
    by_cases hx : x = k
    · subst hx
      obtain ⟨f, rfl⟩ : ∃ f, fuel = f + 1 := ⟨fuel - 1, by omega⟩
      have he : escape ((x, [0x5C, b, c]) :: T) (x :: s) =
          [0x5C, b, c] ++ escape ((x, [0x5C, b, c]) :: T) s := by
        rw [escape_cons, lookup_cons_self]
        rfl
      have hfind : find (X ++ 0x5C :: b :: c :: escape ((x, [0x5C, b, c]) :: T) s)
          [0x5C, b, c] = some X.length := by
        have := hclean
        rw [he, find_of_starts_with [0x5C, b, c] ([0x5C, b, c] ++ _)
          (by simp [starts_with])] at this
        simpa using this
      have hk3 : x ≠ 0x5C ∧ x ≠ b ∧ x ≠ c := by
        simp only [List.mem_cons, List.mem_singleton, List.not_mem_nil, or_false, not_or] at hk
        exact hk
      rw [he, decode_entry_some _ _ _ _ X.length (by simpa using hfind), replace_at_append,
        ih (X ++ List.replicate 1 x) f hinf1
          (find_after_replace 0x5C b c x hk3 _ X hfind) (by omega)]
      rw [escape_cons, hkT]
      simp
    · have hlk := lookup_cons_ne k x [0x5C, b, c] T hx
      cases hl : T.lookup x with
      | some t =>
        have hm := lookup_mem T x t hl
        obtain ⟨_, hne, htk⟩ := hrest _ hm
        obtain ⟨b1, c1, rfl, hb1, hc1⟩ := (tokenOK_iff t).mp htk
        have he : escape ((k, [0x5C, b, c]) :: T) (x :: s) =
            [0x5C, b1, c1] ++ escape ((k, [0x5C, b, c]) :: T) s := by
          rw [escape_cons, hlk, hl]
          rfl
        have he2 : escape T (x :: s) = [0x5C, b1, c1] ++ escape T s := by
          rw [escape_cons, hl]
          rfl
        rw [he] at hclean ⊢
        have hglue := find_append_glue _ X _ _ hclean (find_token_append b c b1 c1 hne hb1 hc1 _)
        rw [← List.append_assoc, ih (X ++ [0x5C, b1, c1]) fuel hinf1 hglue (by omega), he2,
          List.append_assoc]
      | none =>
        have he : escape ((k, [0x5C, b, c]) :: T) (x :: s) =
            [x] ++ escape ((k, [0x5C, b, c]) :: T) s := by
          rw [escape_cons, hlk, hl]
          rfl
        have he2 : escape T (x :: s) = [x] ++ escape T s := by
          rw [escape_cons, hl]
          rfl
        have hnot : ∀ r, x :: s ≠ 0x5C :: b :: c :: r := by
          intro r hr
          apply hinf
          rw [hr]
          exact ⟨[], r, by simp⟩
        have hns := starts_with_plain_escape _ hTok b c hb hc x s hnot
        have hone : find ([x] ++ escape ((k, [0x5C, b, c]) :: T) s) [0x5C, b, c] =
            (find (escape ((k, [0x5C, b, c]) :: T) s) [0x5C, b, c]).map (· + [x].length) := by
          simpa using find_cons_of_not_starts_with _ _ _ hns
        rw [he] at hclean ⊢
        have hglue := find_append_glue _ X _ _ hclean hone
        rw [← List.append_assoc, ih (X ++ [x]) fuel hinf1 hglue (by omega), he2,
          List.append_assoc]

theorem escape_length_ge (T : List (Nat × List Nat)) (hT : ∀ e ∈ T, tokenOK e.2 = true)
    (s : List Nat) : s.length ≤ (escape T s).length := by
  induction s with
  | nil => simp [escape_nil]
  | cons x s ih =>
    rcases escape_cons_cases T hT x s with ⟨b, c, _, _, _, he⟩ | ⟨_, he⟩ <;>
      rw [he] <;> simp only [List.length_cons] <;> omega

theorem tableOK_tokens (T : List (Nat × List Nat)) (hT : tableOK T = true) :
    ∀ e ∈ T, tokenOK e.2 = true := by
  induction T with
  | nil => simp
  | cons e T ih =>
    obtain ⟨k, tok⟩ := e
    obtain ⟨h1, _, _, h4⟩ := tableOK_cons k tok T hT
    intro e he
    rcases List.mem_cons.mp he with rfl | he
    · exact h1
    · exact ih h4 e he

/-- The loop over the entries of a table, run on the string escaped with
that table, gives back the original string when no token of the table
occurs in it. -/
theorem decode_entries_escape (T : List (Nat × List Nat)) (hT : tableOK T = true)
    (s : List Nat) (hs : ∀ e ∈ T, ¬ e.2 <:+: s) :
    decode_entries T (escape T s) = .ok s := by
  induction T with
  | nil => simp [decode_entries, escape]
  | cons e T ih =>
    obtain ⟨k, tok⟩ := e
    obtain ⟨h1, _, _, h4⟩ := tableOK_cons k tok T hT
    obtain ⟨b, c, rfl, _, _⟩ := (tokenOK_iff tok).mp h1
    have hlen := escape_length_ge _ (tableOK_tokens _ hT) s
    have h := decode_entry_escape k b c T hT s [] ((escape ((k, [0x5C, b, c]) :: T) s).length + 1)
      (hs (k, [0x5C, b, c]) (by simp)) (find_nil_append _ _) (by omega)
    simp only [List.nil_append] at h
    rw [decode_entries]
    simp only [h, utils.ok_bind]
    exact ih h4 (fun e he => hs e (List.mem_cons_of_mem _ he))

theorem find_first_of_append (a b chars : List Nat) (ha : ∀ x ∈ a, x ∉ chars) :
    find_first_of (a ++ b) chars = (find_first_of b chars).map (· + a.length) := by
  induction a with
  | nil => cases h : find_first_of b chars <;> simp [h]
  | cons x a ih =>
    have hx : x ∉ chars := ha x (by simp)
    rw [List.cons_append, find_first_of, if_neg hx, ih (fun y hy => ha y (List.mem_cons_of_mem _ hy))]
    cases find_first_of b chars
    · simp
    · simp; omega

theorem encode_map_lookup_reserved : ∀ c ∈ reserved_chars,
    (encode_map.lookup c).isSome = true ∧
      ∀ x ∈ (encode_map.lookup c).getD [], x ∉ reserved_chars := by
  decide

theorem encode_map_lookup_plain (c : Nat) (hc : c ∉ reserved_chars) :
    encode_map.lookup c = none := by
  apply lookup_none_of_keys_ne
  intro e he hk
  apply hc
  rw [← hk]
  simp only [encode_map, List.mem_cons, List.mem_singleton, List.not_mem_nil, or_false] at he
  rcases he with rfl | rfl | rfl | rfl | rfl | rfl | rfl | rfl | rfl <;> decide

theorem replace_one_at_append (a : List Nat) (c : Nat) (b r : List Nat) :
    replace (a ++ c :: b) a.length 1 r = a ++ r ++ b := by
  have := replace_at_append a [c] b r
  simpa using this

theorem getElem?_append_cons (a : List Nat) (c : Nat) (b : List Nat) :
    (a ++ c :: b)[a.length]? = some c := by
  rw [List.getElem?_append_right (Nat.le_refl _)]
  simp

/-- The loop of `encode` on `a ++ b`, where `a` holds no reserved character:
it leaves `a` and escapes `b`. -/
theorem encode_loop_escape : ∀ (b a : List Nat) (fuel : Nat), (∀ x ∈ a, x ∉ reserved_chars) →
    b.length < fuel → encode_loop fuel (a ++ b) = .ok (a ++ escape encode_map b) := by
  intro b
  induction b with
  | nil =>
    intro a fuel ha hf
    obtain ⟨f, rfl⟩ : ∃ f, fuel = f + 1 := ⟨fuel - 1, by simp at hf; omega⟩
    rw [encode_loop, find_first_of_append a [] _ ha]
    simp [find_first_of, escape_nil]
  | cons c b ih =>
    intro a fuel ha hf
    simp only [List.length_cons] at hf
    by_cases hc : c ∈ reserved_chars
    · obtain ⟨f, rfl⟩ : ∃ f, fuel = f + 1 := ⟨fuel - 1, by omega⟩
      obtain ⟨hsome, hfree⟩ := encode_map_lookup_reserved c hc
      obtain ⟨tok, htok⟩ := Option.isSome_iff_exists.mp hsome
      rw [htok] at hfree
      have hfind : find_first_of (a ++ c :: b) reserved_chars = some a.length := by
        rw [find_first_of_append a _ _ ha, find_first_of, if_pos hc]
        simp
      rw [encode_loop]
      simp only [hfind, getElem?_append_cons, htok, replace_one_at_append]
      rw [ih (a ++ tok) f _ (by omega), escape_cons, htok]
      · simp
      · intro x hx
        rcases List.mem_append.mp hx with hx | hx
        · exact ha x hx
        · exact hfree x (by simpa using hx)
    · have h := ih (a ++ [c]) fuel (by
        intro x hx
        rcases List.mem_append.mp hx with hx | hx
        · exact ha x hx
        · simp at hx; rw [hx]; exact hc) (by omega)
      rw [escape_cons, encode_map_lookup_plain c hc]
      simpa using h

theorem encode_eq_escape (s : List Nat) : encode s = .ok (escape encode_map s) := by
  have := encode_loop_escape s [] (s.length + 1) (by simp) (by omega)
  simpa [encode] using this

/-- C5: for every string `s` in which none of the nine escape tokens occurs,
`encode` returns a string on which `decode` returns `s`. -/
theorem decode_encode_roundtrip (s : List Nat) (hs : ∀ e ∈ encode_map, ¬ e.2 <:+: s) :
    ∃ t, encode s = .ok t ∧ decode t = .ok s :=
  ⟨escape encode_map s, encode_eq_escape s,
    decode_entries_escape encode_map (by decide) s hs⟩

/-- Witness of C5 on the string "u@h": it holds no backslash, hence no
token. -/
theorem decode_encode_roundtrip_witness :
    ∃ t, encode [0x75, 0x40, 0x68] = .ok t ∧ decode t = .ok [0x75, 0x40, 0x68] :=
  decode_encode_roundtrip [0x75, 0x40, 0x68] (by
    intro e he hinf
    have h1 : (0x5C : Nat) ∈ e.2 := by
      simp only [encode_map, List.mem_cons, List.mem_singleton, List.not_mem_nil, or_false] at he
      rcases he with rfl | rfl | rfl | rfl | rfl | rfl | rfl | rfl | rfl <;> simp
    have h2 := hinf.subset h1
    simp at h2)

end xep0106

namespace utils

theorem write_at_append (pre junk bytes : List Nat) (h : bytes.length ≤ junk.length) :
    write_at (pre ++ junk) pre.length bytes = .ok ((pre ++ bytes) ++ junk.drop bytes.length) := by
  have h1 : pre.length + bytes.length ≤ (pre ++ junk).length := by
    rw [List.length_append]; omega
  rw [write_at, if_pos h1]
  simp [List.take_append_eq_append_take, List.drop_append_eq_append_drop]

theorem cstr_append_nul_cons (a rest : List Nat) : cstr (a ++ 0 :: rest) = cstr a := by
  induction a with
  | nil => simp [cstr]
  | cons x a ih => simp [cstr, ih]

theorem iconv_call_ok (r : IconvCall) (pre junk : List Nat) (inp inleft outleft : Nat)
    (hin : r.consumed ≤ inleft) (hout : r.emitted.length ≤ outleft)
    (hroom : r.emitted.length ≤ junk.length) :
    iconv_call r ⟨inp, inleft, pre ++ junk, pre.length, outleft⟩ =
      .ok ⟨inp + r.consumed, inleft - r.consumed,
        (pre ++ r.emitted) ++ junk.drop r.emitted.length, (pre ++ r.emitted).length,
        outleft - r.emitted.length⟩ := by
  simp only [iconv_call]
  rw [if_pos ⟨hin, hout⟩, write_at_append pre junk r.emitted hroom]
  simp [ok_bind, pure_eq_ok, List.length_append]

theorem convert_loop_success (r : IconvCall) (script : List IconvCall) (st st1 : ConvState)
    (hr : r.signal = .success) (h : iconv_call r st = .ok st1) :
    convert_loop (r :: script) st = .ok st1 := by
  rw [convert_loop, h]
  simp [ok_bind, pure_eq_ok, hr]

theorem convert_loop_EILSEQ (r : IconvCall) (script : List IconvCall) (st : ConvState)
    (pre junk : List Nat) (inp inleft outleft : Nat) (hr : r.signal = .EILSEQ)
    (h : iconv_call r st = .ok ⟨inp, inleft, pre ++ junk, pre.length, outleft⟩)
    (hroom : 3 ≤ junk.length) :
    convert_loop (r :: script) st =
      convert_loop script ⟨inp + 1, (inleft + 2 ^ 64 - 1) % 2 ^ 64,
        (pre ++ invalid_char) ++ junk.drop 3, (pre ++ invalid_char).length, outleft⟩ := by
  rw [convert_loop, h]
  simp only [ok_bind, hr]
  rw [write_at_append pre junk invalid_char hroom]
  simp [ok_bind, invalid_char_len, invalid_char, List.length_append]

theorem size_t_decrement (n : Nat) (h1 : 0 < n) (h2 : n < 2 ^ 64) :
    (n + 2 ^ 64 - 1) % 2 ^ 64 = n - 1 := by
  have h : n + 2 ^ 64 - 1 = (n - 1) + 2 ^ 64 := by omega
  rw [h, Nat.add_mod_right, Nat.mod_eq_of_lt (by omega)]

/-- The loop on a run of invalid-byte signals followed by success, from a
state whose buffer is `pre ++ junk` with the write cursor at the end of
`pre`. -/
theorem convert_loop_invalid_then_success (fin : IconvCall) (hfin : fin.signal = .success) :
    ∀ (es : List IconvCall) (pre junk : List Nat) (inp inleft outleft : Nat),
    (∀ e ∈ es, e.signal = .EILSEQ) →
    (es.map (fun e => e.consumed + 1)).sum + fin.consumed ≤ inleft → inleft < 2 ^ 64 →
    (accumulated es fin).length ≤ junk.length → junk.length ≤ outleft →
    ∃ st, convert_loop (es ++ [fin]) ⟨inp, inleft, pre ++ junk, pre.length, outleft⟩ = .ok st ∧
      st.outbuf = (pre ++ accumulated es fin) ++ junk.drop (accumulated es fin).length ∧
      st.outbuf_ptr = (pre ++ accumulated es fin).length ∧
      st.inbuf_ptr = inp + ((es.map (fun e => e.consumed)).sum + es.length + fin.consumed) := by
  intro es
  induction es with
  | nil =>
    intro pre junk inp inleft outleft _ hin _ hacc hout
    simp only [accumulated, List.flatMap_nil, List.nil_append, List.map_nil, List.sum_nil,
      Nat.zero_add, List.length_nil] at hin hacc ⊢
    exact ⟨_, convert_loop_success fin [] _ _ hfin
      (iconv_call_ok fin pre junk inp inleft outleft hin (by omega) hacc), rfl, rfl, rfl⟩
  | cons e es ih =>
    intro pre junk inp inleft outleft hes hin hlt hacc hout
    have he : e.signal = .EILSEQ := hes e (by simp)
    have hes1 : ∀ x ∈ es, x.signal = .EILSEQ := fun x hx => hes x (List.mem_cons_of_mem _ hx)
    have hacc_eq : accumulated (e :: es) fin = e.emitted ++ invalid_char ++ accumulated es fin := by
      simp [accumulated, List.flatMap_cons]
    have h3 : invalid_char.length = 3 := rfl
    rw [hacc_eq] at hacc ⊢
    simp only [List.map_cons, List.sum_cons, List.length_append, List.length_cons, h3]
      at hin hacc ⊢
    have hd1 : (junk.drop e.emitted.length).length = junk.length - e.emitted.length :=
      List.length_drop _ _
    have hd2 : ((junk.drop e.emitted.length).drop 3).length = junk.length - e.emitted.length - 3 := by
      rw [List.length_drop, hd1]
    obtain ⟨st, hst, hbuf, hptr, hinp⟩ := ih ((pre ++ e.emitted) ++ invalid_char)
      ((junk.drop e.emitted.length).drop 3) (inp + e.consumed + 1)
      ((inleft - e.consumed + 2 ^ 64 - 1) % 2 ^ 64) (outleft - e.emitted.length) hes1
      (by rw [size_t_decrement _ (by omega) (by omega)]; omega)
      (Nat.mod_lt _ (by decide)) (by omega) (by omega)
    refine ⟨st, ?_, ?_, ?_, ?_⟩
    · rw [List.cons_append, convert_loop_EILSEQ e _ _ (pre ++ e.emitted)
        (junk.drop e.emitted.length) (inp + e.consumed) (inleft - e.consumed)
        (outleft - e.emitted.length) he
        (iconv_call_ok e pre junk inp inleft outleft (by omega) (by omega) (by omega))
        (by omega)]
      exact hst
    · rw [hbuf]
      simp only [List.append_assoc, List.drop_drop, List.length_append, h3,
        List.append_cancel_left_eq]
    · rw [hptr]
      simp only [List.length_append, h3]
      omega
    · rw [hinp]
      omega

/-- C6: the buffer has exactly `str.size() * 4` bytes, with no room for the
terminator or a placeholder, and the writes are not guarded. On the empty
string the buffer has no byte and the terminator is written at offset 0; on
a 1-byte string whose byte starts an incomplete sequence the placeholder is
written at offsets 0..2 of the 4-byte buffer and the terminator at offset 4.
Both writes are outside the buffer. -/
theorem convert_to_utf8_writes_out_of_bounds :
    (∀ fill : Nat → Nat, (convert_init [] fill).outbuf.length = 0 ∧
      convert_to_utf8 [] true fill [⟨0, [], .success⟩] = .error .out_of_bounds) ∧
    (∀ fill : Nat → Nat, (convert_init [0xC3] fill).outbuf.length = 4 ∧
      convert_to_utf8 [0xC3] true fill [⟨0, [], .EINVAL⟩] = .error .out_of_bounds) := by
  constructor
  · intro fill
    exact ⟨rfl, rfl⟩
  · intro fill
    refine ⟨by simp [convert_init], ?_⟩
    simp [convert_to_utf8, convert_loop, iconv_call, convert_init, write_at, ok_bind,
      pure_eq_ok, invalid_char, invalid_char_len, error_bind]

/-- C7, as it is stated, fails: on the 4-byte string FF 61 00 62 the
primitive signals an invalid byte at FF and then converts the three other
bytes; the accumulated output is EF BF BD 61 00 62, the returned string is
EF BF BD 61. -/
theorem convert_to_utf8_loses_bytes_after_zero :
    convert_to_utf8 [0xFF, 0x61, 0x00, 0x62] true (fun _ => 0x58)
        ([⟨0, [], .EILSEQ⟩] ++ [⟨3, [0x61, 0x00, 0x62], .success⟩])
      = .ok [0xEF, 0xBF, 0xBD, 0x61] ∧
    accumulated [⟨0, [], .EILSEQ⟩] ⟨3, [0x61, 0x00, 0x62], .success⟩
      = [0xEF, 0xBF, 0xBD, 0x61, 0x00, 0x62] ∧
    convert_to_utf8 [0xFF, 0x61, 0x00, 0x62] true (fun _ => 0x58)
        ([⟨0, [], .EILSEQ⟩] ++ [⟨3, [0x61, 0x00, 0x62], .success⟩])
      ≠ .ok (accumulated [⟨0, [], .EILSEQ⟩] ⟨3, [0x61, 0x00, 0x62], .success⟩) := by
  decide

/-- C7, amended: in a run in which the primitive signals an invalid byte at
each call of `es` and then success, on a string at whose end every one of
these signals leaves a byte to skip, and whose accumulated output is shorter
than the buffer of `str.size() * 4` bytes, the returned string is the
accumulated output (the bytes of each call, in order, with one placeholder
EF BF BD at each invalid-byte signal) up to its first zero byte, hence the
whole of it when it holds no zero byte; the input cursor ends past the
consumed bytes and one more byte for each invalid-byte signal. -/
theorem convert_to_utf8_invalid_then_success (str : List Nat) (fill : Nat → Nat)
    (es : List IconvCall) (fin : IconvCall) (hsize : str.length * 4 < 2 ^ 64)
    (hes : ∀ e ∈ es, e.signal = .EILSEQ) (hfin : fin.signal = .success)
    (hin : (es.map (fun e => e.consumed + 1)).sum + fin.consumed ≤ str.length)
    (hroom : (accumulated es fin).length < str.length * 4) :
    convert_to_utf8 str true fill (es ++ [fin]) = .ok (cstr (accumulated es fin)) ∧
    (0 ∉ accumulated es fin →
      convert_to_utf8 str true fill (es ++ [fin]) = .ok (accumulated es fin)) ∧
    ∃ st, convert_loop (es ++ [fin]) (convert_init str fill) = .ok st ∧
      st.inbuf_ptr = (es.map (fun e => e.consumed)).sum + es.length + fin.consumed ∧
      st.outbuf_ptr = (accumulated es fin).length := by
  have hmod : str.length * 4 % 2 ^ 64 = str.length * 4 := Nat.mod_eq_of_lt hsize
  have hjunk : ((List.range (str.length * 4)).map fill).length = str.length * 4 := by simp
  have hinit : convert_init str fill =
      ⟨0, str.length, [] ++ (List.range (str.length * 4)).map fill, ([] : List Nat).length,
        str.length * 4⟩ := by
    simp only [convert_init]
    rw [hmod]
    rfl
  obtain ⟨st, hst, hbuf, hptr, hinp⟩ := convert_loop_invalid_then_success fin hfin es []
    ((List.range (str.length * 4)).map fill) 0 str.length (str.length * 4) hes hin (by omega)
    (by omega) (by omega)
  rw [← hinit] at hst
  simp only [List.nil_append, Nat.zero_add] at hbuf hptr hinp
  have hres : convert_to_utf8 str true fill (es ++ [fin]) = .ok (cstr (accumulated es fin)) := by
    simp only [convert_to_utf8, hst, ok_bind, hbuf, hptr, if_false, Bool.true_eq_false]
    rw [write_at_append (accumulated es fin) _ [0]
      (by simp only [List.length_drop, List.length_singleton]; omega)]
    simp only [ok_bind, string_of_buffer, List.append_assoc, List.singleton_append]
    rw [if_pos (by simp), cstr_append_nul_cons]
  refine ⟨hres, fun h0 => ?_, st, hst, hinp, hptr⟩
  rw [hres, cstr_of_nul_not_mem _ h0]

/-- Witness of the amended C7 on the string 61 FF 62: one invalid-byte
signal after the byte 61 is converted, then success. -/
theorem convert_to_utf8_invalid_then_success_witness :
    (accumulated [⟨1, [0x61], .EILSEQ⟩] ⟨1, [0x62], .success⟩).length
      < [0x61, 0xFF, 0x62].length * 4 ∧
    convert_to_utf8 [0x61, 0xFF, 0x62] true (fun _ => 0x58)
        ([⟨1, [0x61], .EILSEQ⟩] ++ [⟨1, [0x62], .success⟩])
      = .ok (cstr (accumulated [⟨1, [0x61], .EILSEQ⟩] ⟨1, [0x62], .success⟩)) :=
  ⟨by decide, (convert_to_utf8_invalid_then_success [0x61, 0xFF, 0x62] (fun _ => 0x58)
    [⟨1, [0x61], .EILSEQ⟩] ⟨1, [0x62], .success⟩ (by decide) (by decide) rfl (by decide)
    (by decide)).1⟩

/-- C8: on the 2-byte string 61 C3 the primitive converts the byte 61 and
signals an incomplete sequence; the placeholder is written after the byte
61 and the cursor is then moved one byte further, so that the byte the
memory held at offset 4 is part of the returned string: 58 when the memory
held 58, and no byte only when it held a zero. -/
theorem convert_to_utf8_incomplete_keeps_stale_byte :
    convert_to_utf8 [0x61, 0xC3] true (fun _ => 0x58) [⟨1, [0x61], .EINVAL⟩]
      = .ok [0x61, 0xEF, 0xBF, 0xBD, 0x58] ∧
    convert_to_utf8 [0x61, 0xC3] true (fun _ => 0) [⟨1, [0x61], .EINVAL⟩]
      = .ok [0x61, 0xEF, 0xBF, 0xBD] := by
  decide

end utils

namespace utils

theorem unitsAux_short : ∀ (j : Nat) (c : List Nat), c.length < j → unitsAux j c = false := by
  intro j
  induction j with
  | zero => intro c h; omega
  | succ j ih =>
    intro c h
    rcases c with _ | ⟨b, t⟩
    · simp [unitsAux]
    · simp only [List.length_cons] at h
      simp [unitsAux, ih t (by omega)]

theorem unitsAux_truncated (lead : Nat) (conts : List Nat) (hlead : lead < 256)
    (hshort : conts.length < get_next_codepoint_size lead - 1) :
    ∀ (pre : List Nat) (k : Nat), unitsAux k (pre ++ lead :: conts) = false := by
  obtain ⟨hs4, hs3, hs2, hs1⟩ := size_table lead hlead
  obtain ⟨_, hl2, hl3, hl4, _⟩ := unitsAux_lead lead conts
  have hsize : get_next_codepoint_size lead = 2 ∨ get_next_codepoint_size lead = 3 ∨
      get_next_codepoint_size lead = 4 := by
    have : get_next_codepoint_size lead ≠ 1 := by omega
    unfold get_next_codepoint_size at this ⊢
    split_ifs at this ⊢ <;> simp_all
  have hnc : isCont lead = false := by
    have : 0xC0 ≤ lead := by
      rcases hsize with h | h | h
      · exact (hs2.1 h).1
      · have := (hs3.1 h).1; omega
      · have := (hs4.1 h).1; omega
    simp only [isCont, Bool.and_eq_false_iff, decide_eq_false_iff_not]
    right; omega
  have hbase : ∀ k, unitsAux k (lead :: conts) = false := by
    intro k
    rcases k with _ | k
    · rcases hsize with h | h | h
      · rw [hl2 (hs2.1 h)]; exact unitsAux_short _ _ (by omega)
      · rw [hl3 (hs3.1 h)]; exact unitsAux_short _ _ (by omega)
      · rw [hl4 (hs4.1 h)]; exact unitsAux_short _ _ (by omega)
    · simp [unitsAux, hnc]
  intro pre
  induction pre with
  | nil => intro k; exact hbase k
  | cons x pre ih =>
    intro k
    rcases k with _ | k
    · simp only [List.cons_append, unitsAux]
      split_ifs <;> first | exact ih _ | rfl
    · simp [unitsAux, ih k]

/-- C11: on a zero-terminated buffer that ends at its terminator, and whose
bytes before the terminator end with a lead byte of class L (2, 3 or 4, as
`get_next_codepoint_size` gives it) followed by fewer than L-1 continuation
bytes, `is_valid_utf8` returns false; it does so without a fault, hence
without a read past the terminator, the last byte of the buffer. -/
theorem is_valid_utf8_truncated (pre conts : List Nat) (lead : Nat)
    (hbytes : ∀ b ∈ pre ++ lead :: conts, b < 256) (h0 : 0 ∉ pre ++ lead :: conts)
    (hconts : ∀ b ∈ conts, isCont b = true)
    (hclass : 2 ≤ get_next_codepoint_size lead)
    (hshort : conts.length < get_next_codepoint_size lead - 1) :
    is_valid_utf8 (some ((pre ++ lead :: conts) ++ [0])) = .ok false := by
  have _ := hconts
  have _ := hclass
  have hb : ∀ b ∈ (pre ++ lead :: conts) ++ [0], b < 256 := by
    intro b hb
    rcases List.mem_append.mp hb with hb | hb
    · exact hbytes b hb
    · simp at hb; omega
  rw [is_valid_utf8_eq_unitsAux _ (by simp) hb, cstr_append_singleton_nul,
    cstr_of_nul_not_mem _ h0, unitsAux_truncated lead conts (hbytes lead (by simp)) hshort]

/-- Witness of C11 on the buffer 61 E2 82 00: a 3-byte lead and one
continuation byte. -/
theorem is_valid_utf8_truncated_witness :
    (([0x82] : List Nat).length < get_next_codepoint_size 0xE2 - 1) ∧
    is_valid_utf8 (some (([0x61] ++ 0xE2 :: [0x82]) ++ [0])) = .ok false :=
  ⟨by decide, is_valid_utf8_truncated [0x61] [0x82] 0xE2 (by decide) (by decide) (by decide)
    (by decide) (by decide)⟩

end utils

namespace utils

/-- C16, as it is stated, fails: on the empty byte sequence, a buffer whose
first byte is the terminator, `is_valid_utf8` returns true. -/
theorem is_valid_utf8_empty_is_true :
    is_valid_utf8 (some [0]) = .ok true ∧ is_valid_utf8 (some [0]) ≠ .ok false := by
  decide

/-- C16, amended: `is_valid_utf8` returns false for a null input, and true
for the empty byte sequence, a buffer whose first byte is the terminator. -/
theorem is_valid_utf8_null_and_empty :
    is_valid_utf8 none = .ok false ∧
    ∀ rest : List Nat, is_valid_utf8 (some (0 :: rest)) = .ok true := by
  refine ⟨rfl, fun rest => ?_⟩
  simp [is_valid_utf8, is_valid_utf8_loop_nul]

theorem units_of_valid (s : List Nat) (hbytes : ∀ b ∈ s, b < 256)
    (hvalid : is_valid_utf8 (some (s ++ [0])) = .ok true) :
    ∃ us : List (List Nat), (∀ u ∈ us, isUtf8Unit u = true) ∧ us.flatten = cstr s := by
  have hb0 : ∀ b ∈ s ++ [0], b < 256 := by
    intro b hb
    rcases List.mem_append.mp hb with hb | hb
    · exact hbytes b hb
    · simp at hb; omega
  rw [is_valid_utf8_eq_unitsAux _ (by simp) hb0, cstr_append_singleton_nul] at hvalid
  exact concat_of_unitsAux _ _ (Nat.le_refl _) (by simpa using hvalid)

theorem is_valid_utf8_of_units (out : List Nat) (hbytes : ∀ b ∈ out, b < 256) (h0 : 0 ∉ out)
    (hu : IsUnitConcat out) : is_valid_utf8 (some (out ++ [0])) = .ok true := by
  have hb0 : ∀ b ∈ out ++ [0], b < 256 := by
    intro b hb
    rcases List.mem_append.mp hb with hb | hb
    · exact hbytes b hb
    · simp at hb; omega
  rw [is_valid_utf8_eq_unitsAux _ (by simp) hb0, cstr_append_singleton_nul,
    cstr_of_nul_not_mem _ h0, unitsAux_of_concat _ hu]

/-- C19: on an input accepted by `is_valid_utf8`, `remove_invalid_xml_chars`
returns a string that `is_valid_utf8` accepts again: the result is the
concatenation of some of the codepoint units of the input, each of them
whole, in their order. -/
theorem remove_invalid_xml_chars_output_valid (original : List Nat)
    (hbytes : ∀ b ∈ original, b < 256)
    (hvalid : is_valid_utf8 (some (original ++ [0])) = .ok true) :
    ∃ out, remove_invalid_xml_chars original = .ok out ∧
      is_valid_utf8 (some (out ++ [0])) = .ok true ∧
      ∃ us : List (List Nat), (∀ u ∈ us, isUtf8Unit u = true) ∧ us.flatten = cstr original ∧
        out = (us.filter keptByCode).flatten := by
  obtain ⟨us, hus, hflat⟩ := units_of_valid original hbytes hvalid
  refine ⟨(us.filter keptByCode).flatten,
    remove_invalid_xml_chars_of_units original us hbytes hus hflat, ?_, us, hus, hflat, rfl⟩
  have hmem : ∀ b ∈ (us.filter keptByCode).flatten, b ∈ cstr original := fun b hb =>
    hflat ▸ mem_filter_flatten keptByCode us b hb
  exact is_valid_utf8_of_units _ (fun b hb => hbytes b (cstr_subset original b (hmem b hb)).1)
    (fun h => nul_not_mem_cstr original (hmem 0 h))
    ⟨us.filter keptByCode, fun u hu => hus u (List.mem_filter.mp hu).1, rfl⟩

/-- Witness of C19 on the string 61 01 C3 A9. -/
theorem remove_invalid_xml_chars_output_valid_witness :
    is_valid_utf8 (some ([0x61, 0x01, 0xC3, 0xA9] ++ [0])) = .ok true ∧
    ∃ out, remove_invalid_xml_chars [0x61, 0x01, 0xC3, 0xA9] = .ok out ∧
      is_valid_utf8 (some (out ++ [0])) = .ok true ∧
      ∃ us : List (List Nat), (∀ u ∈ us, isUtf8Unit u = true) ∧
        us.flatten = cstr [0x61, 0x01, 0xC3, 0xA9] ∧ out = (us.filter keptByCode).flatten :=
  ⟨by decide, remove_invalid_xml_chars_output_valid [0x61, 0x01, 0xC3, 0xA9] (by decide)
    (by decide)⟩

end utils

namespace utils

/-- One turn of the loop of `remove_invalid_xml_chars` at a non-zero byte
`c`, whatever bytes follow it. -/
theorem remove_invalid_xml_chars_loop_step (size fuel c : Nat) (t res : List Nat)
    (hc : c < 256) (hc0 : c ≠ 0) :
    remove_invalid_xml_chars_loop size (fuel + 1) (c :: t) res =
      if 0xF0 ≤ c ∧ c ≤ 0xF7 then
        rd t 0 >>= fun b1 => rd t 1 >>= fun b2 => rd t 2 >>= fun b3 =>
          if keptByCode [c, b1, b2, b3] = true then
            memcpy_r size res [c, b1, b2, b3] >>= fun res1 =>
              remove_invalid_xml_chars_loop size fuel (t.drop 3) res1
          else remove_invalid_xml_chars_loop size fuel (t.drop 3) res
      else if 0xE0 ≤ c ∧ c ≤ 0xEF then
        rd t 0 >>= fun b1 => rd t 1 >>= fun b2 =>
          if keptByCode [c, b1, b2] = true then
            memcpy_r size res [c, b1, b2] >>= fun res1 =>
              remove_invalid_xml_chars_loop size fuel (t.drop 2) res1
          else remove_invalid_xml_chars_loop size fuel (t.drop 2) res
      else if 0xC0 ≤ c ∧ c ≤ 0xDF then
        rd t 0 >>= fun b1 =>
          memcpy_r size res [c, b1] >>= fun res1 =>
            remove_invalid_xml_chars_loop size fuel (t.drop 1) res1
      else if c < 0x80 then
        if keptByCode [c] = true then
          memcpy_r size res [c] >>= fun res1 => remove_invalid_xml_chars_loop size fuel t res1
        else remove_invalid_xml_chars_loop size fuel t res
      else .error .runtime_error := by
  obtain ⟨m4, m3, m2, _, m1⟩ := mask_table c hc
  rw [remove_invalid_xml_chars_loop]
  simp only [rd_zero, rd_succ, ok_bind, pure_eq_ok, hc0, if_false, m4, m3, m2, m1, keptByCode,
    decide_eq_true_eq, List.drop_succ_cons, List.drop_zero]

end utils

namespace utils

theorem scan_reaches_stray_nil (fuel : Nat) : scan_reaches_stray fuel [] = false := by
  cases fuel <;> rfl

theorem remove_invalid_xml_chars_loop_nil (size fuel : Nat) (res : List Nat) :
    remove_invalid_xml_chars_loop size fuel [] res ≠ .error .runtime_error := by
  cases fuel with
  | zero => simp [remove_invalid_xml_chars_loop]
  | succ f =>
    rw [remove_invalid_xml_chars_loop]
    simp [rd_nil, error_bind]

/-- What follows the copy of a unit `u` throws exactly when the scan of the
rest reaches a stray byte: when the copy does not fit, the unit runs up to
the end of the buffer and nothing is left to scan. -/
theorem remove_after_copy (size fuel : Nat) (u t res : List Nat)
    (ih : ∀ (str res : List Nat), (∀ b ∈ str, b < 256) → res.length + str.length ≤ size + 1 →
      (remove_invalid_xml_chars_loop size fuel str res = .error .runtime_error ↔
        scan_reaches_stray fuel str = true))
    (hb : ∀ b ∈ t, b < 256) (hlen : res.length + (u.length + t.length) ≤ size + 1) :
    ((memcpy_r size res u >>= fun res1 => remove_invalid_xml_chars_loop size fuel t res1)
        = .error .runtime_error ↔ scan_reaches_stray fuel t = true) := by
  by_cases hfit : res.length + u.length ≤ size
  · rw [memcpy_r_ok size res u hfit, ok_bind]
    exact ih t (res ++ u) hb (by rw [List.length_append]; omega)
  · have ht : t = [] := List.length_eq_zero.mp (by omega)
    subst ht
    simp [memcpy_r, hfit, error_bind, scan_reaches_stray_nil]

/-- The loop of `remove_invalid_xml_chars` throws exactly when the scan
reaches a stray byte, from any state in which the bytes written and the
bytes left to scan fit the buffers. -/
theorem remove_invalid_xml_chars_loop_throws_iff (size : Nat) :
    ∀ (fuel : Nat) (str res : List Nat), (∀ b ∈ str, b < 256) →
      res.length + str.length ≤ size + 1 →
      (remove_invalid_xml_chars_loop size fuel str res = .error .runtime_error ↔
        scan_reaches_stray fuel str = true) := by
  intro fuel
  induction fuel with
  | zero =>
    intro str res _ _
    simp [remove_invalid_xml_chars_loop, scan_reaches_stray]
  | succ fuel ih =>
    intro str res hb hlen
    rcases str with _ | ⟨c, t⟩
    · have := remove_invalid_xml_chars_loop_nil size (fuel + 1) res
      simp [scan_reaches_stray, this]
    have hc : c < 256 := hb c (by simp)
    have hbt : ∀ b ∈ t, b < 256 := fun b h => hb b (List.mem_cons_of_mem _ h)
    simp only [List.length_cons] at hlen
    by_cases hc0 : c = 0
    · subst hc0
      simp [remove_invalid_xml_chars_loop_nul, scan_reaches_stray]
    obtain ⟨hs4, hs3, hs2, hs1⟩ := size_table c hc
    rw [remove_invalid_xml_chars_loop_step size fuel c t res hc hc0]
    simp only [scan_reaches_stray, hc0, if_false]
    by_cases h4 : 0xF0 ≤ c ∧ c ≤ 0xF7
    · have hstray : ¬ ((0x80 ≤ c ∧ c ≤ 0xBF) ∨ 0xF8 ≤ c) := by omega
      rw [if_pos h4, if_neg hstray, hs4.2 h4]
      rcases t with _ | ⟨b1, _ | ⟨b2, _ | ⟨b3, r⟩⟩⟩
      · simp [rd_nil, error_bind, scan_reaches_stray_nil]
      · simp [rd_nil, rd_zero, rd_succ, ok_bind, error_bind, scan_reaches_stray_nil]
      · simp [rd_nil, rd_zero, rd_succ, ok_bind, error_bind, scan_reaches_stray_nil]
      · simp only [rd_zero, rd_succ, ok_bind, List.drop_succ_cons, List.drop_zero]
        have hbr : ∀ b ∈ r, b < 256 := fun b h => hbt b (by simp [h])
        simp only [List.length_cons] at hlen
        by_cases hk : keptByCode [c, b1, b2, b3] = true
        · rw [if_pos hk]
          exact remove_after_copy size fuel [c, b1, b2, b3] r res ih hbr
            (by simp only [List.length_cons, List.length_nil]; omega)
        · rw [if_neg hk]
          exact ih r res hbr (by omega)
    by_cases h3 : 0xE0 ≤ c ∧ c ≤ 0xEF
    · have hstray : ¬ ((0x80 ≤ c ∧ c ≤ 0xBF) ∨ 0xF8 ≤ c) := by omega
      rw [if_neg h4, if_pos h3, if_neg hstray, hs3.2 h3]
      rcases t with _ | ⟨b1, _ | ⟨b2, r⟩⟩
      · simp [rd_nil, error_bind, scan_reaches_stray_nil]
      · simp [rd_nil, rd_zero, rd_succ, ok_bind, error_bind, scan_reaches_stray_nil]
      · simp only [rd_zero, rd_succ, ok_bind, List.drop_succ_cons, List.drop_zero]
        have hbr : ∀ b ∈ r, b < 256 := fun b h => hbt b (by simp [h])
        simp only [List.length_cons] at hlen
        by_cases hk : keptByCode [c, b1, b2] = true
        · rw [if_pos hk]
          exact remove_after_copy size fuel [c, b1, b2] r res ih hbr
            (by simp only [List.length_cons, List.length_nil]; omega)
        · rw [if_neg hk]
          exact ih r res hbr (by omega)
    by_cases h2 : 0xC0 ≤ c ∧ c ≤ 0xDF
    · have hstray : ¬ ((0x80 ≤ c ∧ c ≤ 0xBF) ∨ 0xF8 ≤ c) := by omega
      rw [if_neg h4, if_neg h3, if_pos h2, if_neg hstray, hs2.2 h2]
      rcases t with _ | ⟨b1, r⟩
      · simp [rd_nil, error_bind, scan_reaches_stray_nil]
      · simp only [rd_zero, rd_succ, ok_bind, List.drop_succ_cons, List.drop_zero]
        have hbr : ∀ b ∈ r, b < 256 := fun b h => hbt b (by simp [h])
        simp only [List.length_cons] at hlen
        exact remove_after_copy size fuel [c, b1] r res ih hbr
          (by simp only [List.length_cons, List.length_nil]; omega)
    by_cases h1 : c < 0x80
    · have hstray : ¬ ((0x80 ≤ c ∧ c ≤ 0xBF) ∨ 0xF8 ≤ c) := by omega
      rw [if_neg h4, if_neg h3, if_neg h2, if_pos h1, if_neg hstray, hs1.2 (by omega)]
      simp only [List.drop_succ_cons, List.drop_zero]
      by_cases hk : keptByCode [c] = true
      · rw [if_pos hk]
        exact remove_after_copy size fuel [c] t res ih hbt
          (by simp only [List.length_cons, List.length_nil]; omega)
      · rw [if_neg hk]
        exact ih t res hbt (by omega)
    · have hstray : (0x80 ≤ c ∧ c ≤ 0xBF) ∨ 0xF8 ≤ c := by omega
      rw [if_neg h4, if_neg h3, if_neg h2, if_neg h1, if_pos hstray]
      simp

end utils

namespace utils

theorem get_next_codepoint_size_pos (c : Nat) : 1 ≤ get_next_codepoint_size c := by
  unfold get_next_codepoint_size
  split_ifs <;> omega

theorem strayReached_of_scan : ∀ (fuel : Nat) (mem : List Nat),
    scan_reaches_stray fuel mem = true → StrayReached mem := by
  intro fuel
  induction fuel with
  | zero => intro mem h; simp [scan_reaches_stray] at h
  | succ fuel ih =>
    intro mem h
    rcases mem with _ | ⟨c, t⟩
    · simp [scan_reaches_stray] at h
    by_cases hc0 : c = 0
    · simp [scan_reaches_stray, hc0] at h
    by_cases hs : (0x80 ≤ c ∧ c ≤ 0xBF) ∨ 0xF8 ≤ c
    · exact ⟨[], c, t, by simp, hs, by simp⟩
    · simp only [scan_reaches_stray, hc0, if_false, hs] at h
      obtain ⟨chunks, b, tail, hmem, hb, hch⟩ := ih _ h
      have hn := get_next_codepoint_size_pos c
      have hlt : get_next_codepoint_size c < (c :: t).length := by
        by_contra hge
        rw [List.drop_eq_nil_of_le (by omega)] at hmem
        simp at hmem
      refine ⟨(c :: t).take (get_next_codepoint_size c) :: chunks, b, tail, ?_, hb, ?_⟩
      · rw [List.flatten_cons, List.append_assoc, ← hmem, List.take_append_drop]
      · intro ch hmemch
        rcases List.mem_cons.mp hmemch with rfl | hmemch
        · obtain ⟨n, hn1⟩ : ∃ n, get_next_codepoint_size c = n + 1 := ⟨_, (Nat.sub_add_cancel hn).symm⟩
          refine ⟨c, t.take n, by rw [hn1, List.take_succ_cons], hc0, hs, ?_⟩
          rw [List.length_take]
          omega
        · exact hch ch hmemch

theorem scan_of_strayReached (chunks : List (List Nat)) (b : Nat) (tail : List Nat)
    (hb : isStray b)
    (hch : ∀ ch ∈ chunks, ∃ c r, ch = c :: r ∧ c ≠ 0 ∧ ¬ isStray c ∧
      ch.length = get_next_codepoint_size c) :
    ∀ fuel : Nat, chunks.length < fuel →
      scan_reaches_stray fuel (chunks.flatten ++ b :: tail) = true := by
  induction chunks with
  | nil =>
    intro fuel hf
    obtain ⟨f, rfl⟩ : ∃ f, fuel = f + 1 := ⟨fuel - 1, by simp at hf; omega⟩
    have hb0 : b ≠ 0 := by
      rcases hb with h | h <;> omega
    have hb' : (0x80 ≤ b ∧ b ≤ 0xBF) ∨ 0xF8 ≤ b := hb
    simp [scan_reaches_stray, hb0, hb']
  | cons ch chunks ih =>
    intro fuel hf
    simp only [List.length_cons] at hf
    obtain ⟨f, rfl⟩ : ∃ f, fuel = f + 1 := ⟨fuel - 1, by omega⟩
    obtain ⟨c, r, rfl, hc0, hs, hlen⟩ := hch ch (by simp)
    have hs' : ¬ ((0x80 ≤ c ∧ c ≤ 0xBF) ∨ 0xF8 ≤ c) := hs
    have hdrop : ((c :: r) ++ (chunks.flatten ++ b :: tail)).drop (get_next_codepoint_size c)
        = chunks.flatten ++ b :: tail := by
      rw [← hlen, List.drop_left]
    rw [List.flatten_cons, List.append_assoc]
    have hstep : scan_reaches_stray (f + 1) (c :: (r ++ (chunks.flatten ++ b :: tail))) =
        scan_reaches_stray f
          ((c :: (r ++ (chunks.flatten ++ b :: tail))).drop (get_next_codepoint_size c)) := by
      rw [scan_reaches_stray, if_neg hc0, if_neg hs']
    rw [List.cons_append, hstep, ← List.cons_append, hdrop]
    exact ih (fun ch' h' => hch ch' (List.mem_cons_of_mem _ h')) f (by omega)

end utils

namespace utils

theorem length_le_flatten_length (chunks : List (List Nat)) (h : ∀ ch ∈ chunks, ch ≠ []) :
    chunks.length ≤ chunks.flatten.length := by
  induction chunks with
  | nil => simp
  | cons ch chunks ih =>
    have h1 : 0 < ch.length := List.length_pos.mpr (h ch (by simp))
    have h2 := ih (fun x hx => h x (List.mem_cons_of_mem _ hx))
    simp only [List.length_cons, List.flatten_cons, List.length_append]
    omega

theorem remove_invalid_xml_chars_throws_iff_stray (original : List Nat)
    (hbytes : ∀ b ∈ original, b < 256) :
    remove_invalid_xml_chars original = .error .runtime_error ↔
      StrayReached (original ++ [0]) := by
  have hb0 : ∀ b ∈ original ++ [0], b < 256 := by
    intro b hb
    rcases List.mem_append.mp hb with hb | hb
    · exact hbytes b hb
    · simp at hb; omega
  have h := remove_invalid_xml_chars_loop_throws_iff original.length (original.length + 1)
    (original ++ [0]) [] hb0 (by simp)
  rw [remove_invalid_xml_chars, h]
  constructor
  · exact strayReached_of_scan _ _
  · rintro ⟨chunks, b, tail, hmem, hb, hch⟩
    rw [hmem]
    apply scan_of_strayReached chunks b tail hb hch
    have h1 := length_le_flatten_length chunks (fun ch hc => by
      obtain ⟨c, r, rfl, _⟩ := hch ch hc
      simp)
    have h2 : (original ++ [0]).length = (chunks.flatten ++ b :: tail).length := by rw [hmem]
    simp only [List.length_append, List.length_cons, List.length_nil] at h2
    omega

end utils

namespace utils

theorem remove_invalid_xml_chars_loop_end (size fuel : Nat) (res : List Nat) :
    remove_invalid_xml_chars_loop size (fuel + 1) [] res = .error .out_of_bounds := by
  rw [remove_invalid_xml_chars_loop]
  simp [rd_nil, error_bind]

theorem memcpy_r_then_end (size : Nat) (res u : List Nat) :
    (memcpy_r size res u >>= fun _ => (Except.error Fault.out_of_bounds : Except Fault (List Nat)))
      = .error .out_of_bounds := by
  by_cases hfit : res.length + u.length ≤ size
  · rw [memcpy_r_ok size res u hfit, ok_bind]
  · simp [memcpy_r, hfit, error_bind]

/-- One turn of the loop over a chunk of the scan: the chunk is copied or
dropped and the loop goes on at the byte after it. -/
theorem remove_invalid_xml_chars_loop_chunk (size fuel : Nat) (ch tail res : List Nat)
    (hch : ScanChunk ch) (hb : ∀ b ∈ ch, b < 256) :
    remove_invalid_xml_chars_loop size (fuel + 1) (ch ++ tail) res =
      if keptByCode ch = true then
        memcpy_r size res ch >>= fun res1 => remove_invalid_xml_chars_loop size fuel tail res1
      else remove_invalid_xml_chars_loop size fuel tail res := by
  obtain ⟨c, r, rfl, hc0, hs, hlen⟩ := hch
  have hc : c < 256 := hb c (by simp)
  have hs' : ¬ ((0x80 ≤ c ∧ c ≤ 0xBF) ∨ 0xF8 ≤ c) := hs
  obtain ⟨hs4, hs3, hs2, hs1⟩ := size_table c hc
  rw [List.cons_append, remove_invalid_xml_chars_loop_step size fuel c _ res hc hc0]
  by_cases h4 : 0xF0 ≤ c ∧ c ≤ 0xF7
  · rw [hs4.2 h4] at hlen
    rcases r with _ | ⟨b1, _ | ⟨b2, _ | ⟨b3, _ | ⟨b4, r⟩⟩⟩⟩ <;>
      simp only [List.length_cons, List.length_nil] at hlen <;> try omega
    rw [if_pos h4]
    simp only [List.cons_append, List.nil_append, rd_zero, rd_succ, ok_bind,
      List.drop_succ_cons, List.drop_zero]
  by_cases h3 : 0xE0 ≤ c ∧ c ≤ 0xEF
  · rw [hs3.2 h3] at hlen
    rcases r with _ | ⟨b1, _ | ⟨b2, _ | ⟨b3, r⟩⟩⟩ <;>
      simp only [List.length_cons, List.length_nil] at hlen <;> try omega
    rw [if_neg h4, if_pos h3]
    simp only [List.cons_append, List.nil_append, rd_zero, rd_succ, ok_bind,
      List.drop_succ_cons, List.drop_zero]
  by_cases h2 : 0xC0 ≤ c ∧ c ≤ 0xDF
  · rw [hs2.2 h2] at hlen
    rcases r with _ | ⟨b1, _ | ⟨b2, r⟩⟩ <;>
      simp only [List.length_cons, List.length_nil] at hlen <;> try omega
    rw [if_neg h4, if_neg h3, if_pos h2]
    simp only [List.cons_append, List.nil_append, rd_zero, rd_succ, ok_bind,
      List.drop_succ_cons, List.drop_zero, keptByCode, if_true]
  · have h1 : c < 0x80 := by omega
    rw [hs1.2 (by omega)] at hlen
    rcases r with _ | ⟨b1, r⟩ <;>
      simp only [List.length_cons, List.length_nil] at hlen <;> try omega
    rw [if_neg h4, if_neg h3, if_neg h2, if_pos h1]
    simp only [List.nil_append]

/-- The loop over the chunks `chunks` at the head of the buffer: it reaches
the state in which the scan is at the byte after them and the result holds
the kept ones. -/
theorem remove_invalid_xml_chars_loop_chunks (size : Nat) :
    ∀ (chunks : List (List Nat)) (fuel : Nat) (tail res : List Nat),
    (∀ ch ∈ chunks, ScanChunk ch) → (∀ b ∈ chunks.flatten, b < 256) →
    res.length + chunks.flatten.length ≤ size →
    remove_invalid_xml_chars_loop size (fuel + chunks.length) (chunks.flatten ++ tail) res =
      remove_invalid_xml_chars_loop size fuel tail
        (res ++ (chunks.filter keptByCode).flatten) := by
  intro chunks
  induction chunks with
  | nil => intro fuel tail res _ _ _; simp
  | cons ch chunks ih =>
    intro fuel tail res hch hb hsz
    simp only [List.flatten_cons, List.mem_append, List.length_append, List.length_cons]
      at hb hsz
    have hch1 : ∀ v ∈ chunks, ScanChunk v := fun v hv => hch v (List.mem_cons_of_mem _ hv)
    have hb1 : ∀ b ∈ chunks.flatten, b < 256 := fun b h => hb b (Or.inr h)
    rw [List.length_cons, ← Nat.add_assoc, List.flatten_cons, List.append_assoc,
      remove_invalid_xml_chars_loop_chunk size _ ch _ res (hch ch (by simp))
        (fun b h => hb b (Or.inl h))]
    by_cases hk : keptByCode ch = true
    · rw [if_pos hk, memcpy_r_ok size res ch (by omega), ok_bind,
        ih fuel tail (res ++ ch) hch1 hb1 (by rw [List.length_append]; omega)]
      simp [List.filter_cons, hk]
    · rw [if_neg hk, ih fuel tail res hch1 hb1 (by omega)]
      simp [List.filter_cons, hk]

/-- The turn of the loop at a lead byte whose class reaches the end of the
buffer or further: a byte is read past the end of the buffer. -/
theorem remove_invalid_xml_chars_loop_leaves (size fuel c : Nat) (r res : List Nat)
    (hc : c < 256) (hc0 : c ≠ 0) (hs : ¬ isStray c)
    (hlen : (c :: r).length ≤ get_next_codepoint_size c) :
    remove_invalid_xml_chars_loop size (fuel + 2) (c :: r) res = .error .out_of_bounds := by
  have hs' : ¬ ((0x80 ≤ c ∧ c ≤ 0xBF) ∨ 0xF8 ≤ c) := hs
  obtain ⟨hs4, hs3, hs2, hs1⟩ := size_table c hc
  rw [remove_invalid_xml_chars_loop_step size (fuel + 1) c r res hc hc0]
  by_cases h4 : 0xF0 ≤ c ∧ c ≤ 0xF7
  · rw [hs4.2 h4] at hlen
    rw [if_pos h4]
    rcases r with _ | ⟨b1, _ | ⟨b2, _ | ⟨b3, _ | ⟨b4, r⟩⟩⟩⟩
    · simp [rd_nil, error_bind]
    · simp [rd_nil, rd_zero, rd_succ, ok_bind, error_bind]
    · simp [rd_nil, rd_zero, rd_succ, ok_bind, error_bind]
    · simp only [rd_zero, rd_succ, ok_bind, List.drop_succ_cons, List.drop_zero,
        List.drop_nil, memcpy_r_then_end, remove_invalid_xml_chars_loop_end, ite_self]
    · simp only [List.length_cons] at hlen; omega
  by_cases h3 : 0xE0 ≤ c ∧ c ≤ 0xEF
  · rw [hs3.2 h3] at hlen
    rw [if_neg h4, if_pos h3]
    rcases r with _ | ⟨b1, _ | ⟨b2, _ | ⟨b3, r⟩⟩⟩
    · simp [rd_nil, error_bind]
    · simp [rd_nil, rd_zero, rd_succ, ok_bind, error_bind]
    · simp only [rd_zero, rd_succ, ok_bind, List.drop_succ_cons, List.drop_zero,
        List.drop_nil, memcpy_r_then_end, remove_invalid_xml_chars_loop_end, ite_self]
    · simp only [List.length_cons] at hlen; omega
  by_cases h2 : 0xC0 ≤ c ∧ c ≤ 0xDF
  · rw [hs2.2 h2] at hlen
    rw [if_neg h4, if_neg h3, if_pos h2]
    rcases r with _ | ⟨b1, _ | ⟨b2, r⟩⟩
    · simp [rd_nil, error_bind]
    · simp only [rd_zero, rd_succ, ok_bind, List.drop_succ_cons, List.drop_zero,
        List.drop_nil, memcpy_r_then_end, remove_invalid_xml_chars_loop_end, ite_self]
    · simp only [List.length_cons] at hlen; omega
  · have h1 : c < 0x80 := by omega
    rw [hs1.2 (by omega)] at hlen
    rw [if_neg h4, if_neg h3, if_neg h2, if_pos h1]
    rcases r with _ | ⟨b1, r⟩
    · simp only [memcpy_r_then_end, remove_invalid_xml_chars_loop_end, ite_self]
    · simp only [List.length_cons] at hlen; omega

end utils

namespace utils

/-- The scan of a buffer that is not empty reaches a stray byte, or steps
over the end of the buffer, or reaches a zero byte at a codepoint start. -/
theorem scan_outcomes : ∀ (n : Nat) (mem : List Nat), mem.length ≤ n → mem ≠ [] →
    StrayReached mem ∨ ScanLeavesBuffer mem ∨
      ∃ (chunks : List (List Nat)) (tail : List Nat),
        mem = chunks.flatten ++ 0 :: tail ∧ ∀ ch ∈ chunks, ScanChunk ch := by
  intro n
  induction n with
  | zero =>
    intro mem h hne
    exact absurd (List.length_eq_zero.mp (by omega)) hne
  | succ n ih =>
    intro mem h hne
    rcases mem with _ | ⟨c, t⟩
    · exact absurd rfl hne
    by_cases hc0 : c = 0
    · exact Or.inr (Or.inr ⟨[], t, by simp [hc0], by simp⟩)
    by_cases hs : isStray c
    · exact Or.inl ⟨[], c, t, by simp, hs, by simp⟩
    by_cases hlen : (c :: t).length ≤ get_next_codepoint_size c
    · exact Or.inr (Or.inl ⟨[], c, t, by simp, hc0, hs, hlen, by simp⟩)
    have hn := get_next_codepoint_size_pos c
    have hchunk : ScanChunk ((c :: t).take (get_next_codepoint_size c)) := by
      obtain ⟨k, hk⟩ : ∃ k, get_next_codepoint_size c = k + 1 :=
        ⟨_, (Nat.sub_add_cancel hn).symm⟩
      refine ⟨c, t.take k, by rw [hk, List.take_succ_cons], hc0, hs, ?_⟩
      rw [List.length_take]
      omega
    have hsplit : c :: t = (c :: t).take (get_next_codepoint_size c) ++
        (c :: t).drop (get_next_codepoint_size c) := (List.take_append_drop _ _).symm
    have hdne : (c :: t).drop (get_next_codepoint_size c) ≠ [] := by
      intro h0
      have hl := congrArg List.length h0
      rw [List.length_drop, List.length_nil] at hl
      omega
    have hdl : ((c :: t).drop (get_next_codepoint_size c)).length ≤ n := by
      rw [List.length_drop]
      simp only [List.length_cons] at h ⊢
      omega
    have hcons : ∀ chunks : List (List Nat), (∀ ch ∈ chunks, ScanChunk ch) →
        ∀ ch ∈ (c :: t).take (get_next_codepoint_size c) :: chunks, ScanChunk ch := by
      intro chunks hch ch hm
      rcases List.mem_cons.mp hm with rfl | hm
      · exact hchunk
      · exact hch ch hm
    rcases ih _ hdl hdne with ⟨chunks, b, tail, hmem, hb, hch⟩ |
      ⟨chunks, c1, r1, hmem, h1, h2, h3, hch⟩ | ⟨chunks, tail, hmem, hch⟩
    · refine Or.inl ⟨_ :: chunks, b, tail, ?_, hb, hcons chunks hch⟩
      rw [List.flatten_cons, List.append_assoc, ← hmem]
      exact hsplit
    · refine Or.inr (Or.inl ⟨_ :: chunks, c1, r1, ?_, h1, h2, h3, hcons chunks hch⟩)
      rw [List.flatten_cons, List.append_assoc, ← hmem]
      exact hsplit
    · refine Or.inr (Or.inr ⟨_ :: chunks, tail, ?_, hcons chunks hch⟩)
      rw [List.flatten_cons, List.append_assoc, ← hmem]
      exact hsplit

theorem scanChunks_length_le (chunks : List (List Nat)) (hch : ∀ ch ∈ chunks, ScanChunk ch) :
    chunks.length ≤ chunks.flatten.length :=
  length_le_flatten_length chunks (fun ch hc => by
    obtain ⟨c, r, rfl, _⟩ := hch ch hc
    simp)

theorem bytes_with_terminator (original : List Nat) (hbytes : ∀ b ∈ original, b < 256) :
    ∀ b ∈ original ++ [0], b < 256 := by
  intro b hb
  rcases List.mem_append.mp hb with hb | hb
  · exact hbytes b hb
  · simp at hb; omega

/-- When the scan steps over the end of the buffer, a byte is read or
written outside the buffers. -/
theorem remove_invalid_xml_chars_of_leaves (original : List Nat)
    (hbytes : ∀ b ∈ original, b < 256) (h : ScanLeavesBuffer (original ++ [0])) :
    remove_invalid_xml_chars original = .error .out_of_bounds := by
  obtain ⟨chunks, c, r, hmem, hc0, hs, hlen, hch⟩ := h
  have hb0 := bytes_with_terminator original hbytes
  rw [hmem] at hb0
  have hr : r ≠ [] := by
    rintro rfl
    have hl : (original ++ [0]).getLast? = some 0 := by simp
    rw [hmem] at hl
    simp at hl
    exact hc0 hl
  have hrl : 0 < r.length := List.length_pos.mpr hr
  have h1 := scanChunks_length_le chunks hch
  have h2 : (original ++ [0]).length = (chunks.flatten ++ c :: r).length := by rw [hmem]
  simp only [List.length_append, List.length_cons, List.length_nil] at h2
  obtain ⟨f, hf⟩ : ∃ f, original.length + 1 = (f + 2) + chunks.length :=
    ⟨original.length + 1 - chunks.length - 2, by omega⟩
  rw [remove_invalid_xml_chars, hmem, hf,
    remove_invalid_xml_chars_loop_chunks original.length chunks (f + 2) (c :: r) [] hch
      (fun b hb => hb0 b (List.mem_append_left _ hb))
      (by simp only [List.length_nil]; omega),
    remove_invalid_xml_chars_loop_leaves original.length f c r _
      (hb0 c (by simp)) hc0 hs hlen]

/-- When the scan reaches a zero byte at a codepoint start, the kept chunks
are returned. -/
theorem remove_invalid_xml_chars_of_terminator (original : List Nat)
    (hbytes : ∀ b ∈ original, b < 256) (chunks : List (List Nat)) (tail : List Nat)
    (hmem : original ++ [0] = chunks.flatten ++ 0 :: tail)
    (hch : ∀ ch ∈ chunks, ScanChunk ch) :
    remove_invalid_xml_chars original = .ok ((chunks.filter keptByCode).flatten) := by
  have hb0 := bytes_with_terminator original hbytes
  rw [hmem] at hb0
  have h1 := scanChunks_length_le chunks hch
  have h2 : (original ++ [0]).length = (chunks.flatten ++ 0 :: tail).length := by rw [hmem]
  simp only [List.length_append, List.length_cons, List.length_nil] at h2
  obtain ⟨f, hf⟩ : ∃ f, original.length + 1 = (f + 1) + chunks.length :=
    ⟨original.length + 1 - chunks.length - 1, by omega⟩
  rw [remove_invalid_xml_chars, hmem, hf,
    remove_invalid_xml_chars_loop_chunks original.length chunks (f + 1) (0 :: tail) [] hch
      (fun b hb => hb0 b (List.mem_append_left _ hb))
      (by simp only [List.length_nil]; omega),
    remove_invalid_xml_chars_loop_nul, List.nil_append]

/-- The run reads or writes outside the buffers exactly when the scan steps
over the end of the buffer. -/
theorem remove_invalid_xml_chars_leaves_iff (original : List Nat)
    (hbytes : ∀ b ∈ original, b < 256) :
    remove_invalid_xml_chars original = .error .out_of_bounds ↔
      ScanLeavesBuffer (original ++ [0]) := by
  constructor
  · intro h
    rcases scan_outcomes _ (original ++ [0]) (Nat.le_refl _) (by simp) with hs | hl |
      ⟨chunks, tail, hmem, hch⟩
    · rw [(remove_invalid_xml_chars_throws_iff_stray original hbytes).2 hs] at h
      cases h
    · exact hl
    · rw [remove_invalid_xml_chars_of_terminator original hbytes chunks tail hmem hch] at h
      cases h
  · exact remove_invalid_xml_chars_of_leaves original hbytes

/-- The run returns a string exactly when the scan neither reaches a stray
byte nor steps over the end of the buffer. -/
theorem remove_invalid_xml_chars_returns_iff (original : List Nat)
    (hbytes : ∀ b ∈ original, b < 256) :
    (∃ out, remove_invalid_xml_chars original = .ok out) ↔
      ¬ StrayReached (original ++ [0]) ∧ ¬ ScanLeavesBuffer (original ++ [0]) := by
  constructor
  · rintro ⟨out, hout⟩
    refine ⟨fun hs => ?_, fun hl => ?_⟩
    · rw [(remove_invalid_xml_chars_throws_iff_stray original hbytes).2 hs] at hout
      cases hout
    · rw [remove_invalid_xml_chars_of_leaves original hbytes hl] at hout
      cases hout
  · rintro ⟨hns, hnl⟩
    rcases scan_outcomes _ (original ++ [0]) (Nat.le_refl _) (by simp) with hs | hl |
      ⟨chunks, tail, hmem, hch⟩
    · exact absurd hs hns
    · exact absurd hl hnl
    · exact ⟨_, remove_invalid_xml_chars_of_terminator original hbytes chunks tail hmem hch⟩

end utils

namespace utils

/-- C12, counterexample: were a stray byte reached by the scan the only way
to fail, every other string would get a result. On the string ED A0 the scan
reaches no stray byte before the terminator, and yet no string is returned:
the lead byte ED stands two bytes before the end of the buffer, its step of
3 bytes takes the scan over the terminator, and the next lead byte is read
past the end of the buffer. -/
theorem remove_invalid_xml_chars_steps_over_terminator :
    ¬ StrayReached ([0xED, 0xA0] ++ [0]) ∧
    ScanLeavesBuffer ([0xED, 0xA0] ++ [0]) ∧
    remove_invalid_xml_chars [0xED, 0xA0] = .error .out_of_bounds ∧
    ∀ out, remove_invalid_xml_chars [0xED, 0xA0] ≠ .ok out := by
  have hrun : remove_invalid_xml_chars [0xED, 0xA0] = .error .out_of_bounds := by decide
  refine ⟨fun hs => ?_, ?_, hrun, fun out hout => ?_⟩
  · have h := (remove_invalid_xml_chars_throws_iff_stray [0xED, 0xA0] (by decide)).2 hs
    rw [hrun] at h
    cases h
  · exact ⟨[], 0xED, [0xA0, 0], rfl, by decide, by unfold isStray; omega, by decide, by simp⟩
  · rw [hrun] at hout
    cases hout

/-- C12, amended: on every string whose scan does not step over the
terminator, `remove_invalid_xml_chars` throws exactly when its scan, started
at the first byte and advanced by 4, 3, 2 or 1 bytes according to the class
of the lead byte, reaches before the terminator a byte of 0x80..0xBF or
0xF8..0xFF at a codepoint start, and it returns a string exactly when the
scan reaches no such byte. A stray byte that the scan reaches is reached
before any step over the terminator and makes the function throw, on every
string; hence it throws on every string whose first byte is such a byte. The
scan steps over the terminator exactly on the strings on which a byte is
read or written outside the buffers, and on none that `is_valid_utf8`
accepts: on these the function returns a string. When it throws it returns
no string. -/
theorem remove_invalid_xml_chars_throws_iff_in_buffer (original : List Nat)
    (hbytes : ∀ b ∈ original, b < 256) :
    (¬ ScanLeavesBuffer (original ++ [0]) →
      (remove_invalid_xml_chars original = .error .runtime_error ↔
        StrayReached (original ++ [0])) ∧
      ((∃ out, remove_invalid_xml_chars original = .ok out) ↔
        ¬ StrayReached (original ++ [0]))) ∧
    (StrayReached (original ++ [0]) →
      ¬ ScanLeavesBuffer (original ++ [0]) ∧
        remove_invalid_xml_chars original = .error .runtime_error) ∧
    (∀ (c : Nat) (t : List Nat), original = c :: t → isStray c →
      remove_invalid_xml_chars original = .error .runtime_error) ∧
    (ScanLeavesBuffer (original ++ [0]) ↔
      remove_invalid_xml_chars original = .error .out_of_bounds) ∧
    (is_valid_utf8 (some (original ++ [0])) = .ok true →
      ¬ ScanLeavesBuffer (original ++ [0]) ∧ ¬ StrayReached (original ++ [0]) ∧
        ∃ out, remove_invalid_xml_chars original = .ok out) ∧
    (remove_invalid_xml_chars original = .error .runtime_error →
      ∀ out, remove_invalid_xml_chars original ≠ .ok out) := by
  have hiff := remove_invalid_xml_chars_throws_iff_stray original hbytes
  have hleaves := remove_invalid_xml_chars_leaves_iff original hbytes
  have hret := remove_invalid_xml_chars_returns_iff original hbytes
  have hthrow : StrayReached (original ++ [0]) →
      ¬ ScanLeavesBuffer (original ++ [0]) ∧
        remove_invalid_xml_chars original = .error .runtime_error := by
    intro hs
    have hrun := hiff.2 hs
    refine ⟨fun hl => ?_, hrun⟩
    rw [hleaves.2 hl] at hrun
    cases hrun
  refine ⟨fun hnl => ⟨hiff, ?_⟩, hthrow, ?_, hleaves.symm, ?_, ?_⟩
  · rw [hret]
    exact ⟨fun h => h.1, fun h => ⟨h, hnl⟩⟩
  · intro c t hct hc
    exact (hthrow ⟨[], c, t ++ [0], by simp [hct], hc, by simp⟩).2
  · intro hvalid
    obtain ⟨us, hus, hflat⟩ := units_of_valid original hbytes hvalid
    have hok : ∃ out, remove_invalid_xml_chars original = .ok out :=
      ⟨_, remove_invalid_xml_chars_of_units original us hbytes hus hflat⟩
    exact ⟨(hret.1 hok).2, (hret.1 hok).1, hok⟩
  · intro h out hout
    rw [h] at hout
    cases hout

/-- Witness of C12 on the string 61 80: the scan stays in the buffer and
reaches the continuation byte 80 at a codepoint start, after the chunk 61,
and the function throws. -/
theorem remove_invalid_xml_chars_throws_iff_in_buffer_witness :
    ¬ ScanLeavesBuffer ([0x61, 0x80] ++ [0]) ∧ StrayReached ([0x61, 0x80] ++ [0]) ∧
    remove_invalid_xml_chars [0x61, 0x80] = .error .runtime_error :=
  have hnl : ¬ ScanLeavesBuffer ([0x61, 0x80] ++ [0]) := fun hl =>
    absurd ((remove_invalid_xml_chars_leaves_iff [0x61, 0x80] (by decide)).2 hl) (by decide)
  have hs : StrayReached ([0x61, 0x80] ++ [0]) :=
    ⟨[[0x61]], 0x80, [0], rfl, Or.inl ⟨by decide, by decide⟩, by
      intro ch hch
      rw [List.mem_singleton] at hch
      subst hch
      exact ⟨0x61, [], rfl, by decide, by unfold isStray; omega, by decide⟩⟩
  ⟨hnl, hs,
    ((remove_invalid_xml_chars_throws_iff_in_buffer [0x61, 0x80] (by decide)).1 hnl).1.2 hs⟩

end utils


namespace utils

/-- The loop over the units `us1` at the head of the buffer: it reaches the
state in which the scan is at the byte after them and the result holds the
kept ones. -/
theorem remove_invalid_xml_chars_loop_units_prefix (size : Nat) :
    ∀ (us1 : List (List Nat)) (fuel : Nat) (tail res : List Nat),
    (∀ u ∈ us1, isUtf8Unit u = true) → 0 ∉ us1.flatten → (∀ b ∈ us1.flatten, b < 256) →
    res.length + us1.flatten.length ≤ size →
    remove_invalid_xml_chars_loop size (fuel + us1.length) (us1.flatten ++ tail) res =
      remove_invalid_xml_chars_loop size fuel tail (res ++ (us1.filter keptByCode).flatten) := by
  intro us1
  induction us1 with
  | nil => intro fuel tail res _ _ _ _; simp
  | cons u us ih =>
    intro fuel tail res hus h0 hb hsz
    simp only [List.flatten_cons, List.mem_append, not_or, List.length_append,
      List.length_cons] at h0 hb hsz ⊢
    have hus1 : ∀ v ∈ us, isUtf8Unit v = true := fun v hv => hus v (List.mem_cons_of_mem _ hv)
    have hb1 : ∀ b ∈ us.flatten, b < 256 := fun b h => hb b (Or.inr h)
    rw [← Nat.add_assoc, List.append_assoc,
      remove_invalid_xml_chars_loop_unit size (fuel + us.length) u _ res (hus u (by simp)) h0.1
        (fun b h => hb b (Or.inl h))]
    by_cases hk : keptByCode u = true
    · rw [if_pos hk, memcpy_r_ok size res u (by omega), ok_bind,
        ih fuel tail (res ++ u) hus1 h0.2 hb1 (by rw [List.length_append]; omega)]
      simp [List.filter_cons, hk]
    · rw [if_neg hk, ih fuel tail res hus1 h0.2 hb1 (by omega)]
      simp [List.filter_cons, hk]

theorem cstr_initial_segment (l : List Nat) : cstr l <+: l := by
  induction l with
  | nil => simp [cstr]
  | cons a t ih =>
    by_cases ha : a = 0
    · simp [cstr, ha]
    · simp only [cstr, ha, if_false]
      exact (List.prefix_cons_inj a).mpr ih

theorem filter_flatten_sublist (p : List Nat → Bool) (us : List (List Nat)) :
    (us.filter p).flatten.Sublist us.flatten := by
  induction us with
  | nil => simp
  | cons u us ih =>
    by_cases hp : p u = true
    · simp only [List.filter_cons, hp, if_true, List.flatten_cons]
      exact List.Sublist.append (List.Sublist.refl u) ih
    · simp only [List.filter_cons, hp, List.flatten_cons]
      exact List.Sublist.trans ih (List.sublist_append_right u us.flatten)

/-- C20: on a string whose zero-terminated contents `is_valid_utf8` accepts,
`remove_invalid_xml_chars` returns a string, hence makes no read outside the
scanned buffer (which ends at the terminator) and no write outside the result
buffer of `original.size()` bytes. At every point of the scan, after the
units `us1` and before the units `us2`, the bytes written are the kept units
of `us1`: at most as many as the bytes consumed, which are at most
`original.size()`. The result is a subsequence of the input and no longer
than it. -/
theorem remove_invalid_xml_chars_in_bounds (original : List Nat)
    (hbytes : ∀ b ∈ original, b < 256)
    (hvalid : is_valid_utf8 (some (original ++ [0])) = .ok true) :
    ∃ (out : List Nat) (us : List (List Nat)) (tail : List Nat),
      remove_invalid_xml_chars original = .ok out ∧
      out.Sublist original ∧ out.length ≤ original.length ∧
      (∀ u ∈ us, isUtf8Unit u = true) ∧ original ++ [0] = us.flatten ++ 0 :: tail ∧
      ∀ us1 us2 : List (List Nat), us = us1 ++ us2 →
        remove_invalid_xml_chars_loop original.length (original.length + 1)
            (original ++ [0]) [] =
          remove_invalid_xml_chars_loop original.length (original.length + 1 - us1.length)
            (us2.flatten ++ 0 :: tail) ((us1.filter keptByCode).flatten) ∧
        ((us1.filter keptByCode).flatten).length ≤ us1.flatten.length ∧
        us1.flatten.length ≤ original.length := by
  obtain ⟨us, hus, hflat⟩ := units_of_valid original hbytes hvalid
  obtain ⟨tail, htail⟩ := mem_eq_cstr_append (original ++ [0]) (by simp)
  rw [cstr_append_singleton_nul, ← hflat] at htail
  have hsub : ((us.filter keptByCode).flatten).Sublist original :=
    (filter_flatten_sublist keptByCode us).trans (hflat ▸ (cstr_initial_segment original).sublist)
  have hlen : us.flatten.length ≤ original.length := by
    rw [hflat]; exact cstr_length_le original
  refine ⟨(us.filter keptByCode).flatten, us, tail,
    remove_invalid_xml_chars_of_units original us hbytes hus hflat, hsub, hsub.length_le, hus,
    htail, ?_⟩
  intro us1 us2 hsplit
  subst hsplit
  have hus1 : ∀ u ∈ us1, isUtf8Unit u = true := fun u hu => hus u (List.mem_append_left _ hu)
  have hfl : (us1 ++ us2).flatten = us1.flatten ++ us2.flatten := by simp
  have hmem1 : ∀ b ∈ us1.flatten, b ∈ cstr original := fun b hb => by
    rw [← hflat, hfl]; exact List.mem_append_left _ hb
  have hl1 : us1.flatten.length ≤ original.length := by
    rw [hfl, List.length_append] at hlen; omega
  have hul := units_length_le us1 hus1
  refine ⟨?_, (filter_flatten_sublist keptByCode us1).length_le, hl1⟩
  have h := remove_invalid_xml_chars_loop_units_prefix original.length us1
    (original.length + 1 - us1.length) (us2.flatten ++ 0 :: tail) [] hus1
    (fun h => nul_not_mem_cstr original (hmem1 0 h))
    (fun b hb => hbytes b (cstr_subset original b (hmem1 b hb)).1) (by simpa using hl1)
  rw [Nat.sub_add_cancel (by omega), ← List.append_assoc, ← hfl, ← htail] at h
  simpa using h

/-- Witness of C20 on the string 61 01 C3 A9. -/
theorem remove_invalid_xml_chars_in_bounds_witness :
    is_valid_utf8 (some ([0x61, 0x01, 0xC3, 0xA9] ++ [0])) = .ok true ∧
    ∃ (out : List Nat) (us : List (List Nat)) (tail : List Nat),
      remove_invalid_xml_chars [0x61, 0x01, 0xC3, 0xA9] = .ok out ∧
      out.Sublist [0x61, 0x01, 0xC3, 0xA9] ∧ out.length ≤ [0x61, 0x01, 0xC3, 0xA9].length ∧
      (∀ u ∈ us, isUtf8Unit u = true) ∧
      [0x61, 0x01, 0xC3, 0xA9] ++ [0] = us.flatten ++ 0 :: tail ∧
      ∀ us1 us2 : List (List Nat), us = us1 ++ us2 →
        remove_invalid_xml_chars_loop [0x61, 0x01, 0xC3, 0xA9].length
            ([0x61, 0x01, 0xC3, 0xA9].length + 1) ([0x61, 0x01, 0xC3, 0xA9] ++ [0]) [] =
          remove_invalid_xml_chars_loop [0x61, 0x01, 0xC3, 0xA9].length
            ([0x61, 0x01, 0xC3, 0xA9].length + 1 - us1.length)
            (us2.flatten ++ 0 :: tail) ((us1.filter keptByCode).flatten) ∧
        ((us1.filter keptByCode).flatten).length ≤ us1.flatten.length ∧
        us1.flatten.length ≤ [0x61, 0x01, 0xC3, 0xA9].length :=
  ⟨by decide, remove_invalid_xml_chars_in_bounds [0x61, 0x01, 0xC3, 0xA9] (by decide)
    (by decide)⟩

end utils

namespace utils

set_option maxRecDepth 100000 in
theorem and_31_of_lead2 : ∀ b, b < 0xE0 → 0xC0 ≤ b → b &&& 0x1F = b - 0xC0 := by decide

set_option maxRecDepth 100000 in
theorem and_63_of_cont : ∀ b, b < 0xC0 → 0x80 ≤ b → b &&& 0x3F = b - 0x80 := by decide

theorem decode2_eq (b0 b1 : Nat) (h0 : 0xC0 ≤ b0 ∧ b0 ≤ 0xDF) (h1 : isCont b1 = true) :
    decode2 b0 b1 = (b0 - 0xC0) * 64 + (b1 - 0x80) := by
  simp only [isCont, Bool.and_eq_true, decide_eq_true_eq] at h1
  have e0 := and_31_of_lead2 b0 (by omega) h0.1
  have e1 := and_63_of_cont b1 (by omega) h1.1
  have hlt : b1 - 0x80 < 2 ^ 6 := by
    have : (2 : Nat) ^ 6 = 64 := by decide
    omega
  have hor := Nat.mul_add_lt_is_or hlt (b0 - 0xC0)
  rw [decode2, e0, e1, Nat.shiftLeft_eq, Nat.mul_comm, ← hor]

/-- C13, as it is stated, fails: the 2-byte sequence C0 80 is accepted by
`is_valid_utf8` and copied by `remove_invalid_xml_chars`, and the value
decoded from it is 0, which is none of 0x09, 0x0A, 0x0D and is below 0x20. -/
theorem remove_invalid_xml_chars_keeps_overlong_control :
    is_valid_utf8 (some ([0xC0, 0x80] ++ [0])) = .ok true ∧
    remove_invalid_xml_chars [0xC0, 0x80] = .ok [0xC0, 0x80] ∧
    decode2 0xC0 0x80 = 0 ∧ ¬ xmlLegal (decode2 0xC0 0x80) := by
  refine ⟨by decide, by decide, by decide, ?_⟩
  have : decode2 0xC0 0x80 = 0 := by decide
  rw [this]
  simp [xmlLegal]

/-- C13, amended: on an input accepted by `is_valid_utf8`, with codepoint
units `us`, `remove_invalid_xml_chars` copies every 2-byte unit to its
output. The value decoded from a 2-byte unit `b0 b1` is one of 0x09, 0x0A,
0x0D or lies in 0x20..0xD7FF, except when `b0` is 0xC0 and `b1` is a byte
of 0x80..0x9F other than 0x89, 0x8A, 0x8D; so it is whenever the lead byte
is 0xC1..0xDF, and for the lead bytes 0xC2..0xDF the value lies in
0x80..0x7FF. -/
theorem remove_invalid_xml_chars_two_byte (original : List Nat) (us : List (List Nat))
    (hbytes : ∀ b ∈ original, b < 256)
    (hvalid : is_valid_utf8 (some (original ++ [0])) = .ok true)
    (hus : ∀ u ∈ us, isUtf8Unit u = true) (hflat : us.flatten = cstr original)
    (b0 b1 : Nat) (hu : [b0, b1] ∈ us) :
    remove_invalid_xml_chars original = .ok ((us.filter keptByCode).flatten) ∧
    [b0, b1] ∈ us.filter keptByCode ∧
    (xmlLegal (decode2 b0 b1) ↔
      ¬ (b0 = 0xC0 ∧ b1 ≤ 0x9F ∧ b1 ≠ 0x89 ∧ b1 ≠ 0x8A ∧ b1 ≠ 0x8D)) ∧
    (0xC1 ≤ b0 → xmlLegal (decode2 b0 b1)) ∧
    (0xC2 ≤ b0 → 0x80 ≤ decode2 b0 b1 ∧ decode2 b0 b1 ≤ 0x7FF) := by
  have _ := hvalid
  have hunit := hus _ hu
  simp only [isUtf8Unit, Bool.and_eq_true, decide_eq_true_eq] at hunit
  obtain ⟨h0, h1⟩ := hunit
  have hd := decode2_eq b0 b1 h0 h1
  simp only [isCont, Bool.and_eq_true, decide_eq_true_eq] at h1
  refine ⟨remove_invalid_xml_chars_of_units original us hbytes hus hflat,
    List.mem_filter.mpr ⟨hu, rfl⟩, ?_, ?_, ?_⟩
  · rw [hd]; unfold xmlLegal; omega
  · intro h; rw [hd]; unfold xmlLegal; omega
  · intro h; rw [hd]; omega

/-- Witness of the amended C13 on the string C3 A9. -/
theorem remove_invalid_xml_chars_two_byte_witness :
    is_valid_utf8 (some ([0xC3, 0xA9] ++ [0])) = .ok true ∧
    remove_invalid_xml_chars [0xC3, 0xA9] = .ok (([[0xC3, 0xA9]].filter keptByCode).flatten) ∧
    xmlLegal (decode2 0xC3 0xA9) :=
  ⟨by decide,
    (remove_invalid_xml_chars_two_byte [0xC3, 0xA9] [[0xC3, 0xA9]] (by decide) (by decide)
      (by decide) (by decide) 0xC3 0xA9 (by decide)).1,
    (remove_invalid_xml_chars_two_byte [0xC3, 0xA9] [[0xC3, 0xA9]] (by decide) (by decide)
      (by decide) (by decide) 0xC3 0xA9 (by decide)).2.2.2.1 (by decide)⟩

end utils

namespace xep0106

theorem lookup_getD_eq_token_of : ∀ c ∈ reserved_chars,
    (encode_map.lookup c).getD [c] = token_of c := by
  decide

theorem token_of_reserved_free : ∀ c ∈ reserved_chars, ∀ x ∈ token_of c, x ∉ reserved_chars := by
  decide

theorem escape_encode_map_eq_substitute (s : List Nat) : escape encode_map s = substitute s := by
  induction s with
  | nil => rfl
  | cons c s ih =>
    rw [escape_cons, ih]
    by_cases hc : c ∈ reserved_chars
    · simp [substitute, List.flatMap_cons, hc, lookup_getD_eq_token_of c hc]
    · simp [substitute, List.flatMap_cons, hc, encode_map_lookup_plain c hc]

theorem substitute_cons (c : Nat) (s : List Nat) :
    substitute (c :: s) = (if c ∈ reserved_chars then token_of c else [c]) ++ substitute s := by
  simp [substitute, List.flatMap_cons]

/-- C14: for every string, `encode` returns, and the string it leaves is the
substitution of the original character by character, each of the nine
reserved characters replaced by its token (a backslash and the two lowercase
hexadecimal digits of its code) and every other character unchanged; the
result holds none of the nine reserved characters, and it is longer than the
original by two characters for each reserved character of the original. -/
theorem encode_eq_substitute (s : List Nat) :
    encode s = .ok (substitute s) ∧
    (∀ x ∈ substitute s, x ∉ reserved_chars) ∧
    (substitute s).length = s.length + 2 * (s.filter (fun c => decide (c ∈ reserved_chars))).length := by
  refine ⟨by rw [encode_eq_escape, escape_encode_map_eq_substitute], ?_, ?_⟩
  · induction s with
    | nil => simp [substitute]
    | cons c s ih =>
      intro x hx
      rw [substitute_cons] at hx
      rcases List.mem_append.mp hx with hx | hx
      · by_cases hc : c ∈ reserved_chars
        · rw [if_pos hc] at hx
          exact token_of_reserved_free c hc x hx
        · rw [if_neg hc] at hx
          simp only [List.mem_singleton] at hx
          rw [hx]; exact hc
      · exact ih x hx
  · induction s with
    | nil => simp [substitute]
    | cons c s ih =>
      rw [substitute_cons, List.length_append, ih]
      by_cases hc : c ∈ reserved_chars
      · simp only [if_pos hc, token_of, List.length_cons, List.length_nil, List.filter_cons,
          hc, decide_True, if_true]
        omega
      · simp only [if_neg hc, List.length_cons, List.length_nil, List.filter_cons, hc,
          decide_False]
        simp
        omega

end xep0106

namespace xep0106

theorem starts_with_split (pat l : List Nat) (h : starts_with pat l = true) :
    l = pat ++ l.drop pat.length := by
  have h1 : l.take pat.length = pat := by simpa [starts_with] using h
  conv => lhs; rw [← List.take_append_drop pat.length l]
  rw [h1]

/-- Where `find` gives a position, the pattern stands at that position. -/
theorem find_some_split (pat : List Nat) : ∀ (t : List Nat) (pos : Nat),
    find t pat = some pos → ∃ pre post, t = pre ++ (pat ++ post) ∧ pre.length = pos := by
  intro t
  induction t with
  | nil =>
    intro pos h
    by_cases hp : pat = []
    · simp [find, hp] at h
      exact ⟨[], [], by simp [hp], by simp [h]⟩
    · simp [find, hp] at h
  | cons c t ih =>
    intro pos h
    by_cases hs : starts_with pat (c :: t) = true
    · rw [find_of_starts_with _ _ hs] at h
      exact ⟨[], (c :: t).drop pat.length, by simpa using starts_with_split _ _ hs,
        by simpa using h⟩
    · rw [find_cons_of_not_starts_with _ _ _ (by simpa using hs)] at h
      cases hf : find t pat with
      | none => simp [hf] at h
      | some p =>
        simp only [hf, Option.map_some', Option.some.injEq] at h
        obtain ⟨pre, post, ht, hl⟩ := ih p hf
        exact ⟨c :: pre, post, by simp [ht], by simp [hl, h]⟩

theorem escape_append (T : List (Nat × List Nat)) (a b : List Nat) :
    escape T (a ++ b) = escape T a ++ escape T b := by
  simp [escape, List.flatMap_append]

/-- The loop of one entry returns, on any string and with enough fuel; the
string it leaves escapes to the same string as the one it was given, when
the token of the entry escapes to itself and its key to the token. -/
theorem decode_entry_total (E : List (Nat × List Nat)) (k : Nat) (tok : List Nat)
    (hlen : tok.length = 3) (htok : escape E tok = tok) (hkey : escape E [k] = tok) :
    ∀ (fuel : Nat) (t : List Nat), t.length < fuel →
      ∃ t1, decode_entry k tok fuel t = .ok t1 ∧ escape E t1 = escape E t ∧
        t1.length ≤ t.length := by
  intro fuel
  induction fuel with
  | zero => intro t h; omega
  | succ fuel ih =>
    intro t hf
    cases hfind : find t tok with
    | none => exact ⟨t, decode_entry_none _ _ _ _ hfind, rfl, Nat.le_refl _⟩
    | some pos =>
      obtain ⟨pre, post, ht, hpos⟩ := find_some_split tok t pos hfind
      have hrep : replace t pos tok.length (List.replicate 1 k) = pre ++ [k] ++ post := by
        rw [ht, ← hpos, replace_at_append]
        rfl
      have hlt : (pre ++ [k] ++ post).length < fuel := by
        have : t.length = pre.length + (3 + post.length) := by
          rw [ht, List.length_append, List.length_append, hlen]
        simp only [List.length_append, List.length_cons, List.length_nil]
        omega
      obtain ⟨t1, h1, h2, h3⟩ := ih (pre ++ [k] ++ post) hlt
      refine ⟨t1, ?_, ?_, ?_⟩
      · rw [decode_entry_some _ _ _ _ pos hfind, hrep, h1]
      · rw [h2, ht, escape_append, escape_append, escape_append, escape_append, hkey, htok,
          List.append_assoc]
      · have : t.length = pre.length + (3 + post.length) := by
          rw [ht, List.length_append, List.length_append, hlen]
        simp only [List.length_append, List.length_cons, List.length_nil] at h3
        omega

theorem decode_entries_total (E : List (Nat × List Nat)) :
    ∀ (T : List (Nat × List Nat)),
      (∀ e ∈ T, e.2.length = 3 ∧ escape E e.2 = e.2 ∧ escape E [e.1] = e.2) →
      ∀ t : List Nat, ∃ t1, decode_entries T t = .ok t1 ∧ escape E t1 = escape E t := by
  intro T
  induction T with
  | nil => intro _ t; exact ⟨t, rfl, rfl⟩
  | cons e T ih =>
    intro hT t
    obtain ⟨h1, h2, h3⟩ := hT e (by simp)
    obtain ⟨t1, ht1, he1, _⟩ := decode_entry_total E e.1 e.2 h1 h2 h3 (t.length + 1) t (by omega)
    obtain ⟨t2, ht2, he2⟩ := ih (fun x hx => hT x (List.mem_cons_of_mem _ hx)) t1
    refine ⟨t2, ?_, by rw [he2, he1]⟩
    rw [decode_entries, ht1, utils.ok_bind, ht2]

theorem encode_map_entries_escape : ∀ e ∈ encode_map,
    e.2.length = 3 ∧ escape encode_map e.2 = e.2 ∧ escape encode_map [e.1] = e.2 := by
  decide

theorem escape_of_reserved_free (s : List Nat) (hs : ∀ x ∈ s, x ∉ reserved_chars) :
    escape encode_map s = s := by
  induction s with
  | nil => rfl
  | cons c s ih =>
    rw [escape_cons, encode_map_lookup_plain c (hs c (by simp)),
      ih (fun x hx => hs x (List.mem_cons_of_mem _ hx))]
    rfl

/-- C15: for every string `s` that holds none of the nine reserved
characters, `decode` returns a string on which `encode` returns `s`. -/
theorem encode_decode_roundtrip (s : List Nat) (hs : ∀ x ∈ s, x ∉ reserved_chars) :
    ∃ t, decode s = .ok t ∧ encode t = .ok s := by
  obtain ⟨t, ht, he⟩ := decode_entries_total encode_map encode_map encode_map_entries_escape s
  refine ⟨t, ht, ?_⟩
  rw [encode_eq_escape, he, escape_of_reserved_free s hs]

/-- Witness of C15 on the string of the characters `u`, backslash, `4`, `0`,
`h`. -/
theorem encode_decode_roundtrip_witness :
    ∃ t, decode [0x75, 0x5C, 0x34, 0x30, 0x68] = .ok t ∧
      encode t = .ok [0x75, 0x5C, 0x34, 0x30, 0x68] :=
  encode_decode_roundtrip [0x75, 0x5C, 0x34, 0x30, 0x68] (by decide)

end xep0106

namespace AdhocSession

theorem get_next_step_ok {Step : Type} (s : AdhocSession Step)
    (h : s.current_step < s.command.callbacks.length)
    (hk : s.command.callbacks.length < 2 ^ 64) :
    get_next_step s = .ok (s.command.callbacks.get ⟨s.current_step, h⟩,
      { s with current_step := s.current_step + 1 }) := by
  have hmod : (s.current_step + 1) % 2 ^ 64 = s.current_step + 1 :=
    Nat.mod_eq_of_lt (by omega)
  simp only [get_next_step, h, dif_pos, hmod]

theorem after_calls_new {Step : Type} (command : AdhocCommand Step) (owner_jid to_jid : List Nat)
    (terminated : Bool) (hk : command.callbacks.length < 2 ^ 64) :
    ∀ (n c : Nat), c + n ≤ command.callbacks.length →
      after_calls n ⟨command, owner_jid, to_jid, c, terminated⟩ =
        .ok ⟨command, owner_jid, to_jid, c + n, terminated⟩ := by
  intro n
  induction n with
  | zero => intro c _; rfl
  | succ n ih =>
    intro c hc
    rw [after_calls, get_next_step_ok _ (by simp only; omega) hk, utils.ok_bind]
    simp only
    rw [ih (c + 1) (by omega)]
    congr 2
    omega

theorem remaining_steps_eq {Step : Type} (s : AdhocSession Step)
    (h : s.current_step ≤ s.command.callbacks.length)
    (hk : s.command.callbacks.length < 2 ^ 64) :
    remaining_steps s = s.command.callbacks.length - s.current_step := by
  have h1 : s.command.callbacks.length + 2 ^ 64 - s.current_step =
      (s.command.callbacks.length - s.current_step) + 2 ^ 64 := by omega
  rw [remaining_steps, h1, Nat.add_mod_right, Nat.mod_eq_of_lt (by omega)]

end AdhocSession

namespace AdhocSession

/-- C17: a session created over a command with `k` steps starts not
terminated, with `remaining_steps() = k`. For every `i < k`, after `i` calls
of `get_next_step` the next call, the `(i+1)`-th, returns the `(i+1)`-th step
of the command and leaves `remaining_steps() = k - (i+1)`. A call of
`get_next_step` when `remaining_steps() = 0` fails, on the `assert`, instead
of returning a step; a call that returns keeps the step counter within the
steps and decreases `remaining_steps()` by one, so `remaining_steps()` never
underflows. `terminate()` makes `is_terminated()` true, is idempotent, and
changes neither the step counter nor the remaining steps. -/
theorem adhoc_session_steps {Step : Type} (command : AdhocCommand Step)
    (owner_jid to_jid : List Nat) (hk : command.callbacks.length < 2 ^ 64) :
    is_terminated (new command owner_jid to_jid) = false ∧
    remaining_steps (new command owner_jid to_jid) = command.callbacks.length ∧
    (∀ (i : Nat) (hi : i < command.callbacks.length), ∃ s s1,
      after_calls i (new command owner_jid to_jid) = .ok s ∧
      get_next_step s = .ok (command.callbacks.get ⟨i, hi⟩, s1) ∧
      remaining_steps s1 = command.callbacks.length - (i + 1)) ∧
    (∀ s : AdhocSession Step, s.current_step < 2 ^ 64 → s.command.callbacks.length < 2 ^ 64 →
      remaining_steps s = 0 → get_next_step s = .error .assertion_failed) ∧
    (∀ (s s1 : AdhocSession Step) (step : Step),
      s.current_step ≤ s.command.callbacks.length → s.command.callbacks.length < 2 ^ 64 →
      get_next_step s = .ok (step, s1) →
      s1.current_step ≤ s1.command.callbacks.length ∧
        remaining_steps s1 + 1 = remaining_steps s) ∧
    (∀ s : AdhocSession Step, is_terminated (terminate s) = true ∧
      terminate (terminate s) = terminate s ∧
      (terminate s).current_step = s.current_step ∧
      remaining_steps (terminate s) = remaining_steps s) := by
  refine ⟨rfl, ?_, ?_, ?_, ?_, ?_⟩
  · exact remaining_steps_eq (new command owner_jid to_jid) (Nat.zero_le _) hk
  · intro i hi
    have h1 := after_calls_new command owner_jid to_jid false hk i 0 (by omega)
    rw [Nat.zero_add] at h1
    refine ⟨_, _, h1, get_next_step_ok _ hi hk, ?_⟩
    rw [remaining_steps_eq _ (by simp only; omega) hk]
  · intro s hc hl hrem
    have hge : ¬ s.current_step < s.command.callbacks.length := by
      intro hlt
      rw [remaining_steps_eq s (by omega) hl] at hrem
      omega
    simp only [get_next_step, hge, dif_neg, not_false_eq_true]
  · intro s s1 step hle hl hget
    by_cases hlt : s.current_step < s.command.callbacks.length
    · rw [get_next_step_ok s hlt hl] at hget
      simp only [Except.ok.injEq, Prod.mk.injEq] at hget
      obtain ⟨_, rfl⟩ := hget
      have e1 := remaining_steps_eq s hle hl
      have e2 := remaining_steps_eq { s with current_step := s.current_step + 1 }
        (by simp only; omega) hl
      simp only at e2
      refine ⟨by simp only; omega, ?_⟩
      rw [e1, e2]
      omega
    · simp only [get_next_step, hlt, dif_neg, not_false_eq_true] at hget
      cases hget
  · intro s
    exact ⟨rfl, rfl, rfl, rfl⟩

/-- Witness of C17 on a command with the three steps 10, 20, 30: the second
call returns the step 20 and leaves one step. -/
theorem adhoc_session_steps_witness :
    ([10, 20, 30] : List Nat).length < 2 ^ 64 ∧
    ∃ s s1, after_calls 1 (new (⟨[10, 20, 30]⟩ : AdhocCommand Nat) [] []) = .ok s ∧
      get_next_step s = .ok (20, s1) ∧ remaining_steps s1 = 3 - (1 + 1) :=
  ⟨by decide, (adhoc_session_steps (⟨[10, 20, 30]⟩ : AdhocCommand Nat) [] [] (by decide)).2.2.1 1
    (by decide)⟩

end AdhocSession

namespace xep0106

theorem token_at_some (T : List (Nat × List Nat)) (l : List Nat) (e : Nat × List Nat)
    (h : token_at T l = some e) : e ∈ T ∧ starts_with e.2 l = true :=
  ⟨List.mem_of_find?_eq_some h, by simpa using List.find?_some h⟩

theorem token_at_none (T : List (Nat × List Nat)) (l : List Nat) (h : token_at T l = none) :
    ∀ e ∈ T, starts_with e.2 l = false := by
  intro e he
  have := List.find?_eq_none.mp h e he
  simpa using this

theorem single_pass_nil (T : List (Nat × List Nat)) (skip : Nat) : single_pass T skip [] = [] := by
  cases skip <;> rfl

theorem single_pass_skip (T : List (Nat × List Nat)) (skip c : Nat) (s : List Nat) :
    single_pass T (skip + 1) (c :: s) = single_pass T skip s := rfl

/-- The single pass at a token of three characters. -/
theorem single_pass_token (T : List (Nat × List Nat)) (k a b c : Nat) (rest : List Nat)
    (h : token_at T (a :: b :: c :: rest) = some (k, [a, b, c])) :
    single_pass T 0 (a :: b :: c :: rest) = k :: single_pass T 0 rest := by
  rw [single_pass]
  simp only [h]
  rfl

/-- The single pass at a character at which no token stands. -/
theorem single_pass_plain (T : List (Nat × List Nat)) (c : Nat) (s : List Nat)
    (h : token_at T (c :: s) = none) :
    single_pass T 0 (c :: s) = c :: single_pass T 0 s := by
  rw [single_pass]
  simp only [h]

theorem goodTable_encode_map : GoodTable encode_map := by
  refine ⟨by decide, by decide, by decide⟩

theorem goodTable_of_subset (T T1 : List (Nat × List Nat)) (h : GoodTable T)
    (hsub : ∀ e ∈ T1, e ∈ T) : GoodTable T1 :=
  ⟨fun e he => h.1 e (hsub e he), fun e he e1 he1 => h.2.1 e (hsub e he) e1 (hsub e1 he1),
    fun e he e1 he1 => h.2.2 e (hsub e he) e1 (hsub e1 he1)⟩

end xep0106

namespace xep0106

theorem token_at_singleton (k : Nat) (tok l : List Nat) :
    token_at [(k, tok)] l = if starts_with tok l = true then some (k, tok) else none := by
  by_cases h : starts_with tok l = true <;> simp [token_at, List.find?, h]

/-- The loop of one entry gives what the single pass with that entry alone
gives, from any state `X ++ Y` in which no occurrence of the token starts
inside `X`. -/
theorem decode_entry_eq_single_pass (k a b c : Nat) (hk : k ≠ a ∧ k ≠ b ∧ k ≠ c) :
    ∀ (n : Nat) (Y X : List Nat) (fuel : Nat), Y.length ≤ n →
      find (X ++ Y) [a, b, c] = (find Y [a, b, c]).map (· + X.length) →
      Y.length < fuel →
      decode_entry k [a, b, c] fuel (X ++ Y) = .ok (X ++ single_pass [(k, [a, b, c])] 0 Y) := by
  intro n
  induction n with
  | zero =>
    intro Y X fuel hn hclean hf
    have hY : Y = [] := List.length_eq_zero.mp (by omega)
    subst hY
    obtain ⟨f, rfl⟩ : ∃ f, fuel = f + 1 := ⟨fuel - 1, by simp at hf; omega⟩
    rw [decode_entry_none _ _ _ _ (by rw [hclean]; simp [find]), single_pass_nil]
  | succ n ih =>
    intro Y X fuel hn hclean hf
    rcases Y with _ | ⟨y, Y⟩
    · obtain ⟨f, rfl⟩ : ∃ f, fuel = f + 1 := ⟨fuel - 1, by simp at hf; omega⟩
      rw [decode_entry_none _ _ _ _ (by rw [hclean]; simp [find]), single_pass_nil]
    simp only [List.length_cons] at hn hf
    by_cases hs : starts_with [a, b, c] (y :: Y) = true
    · obtain ⟨rest, hrest⟩ := (starts_with_three a b c _).mp hs
      obtain ⟨f, rfl⟩ : ∃ f, fuel = f + 1 := ⟨fuel - 1, by omega⟩
      have hlen : (y :: Y).length = rest.length + 3 := by rw [hrest]; simp
      simp only [List.length_cons] at hlen
      rw [hrest] at hclean hs ⊢
      have hfind : find (X ++ a :: b :: c :: rest) [a, b, c] = some X.length := by
        rw [hclean, find_of_starts_with _ _ hs]
        simp
      have htok : token_at [(k, [a, b, c])] (a :: b :: c :: rest) = some (k, [a, b, c]) := by
        rw [token_at_singleton, if_pos hs]
      have hrep := replace_at_append X [a, b, c] rest (List.replicate 1 k)
      simp only [List.cons_append, List.nil_append] at hrep
      rw [decode_entry_some _ _ _ _ X.length hfind, hrep,
        ih rest (X ++ List.replicate 1 k) f (by omega)
          (find_after_replace a b c k hk rest X hfind) (by omega),
        single_pass_token _ k a b c rest htok]
      simp
    · have hs' : starts_with [a, b, c] (y :: Y) = false := by simpa using hs
      have htok : token_at [(k, [a, b, c])] (y :: Y) = none := by
        rw [token_at_singleton, if_neg hs]
      have hone : find ([y] ++ Y) [a, b, c] = (find Y [a, b, c]).map (· + [y].length) := by
        simpa using find_cons_of_not_starts_with _ _ _ hs'
      have hglue := find_append_glue _ X [y] Y hclean hone
      have h := ih Y (X ++ [y]) fuel (by omega) hglue (by omega)
      rw [single_pass_plain _ _ _ htok]
      simpa using h

end xep0106

namespace xep0106

theorem single_pass_some (T : List (Nat × List Nat)) (c : Nat) (s : List Nat)
    (e : Nat × List Nat) (h : token_at T (c :: s) = some e) :
    single_pass T 0 (c :: s) = e.1 :: single_pass T (e.2.length - 1) s := by
  rw [single_pass]
  simp only [h]

/-- No occurrence of the token backslash, `b1`, `c1` starts at a character
that the single pass leaves, unless one stood there before the pass: the
keys that the pass writes are not characters of the token. -/
theorem starts_with_plain_pass (P : List (Nat × List Nat)) (b1 c1 : Nat)
    (hP : ∀ e ∈ P, e.1 ≠ b1 ∧ e.1 ≠ c1) (a : Nat) (s : List Nat)
    (h : starts_with [0x5C, b1, c1] (a :: single_pass P 0 s) = true) :
    starts_with [0x5C, b1, c1] (a :: s) = true := by
  obtain ⟨r, hr⟩ := (starts_with_three _ _ _ _).mp h
  simp only [List.cons.injEq] at hr
  obtain ⟨ha, hE⟩ := hr
  rcases s with _ | ⟨x, s1⟩
  · simp [single_pass_nil] at hE
  cases h1 : token_at P (x :: s1) with
  | some e =>
    rw [single_pass_some P x s1 e h1] at hE
    simp only [List.cons.injEq] at hE
    exact absurd hE.1 (hP e (token_at_some P _ e h1).1).1
  | none =>
    rw [single_pass_plain P x s1 h1] at hE
    simp only [List.cons.injEq] at hE
    obtain ⟨hx, hE⟩ := hE
    rcases s1 with _ | ⟨y, s2⟩
    · simp [single_pass_nil] at hE
    cases h2 : token_at P (y :: s2) with
    | some e =>
      rw [single_pass_some P y s2 e h2] at hE
      simp only [List.cons.injEq] at hE
      exact absurd hE.1 (hP e (token_at_some P _ e h2).1).2
    | none =>
      rw [single_pass_plain P y s2 h2] at hE
      simp only [List.cons.injEq] at hE
      rw [starts_with_three]
      exact ⟨s2, by rw [ha, hx, hE.1]⟩

theorem token_at_cons (e : Nat × List Nat) (T : List (Nat × List Nat)) (l : List Nat) :
    token_at (e :: T) l = if starts_with e.2 l = true then some e else token_at T l := by
  by_cases h : starts_with e.2 l = true <;> simp [token_at, List.find?, h]

/-- Whether a token of three characters stands at the head of a string
depends on its first three characters only. -/
theorem token_at_three (T : List (Nat × List Nat)) (hT : ∀ e ∈ T, tokenOK e.2 = true)
    (a b c : Nat) (r r1 : List Nat) :
    token_at T (a :: b :: c :: r) = token_at T (a :: b :: c :: r1) := by
  induction T with
  | nil => rfl
  | cons e T ih =>
    obtain ⟨b0, c0, he, _, _⟩ := (tokenOK_iff e.2).mp (hT e (by simp))
    have hs : starts_with e.2 (a :: b :: c :: r) = starts_with e.2 (a :: b :: c :: r1) := by
      rw [he]; simp [starts_with]
    rw [token_at_cons, token_at_cons, hs, ih (fun x hx => hT x (List.mem_cons_of_mem _ hx))]

theorem token_at_of_head_ne (T : List (Nat × List Nat)) (hT : ∀ e ∈ T, tokenOK e.2 = true)
    (x : Nat) (s : List Nat) (hx : x ≠ 0x5C) : token_at T (x :: s) = none := by
  apply List.find?_eq_none.mpr
  intro e he
  obtain ⟨b0, c0, hetok, _, _⟩ := (tokenOK_iff e.2).mp (hT e he)
  simp only [Bool.not_eq_true]
  rw [hetok, Bool.eq_false_iff]
  intro hs
  obtain ⟨r, hr⟩ := (starts_with_three _ _ _ _).mp hs
  simp only [List.cons.injEq] at hr
  exact hx hr.1

end xep0106

namespace xep0106

/-- The single pass with the entries of `T`, after the single pass with one
more entry, gives what the single pass with all these entries gives. -/
theorem single_pass_compose (k b c : Nat) (T : List (Nat × List Nat))
    (hG : GoodTable ((k, [0x5C, b, c]) :: T)) :
    ∀ (n : Nat) (s : List Nat), s.length ≤ n →
      single_pass T 0 (single_pass [(k, [0x5C, b, c])] 0 s) =
        single_pass ((k, [0x5C, b, c]) :: T) 0 s := by
  obtain ⟨hG1, hG2, _⟩ := hG
  have hTokT : ∀ x ∈ T, tokenOK x.2 = true := fun x hx => hG1 x (List.mem_cons_of_mem _ hx)
  have hTokE : ∀ x ∈ [(k, [0x5C, b, c])], tokenOK x.2 = true := fun x hx =>
    hG1 x (by simp only [List.mem_singleton] at hx; simp [hx])
  have hk5C : k ≠ 0x5C := by
    have := hG2 (k, [0x5C, b, c]) (by simp) (k, [0x5C, b, c]) (by simp)
    simp only [List.mem_cons, List.mem_singleton, List.not_mem_nil, or_false, not_or] at this
    exact this.1
  intro n
  induction n with
  | zero =>
    intro s hs
    have : s = [] := List.length_eq_zero.mp (by omega)
    subst this
    simp [single_pass_nil]
  | succ n ih =>
    intro s hs
    rcases s with _ | ⟨a, s1⟩
    · simp [single_pass_nil]
    simp only [List.length_cons] at hs
    by_cases hst : starts_with [0x5C, b, c] (a :: s1) = true
    · obtain ⟨rest, hrest⟩ := (starts_with_three _ _ _ _).mp hst
      have hlen : (a :: s1).length = rest.length + 3 := by rw [hrest]; simp
      simp only [List.length_cons] at hlen
      rw [hrest] at hst ⊢
      have h1 : token_at [(k, [0x5C, b, c])] (0x5C :: b :: c :: rest) =
          some (k, [0x5C, b, c]) := by
        rw [token_at_singleton, if_pos hst]
      have h2 : token_at ((k, [0x5C, b, c]) :: T) (0x5C :: b :: c :: rest) =
          some (k, [0x5C, b, c]) := by
        rw [token_at_cons, if_pos hst]
      rw [single_pass_token _ k _ _ _ rest h1, single_pass_token _ k _ _ _ rest h2,
        single_pass_plain T k _ (token_at_of_head_ne T hTokT k _ hk5C), ih rest (by omega)]
    · have h1 : token_at [(k, [0x5C, b, c])] (a :: s1) = none := by
        rw [token_at_singleton, if_neg hst]
      have h2 : token_at ((k, [0x5C, b, c]) :: T) (a :: s1) = token_at T (a :: s1) := by
        rw [token_at_cons, if_neg hst]
      cases h3 : token_at T (a :: s1) with
      | some e1 =>
        obtain ⟨he1, hs1⟩ := token_at_some T _ e1 h3
        obtain ⟨k1, tok1⟩ := e1
        obtain ⟨b1, c1, htok1, hb1, hc1⟩ := (tokenOK_iff tok1).mp (hTokT _ he1)
        simp only at htok1 hs1
        subst htok1
        obtain ⟨rest, hrest⟩ := (starts_with_three _ _ _ _).mp hs1
        have hlen : (a :: s1).length = rest.length + 3 := by rw [hrest]; simp
        simp only [List.length_cons] at hlen
        rw [hrest] at h1 h2 h3 ⊢
        rw [h3] at h2
        rw [single_pass_plain _ _ _ h1,
          single_pass_plain _ b1 _ (token_at_of_head_ne _ hTokE b1 _ hb1),
          single_pass_plain _ c1 _ (token_at_of_head_ne _ hTokE c1 _ hc1),
          single_pass_token T k1 _ _ _ _ (by rw [token_at_three T hTokT _ _ _ _ rest, h3]),
          single_pass_token _ k1 _ _ _ rest h2, ih rest (by omega)]
      | none =>
        rw [h3] at h2
        have h4 : token_at T (a :: single_pass [(k, [0x5C, b, c])] 0 s1) = none := by
          apply List.find?_eq_none.mpr
          intro e1 he1
          obtain ⟨b1, c1, htok1, _, _⟩ := (tokenOK_iff e1.2).mp (hTokT _ he1)
          simp only [Bool.not_eq_true]
          rw [Bool.eq_false_iff]
          intro hs1
          rw [htok1] at hs1
          have hkk := hG2 (k, [0x5C, b, c]) (by simp) e1 (List.mem_cons_of_mem _ he1)
          rw [htok1] at hkk
          simp only [List.mem_cons, List.mem_singleton, List.not_mem_nil, or_false,
            not_or] at hkk
          have := starts_with_plain_pass [(k, [0x5C, b, c])] b1 c1 (by
            intro x hx
            simp only [List.mem_singleton] at hx
            subst hx
            exact ⟨hkk.2.1, hkk.2.2⟩) a s1 hs1
          have hnone := token_at_none T _ h3 e1 he1
          rw [htok1, this] at hnone
          cases hnone
        rw [single_pass_plain _ _ _ h1, single_pass_plain _ _ _ h4, single_pass_plain _ _ _ h2,
          ih s1 (by omega)]

end xep0106

namespace xep0106

theorem starts_with_iff_initial_segment (p l : List Nat) : starts_with p l = true ↔ p <+: l := by
  rw [List.prefix_iff_eq_take, starts_with, beq_iff_eq]
  exact eq_comm

/-- No token of the table occurs in what the single pass gives. -/
theorem single_pass_no_token (T : List (Nat × List Nat)) (hG : GoodTable T) :
    ∀ (n : Nat) (s : List Nat), s.length ≤ n → ∀ e1 ∈ T, ¬ e1.2 <:+: single_pass T 0 s := by
  obtain ⟨hG1, hG2, _⟩ := hG
  have hnil : ∀ e1 ∈ T, ¬ e1.2 <:+: ([] : List Nat) := by
    intro e1 he1 h
    obtain ⟨b1, c1, htok1, _, _⟩ := (tokenOK_iff e1.2).mp (hG1 _ he1)
    rw [List.infix_nil, htok1] at h
    cases h
  intro n
  induction n with
  | zero =>
    intro s hs e1 he1
    have : s = [] := List.length_eq_zero.mp (by omega)
    subst this
    rw [single_pass_nil]
    exact hnil e1 he1
  | succ n ih =>
    intro s hs e1 he1
    rcases s with _ | ⟨a, s1⟩
    · rw [single_pass_nil]
      exact hnil e1 he1
    simp only [List.length_cons] at hs
    obtain ⟨b1, c1, htok1, _, _⟩ := (tokenOK_iff e1.2).mp (hG1 _ he1)
    have hkeys : ∀ e ∈ T, e.1 ≠ 0x5C ∧ e.1 ≠ b1 ∧ e.1 ≠ c1 := by
      intro e he
      have := hG2 e he e1 he1
      rw [htok1] at this
      simpa only [List.mem_cons, List.mem_singleton, List.not_mem_nil, or_false, not_or,
        ne_eq] using this
    cases h : token_at T (a :: s1) with
    | some e =>
      obtain ⟨he, hs1⟩ := token_at_some T _ e h
      obtain ⟨k, tok⟩ := e
      obtain ⟨b, c, htok, _, _⟩ := (tokenOK_iff tok).mp (hG1 _ he)
      simp only at htok hs1
      subst htok
      obtain ⟨rest, hrest⟩ := (starts_with_three _ _ _ _).mp hs1
      have hlen : (a :: s1).length = rest.length + 3 := by rw [hrest]; simp
      simp only [List.length_cons] at hlen
      rw [hrest] at h ⊢
      rw [single_pass_token T k _ _ _ rest h, List.infix_cons_iff]
      rintro (hp | hi)
      · rw [← starts_with_iff_initial_segment, htok1, starts_with_three] at hp
        obtain ⟨r, hr⟩ := hp
        simp only [List.cons.injEq] at hr
        exact (hkeys _ he).1 hr.1
      · exact ih rest (by omega) e1 he1 hi
    | none =>
      rw [single_pass_plain T a s1 h, List.infix_cons_iff]
      rintro (hp | hi)
      · rw [← starts_with_iff_initial_segment, htok1] at hp
        have := starts_with_plain_pass T b1 c1 (fun e he => (hkeys e he).2) a s1 hp
        have hnone := token_at_none T _ h e1 he1
        rw [htok1, this] at hnone
        cases hnone
      · exact ih s1 (by omega) e1 he1 hi

theorem single_pass_empty_table : ∀ (s : List Nat), single_pass [] 0 s = s := by
  intro s
  induction s with
  | nil => rfl
  | cons c s ih => rw [single_pass_plain [] c s rfl, ih]

/-- The loop over the entries of a table gives what the single pass with
that table gives. -/
theorem decode_entries_eq_single_pass : ∀ (T : List (Nat × List Nat)), GoodTable T →
    ∀ s : List Nat, decode_entries T s = .ok (single_pass T 0 s) := by
  intro T
  induction T with
  | nil => intro _ s; rw [single_pass_empty_table]; rfl
  | cons e T ih =>
    intro hG s
    obtain ⟨k, tok⟩ := e
    obtain ⟨b, c, htok, _, _⟩ := (tokenOK_iff tok).mp (hG.1 (k, tok) (by simp))
    subst htok
    have hk : k ≠ 0x5C ∧ k ≠ b ∧ k ≠ c := by
      have := hG.2.1 (k, [0x5C, b, c]) (by simp) (k, [0x5C, b, c]) (by simp)
      simpa only [List.mem_cons, List.mem_singleton, List.not_mem_nil, or_false, not_or,
        ne_eq] using this
    have h1 := decode_entry_eq_single_pass k 0x5C b c hk s.length s [] (s.length + 1)
      (Nat.le_refl _) (find_nil_append _ _) (by omega)
    simp only [List.nil_append] at h1
    rw [decode_entries]
    simp only [h1, utils.ok_bind]
    rw [ih (goodTable_of_subset _ T hG (fun x hx => List.mem_cons_of_mem _ hx)),
      single_pass_compose k b c T hG _ s (Nat.le_refl _)]

theorem token_at_same_entries (T T1 : List (Nat × List Nat)) (hG : GoodTable T)
    (hmem : ∀ e, e ∈ T1 ↔ e ∈ T) (l : List Nat) : token_at T1 l = token_at T l := by
  cases h : token_at T l with
  | none =>
    apply List.find?_eq_none.mpr
    intro e he
    have := token_at_none T l h e ((hmem e).mp he)
    simp [this]
  | some e =>
    obtain ⟨he, hs⟩ := token_at_some T l e h
    cases h1 : token_at T1 l with
    | none =>
      have := token_at_none T1 l h1 e ((hmem e).mpr he)
      rw [hs] at this
      cases this
    | some e2 =>
      obtain ⟨he2, hs2⟩ := token_at_some T1 l e2 h1
      have he2T := (hmem e2).mp he2
      obtain ⟨b, c, htok, _, _⟩ := (tokenOK_iff e.2).mp (hG.1 _ he)
      obtain ⟨b2, c2, htok2, _, _⟩ := (tokenOK_iff e2.2).mp (hG.1 _ he2T)
      have heq : e2.2 = e.2 := by
        rw [htok] at hs
        rw [htok2] at hs2
        obtain ⟨r, hr⟩ := (starts_with_three _ _ _ _).mp hs
        obtain ⟨r2, hr2⟩ := (starts_with_three _ _ _ _).mp hs2
        rw [hr] at hr2
        simp only [List.cons.injEq, true_and] at hr2
        rw [htok, htok2, hr2.1, hr2.2.1]
      rw [hG.2.2 e2 he2T e he heq]

theorem single_pass_same_entries (T T1 : List (Nat × List Nat)) (hG : GoodTable T)
    (hmem : ∀ e, e ∈ T1 ↔ e ∈ T) :
    ∀ (s : List Nat) (skip : Nat), single_pass T1 skip s = single_pass T skip s := by
  intro s
  induction s with
  | nil => intro skip; rw [single_pass_nil, single_pass_nil]
  | cons c s ih =>
    intro skip
    rcases skip with _ | skip
    · have ht := token_at_same_entries T T1 hG hmem (c :: s)
      cases h : token_at T (c :: s) with
      | none =>
        rw [h] at ht
        rw [single_pass_plain T1 c s ht, single_pass_plain T c s h, ih 0]
      | some e =>
        rw [h] at ht
        rw [single_pass_some T1 c s e ht, single_pass_some T c s e h, ih]
    · rw [single_pass_skip, single_pass_skip, ih skip]

end xep0106

namespace xep0106

/-- To replace a token by its key neither creates nor destroys an occurrence
of another token: the key is no character of a token, and no token starts
inside another. -/
theorem infix_replace_iff (b c b1 c1 k : Nat) (hne : [0x5C, b1, c1] ≠ [0x5C, b, c])
    (hb : b ≠ 0x5C) (hc : c ≠ 0x5C) (hb1 : b1 ≠ 0x5C) (hc1 : c1 ≠ 0x5C)
    (hk : k ≠ 0x5C ∧ k ≠ b1 ∧ k ≠ c1) (post : List Nat) :
    ∀ pre : List Nat, [0x5C, b1, c1] <:+: pre ++ (0x5C :: b :: c :: post) ↔
      [0x5C, b1, c1] <:+: pre ++ (k :: post) := by
  have hno : ∀ (x : Nat) (l : List Nat), x ≠ 0x5C → ¬ [0x5C, b1, c1] <+: x :: l := by
    intro x l hx hp
    rw [← starts_with_iff_initial_segment, starts_with_three] at hp
    obtain ⟨r, hr⟩ := hp
    simp only [List.cons.injEq] at hr
    exact hx hr.1
  intro pre
  induction pre with
  | nil =>
    simp only [List.nil_append]
    rw [List.infix_cons_iff, List.infix_cons_iff, List.infix_cons_iff, List.infix_cons_iff]
    constructor
    · rintro (h | h | h | h)
      · rw [← starts_with_iff_initial_segment, starts_with_three] at h
        obtain ⟨r, hr⟩ := h
        simp only [List.cons.injEq, true_and] at hr
        exact absurd (by rw [hr.1, hr.2.1]) hne
      · exact absurd h (hno b _ hb)
      · exact absurd h (hno c _ hc)
      · exact Or.inr h
    · rintro (h | h)
      · exact absurd h (hno k _ hk.1)
      · exact Or.inr (Or.inr (Or.inr h))
  | cons x pre ih =>
    simp only [List.cons_append]
    rw [List.infix_cons_iff, List.infix_cons_iff, ih]
    have hsame : [0x5C, b1, c1] <+: x :: (pre ++ 0x5C :: b :: c :: post) ↔
        [0x5C, b1, c1] <+: x :: (pre ++ k :: post) := by
      rw [← starts_with_iff_initial_segment, ← starts_with_iff_initial_segment, starts_with_three,
        starts_with_three]
      rcases pre with _ | ⟨y, _ | ⟨z, pre⟩⟩
      · simp only [List.nil_append, List.cons.injEq]
        constructor
        · rintro ⟨r, _, h, _⟩
          exact absurd h.symm hb1
        · rintro ⟨r, _, h, _⟩
          exact absurd h hk.2.1
      · simp only [List.cons_append, List.nil_append, List.cons.injEq]
        constructor
        · rintro ⟨r, _, _, h, _⟩
          exact absurd h.symm hc1
        · rintro ⟨r, _, _, h, _⟩
          exact absurd h hk.2.2
      · simp only [List.cons_append, List.cons.injEq]
        constructor
        · rintro ⟨r, h1, h2, h3, _⟩
          exact ⟨_, h1, h2, h3, rfl⟩
        · rintro ⟨r, h1, h2, h3, _⟩
          exact ⟨_, h1, h2, h3, rfl⟩
    rw [hsame]

/-- C18: for every string, `decode` returns, and its loops, entry by entry,
leave what a single pass from left to right leaves, which replaces every
occurrence of any of the nine tokens by the key of its entry. To replace a
token by its key neither creates nor destroys an occurrence of another
token; the result is the same in whatever order the entries of the table
are processed, and no token occurs in it. -/
theorem decode_eq_single_pass (s : List Nat) :
    decode s = .ok (single_pass encode_map 0 s) ∧
    (∀ e ∈ encode_map, ∀ e1 ∈ encode_map, e1 ≠ e → ∀ pre post : List Nat,
      (e1.2 <:+: pre ++ (e.2 ++ post) ↔ e1.2 <:+: pre ++ (e.1 :: post))) ∧
    (∀ T : List (Nat × List Nat), T.Perm encode_map →
      decode_entries T s = .ok (single_pass encode_map 0 s)) ∧
    (∀ e ∈ encode_map, ¬ e.2 <:+: single_pass encode_map 0 s) := by
  have hG := goodTable_encode_map
  refine ⟨decode_entries_eq_single_pass encode_map hG s, ?_, ?_,
    single_pass_no_token encode_map hG s.length s (Nat.le_refl _)⟩
  · intro e he e1 he1 hne pre post
    obtain ⟨b, c, htok, hb, hc⟩ := (tokenOK_iff e.2).mp (hG.1 e he)
    obtain ⟨b1, c1, htok1, hb1, hc1⟩ := (tokenOK_iff e1.2).mp (hG.1 e1 he1)
    have hk := hG.2.1 e he e1 he1
    rw [htok1] at hk
    simp only [List.mem_cons, List.mem_singleton, List.not_mem_nil, or_false, not_or] at hk
    have hnetok : [0x5C, b1, c1] ≠ [0x5C, b, c] := by
      intro h
      exact hne (hG.2.2 e1 he1 e he (by rw [htok, htok1, h]))
    rw [htok, htok1]
    exact infix_replace_iff b c b1 c1 e.1 hnetok hb hc hb1 hc1 hk post pre
  · intro T hT
    have hmem : ∀ e, e ∈ T ↔ e ∈ encode_map := fun e => hT.mem_iff
    rw [decode_entries_eq_single_pass T
      (goodTable_of_subset encode_map T hG (fun e he => (hmem e).mp he)) s,
      single_pass_same_entries encode_map T hG hmem s 0]

end xep0106
